import Mathlib

/-!
Verification of the SOORENA external-resource enrichment pipeline
(`pubtator_enrich.py` and the merge/accession-identity layer in
`scripts/python/data_processing/merge_enriched_predictions.py`).

Python strings are modelled as `List Char` (`Str`).  Python `set`s of
strings are modelled canonically as strictly sorted lists (`StrSet`),
matching the code, which only ever observes sets through `sorted(...)`.
Python `dict`s are modelled as association lists with unique keys kept in
insertion order (`Dict`).  SQLite tables are association lists in row
order; `INSERT OR REPLACE` deletes the conflicting row and appends, as in
SQLite.  Network traffic is modelled by oracle functions: one fixed
function per external service, mapping each request to its response (or
to the exception that the HTTP layer re-raises after its retries).
-/

/-- Python strings. -/
abbrev Str := List Char

/-- Shorthand turning a Lean string literal into the `Str` model. -/
def str (s : String) : Str := s.data

/-- Whitespace test used by Python `str.strip`. -/
def isWs (c : Char) : Bool := c = ' ' ∨ c = '\t' ∨ c = '\n' ∨ c = '\r'

/-- Drop characters satisfying `p` from both ends of a string. -/
def trimBy (p : Char → Bool) (s : Str) : Str :=
  ((s.dropWhile p).reverse.dropWhile p).reverse

/-- Python `str.strip()` (no argument): strips whitespace from both ends. -/
def pyStrip (s : Str) : Str := trimBy isWs s

/-- SQLite `trim(X)`: strips space characters from both ends. -/
def sqlTrim (s : Str) : Str := trimBy (· = ' ') s

/-- Python `s.replace(a, b)` for single characters. -/
def replaceChar (a b : Char) (s : Str) : Str :=
  s.map (fun c => if c = a then b else c)

/-- Python `s.split(c)` for a single-character separator:
`"".split(c) = [""]`, and empty fields are kept. -/
def splitOnChar (c : Char) : Str → List Str
  | [] => [[]]
  | x :: xs =>
    if x = c then [] :: splitOnChar c xs
    else
      match splitOnChar c xs with
      | [] => [[x]]
      | h :: t => (x :: h) :: t

/-- Python `sep.join(parts)`. -/
def joinSep (sep : Str) : List Str → Str
  | [] => []
  | [x] => x
  | x :: xs => x ++ sep ++ joinSep sep xs

/-- Everything after the first occurrence of `c` (Python `s.split(c, 1)[1]`,
assuming `c` occurs in `s`). -/
def afterFirst (c : Char) : Str → Str
  | [] => []
  | x :: xs => if x = c then xs else afterFirst c xs

/-- Everything after the last occurrence of `c`
(Python `s.rsplit(c, 1)[-1]`). -/
def afterLast (c : Char) (s : Str) : Str :=
  (s.reverse.takeWhile (fun x => ¬ x = c)).reverse

/-- Python `str.lower()` (ASCII letters suffice for the pipeline's data). -/
def lowerStr (s : Str) : Str := s.map Char.toLower

/-- Python `a.startswith(b)`. -/
def startsStr : Str → Str → Bool
  | _, [] => true
  | [], _ :: _ => false
  | x :: xs, y :: ys => x = y && startsStr xs ys

/-- Python `str.isdigit()` (ASCII digits). -/
def isDigits (s : Str) : Bool := !s.isEmpty && s.all Char.isDigit

/-- Strict lexicographic order on strings by code point, as used by
Python `sorted` on `str`. -/
def strLt : Str → Str → Bool
  | [], [] => false
  | [], _ :: _ => true
  | _ :: _, [] => false
  | x :: xs, y :: ys =>
    if x.toNat < y.toNat then true
    else if y.toNat < x.toNat then false
    else strLt xs ys

/-- A Python `set` of strings, represented canonically as a strictly
`strLt`-sorted list (the code only observes sets via `sorted(...)`). -/
abbrev StrSet := List Str

/-- Insert into a sorted-set representation (Python `set.add`). -/
def sinsert (a : Str) : StrSet → StrSet
  | [] => [a]
  | b :: bs =>
    if strLt a b then a :: b :: bs
    else if a = b then b :: bs
    else b :: sinsert a bs

/-- Set union (Python `set.update` / `|`). -/
def unionS (s t : StrSet) : StrSet := t.foldl (fun s a => sinsert a s) s

/-- Rebuild a set from an arbitrary list of strings (Python `set(...)`). -/
def listToStrSet (l : List Str) : StrSet := l.foldl (fun s a => sinsert a s) []

section NormalizeGeneIds

/-- `pubtator_enrich.normalize_gene_ids`, body of the per-part loop: strip,
drop a case-insensitive `geneid:` head, keep an all-digits tail after the
last `:`, and keep the token only if it is entirely numeric. -/
def normTok (part0 : Str) : Option Str :=
  let part := pyStrip part0
  if part = [] then none
  else
    let part :=
      if startsStr (lowerStr part) (str "geneid:") then pyStrip (afterFirst ':' part)
      else part
    let part :=
      if part.contains ':' && !isDigits part then
        let tl := pyStrip (afterLast ':' part)
        if isDigits tl then tl else part
      else part
    if isDigits part then some part else none

/-- `pubtator_enrich.normalize_gene_ids`: split each raw identifier on
`|`, `;`, `,`; normalize each token; return the sorted set of the numeric
survivors. -/
def normalize_gene_ids (geneIds : List Str) : List Str :=
  geneIds.foldl
    (fun cleaned gid =>
      let raw := pyStrip gid
      if raw = [] then cleaned
      else
        (splitOnChar ',' (replaceChar ';' ',' (replaceChar '|' ',' raw))).foldl
          (fun cleaned part =>
            match normTok part with
            | some p => sinsert p cleaned
            | none => cleaned)
          cleaned)
    []

end NormalizeGeneIds

theorem iteSomeNone {α : Type} {c : Prop} [Decidable c] {x r : α}
    (h : (if c then some x else none) = some r) : c ∧ x = r := by
  by_cases hc : c
  · rw [if_pos hc] at h; exact ⟨hc, Option.some.inj h⟩
  · rw [if_neg hc] at h; exact absurd h (by simp)

theorem normTok_digits (p r : Str) (h : normTok p = some r) : isDigits r = true := by
  simp only [normTok] at h
  split at h
  · exact absurd h (by simp)
  all_goals
    obtain ⟨hc, hx⟩ := iteSomeNone h
    rw [← hx]; exact hc

section UpdatePredictions

/-- One row of the `predictions` table (only the columns touched by
`pubtator_enrich.update_predictions`; `none` models SQL NULL). -/
structure Row where
  pmid : Option Str
  ac : Option Str
  proteinId : Option Str
  proteinName : Option Str
  geneName : Option Str
deriving DecidableEq, Repr

/-- One parameter tuple of `update_predictions`, in the order the SQL
statement binds them: `(ac, protein_id, protein_name, gene_name, pmid)`. -/
structure UpdTuple where
  ac : Str
  proteinId : Str
  proteinName : Str
  geneName : Str
  pmid : Str
deriving DecidableEq, Repr

/-- The `WHERE` guard on the accession column:
`ac IS NULL OR trim(ac) = '' OR ac = 'Unknown'`. -/
def acMissing : Option Str → Bool
  | none => true
  | some s => sqlTrim s = [] || s = str "Unknown"

/-- `COALESCE(NULLIF(v, ''), old)`. -/
def coalesceNullif (v : Str) (old : Option Str) : Option Str :=
  if v = [] then old else some v

/-- Effect of one execution of the `UPDATE` statement of
`update_predictions` on one row. -/
def applyTupleRow (t : UpdTuple) (r : Row) : Row :=
  if r.pmid = some t.pmid && acMissing r.ac then
    { r with
      ac := coalesceNullif t.ac r.ac,
      proteinId := coalesceNullif t.proteinId r.proteinId,
      proteinName := coalesceNullif t.proteinName r.proteinName,
      geneName := coalesceNullif t.geneName r.geneName }
  else r

/-- `pubtator_enrich.update_predictions`: `executemany` runs the `UPDATE`
once per tuple, in order; each execution updates every matching row. -/
def update_predictions (updates : List UpdTuple) (tbl : List Row) : List Row :=
  updates.foldl (fun tbl t => tbl.map (applyTupleRow t)) tbl

theorem applyTupleRow_populated (t : UpdTuple) (r : Row)
    (h : acMissing r.ac = false) : applyTupleRow t r = r := by
  unfold applyTupleRow
  rw [if_neg]
  simp [h]

theorem update_predictions_eq_map (updates : List UpdTuple) (tbl : List Row) :
    update_predictions updates tbl
      = tbl.map (fun r => updates.foldl (fun r t => applyTupleRow t r) r) := by
  induction updates generalizing tbl with
  | nil => simp [update_predictions]
  | cons t ts ih =>
    show update_predictions ts (tbl.map (applyTupleRow t)) = _
    rw [ih, List.map_map]
    rfl

end UpdatePredictions

/-- C2 counterexample: the `WHERE` guard of `update_predictions` checks
only the accession column. A row whose AC is empty but whose Protein_ID
already holds the non-empty, non-sentinel value "OLD" has that field
overwritten by the non-empty candidate "NEW", so the claim that no
populated, non-sentinel field is ever changed is false. -/
theorem c2_counterexample :
    (let r0 : Row :=
      { pmid := some (str "1"), ac := some [], proteinId := some (str "OLD"),
        proteinName := some (str "PN"), geneName := some (str "GN") }
     let t0 : UpdTuple :=
      { ac := [], proteinId := str "NEW", proteinName := [],
        geneName := [], pmid := str "1" }
     r0.proteinId = some (str "OLD") ∧ str "OLD" ≠ [] ∧
       str "OLD" ≠ str "Unknown" ∧
       (update_predictions [t0] [r0]).map Row.proteinId = [some (str "NEW")]) := by
  decide

/-- C2 amended: a row whose accession column is populated (non-NULL,
non-blank after space-trimming, and not the sentinel 'Unknown') is left
entirely unchanged by `update_predictions`; every other row receives, in
order, each update tuple with a matching PMID, whose non-empty candidate
values overwrite the row's other fields regardless of their current
content. -/
theorem c2_update_only_if_ac_empty (updates : List UpdTuple) (tbl : List Row) :
    update_predictions updates tbl
      = tbl.map (fun r =>
          if acMissing r.ac then updates.foldl (fun r t => applyTupleRow t r) r
          else r) := by
  rw [update_predictions_eq_map]
  apply List.map_congr_left
  intro r _
  by_cases h : acMissing r.ac
  · rw [if_pos h]
  · rw [if_neg h]
    rw [Bool.not_eq_true] at h
    induction updates with
    | nil => rfl
    | cons t ts ih => rw [List.foldl_cons, applyTupleRow_populated t r h, ih]

section DictOps

/-- Lookup in a Python-dict model (association list, unique keys kept in
insertion order). -/
def dlookup {α : Type} (d : List (Str × α)) (k : Str) : Option α :=
  match d with
  | [] => none
  | (k2, v) :: rest => if k2 = k then some v else dlookup rest k

/-- Python `d[k] = v`: replace in place, or append a new key. -/
def dset {α : Type} (k : Str) (v : α) : List (Str × α) → List (Str × α)
  | [] => [(k, v)]
  | (k2, v2) :: rest => if k2 = k then (k2, v) :: rest else (k2, v2) :: dset k v rest

/-- Python `d.update(e)`. -/
def dupdate {α : Type} (d e : List (Str × α)) : List (Str × α) :=
  e.foldl (fun d kv => dset kv.1 kv.2 d) d

/-- Python `d.setdefault(k, set()).add(a)` for dicts of string sets. -/
def dAddToSet (k a : Str) : List (Str × StrSet) → List (Str × StrSet)
  | [] => [(k, [a])]
  | (k2, v2) :: rest =>
    if k2 = k then (k2, sinsert a v2) :: rest else (k2, v2) :: dAddToSet k a rest

end DictOps

section GenerateRowAc

/-- One input row of the merged predictions table, reduced to the two
columns `generate_unique_row_ac` reads. -/
structure PreRow where
  pmid : Str
  source : Str
deriving DecidableEq, Repr

/-- `merge_enriched_predictions.generate_unique_row_ac.sanitize_pmid`. -/
def sanitize_pmid (p : Str) : Str :=
  let s := pyStrip p
  if s = [] ∨ s = str "-" ∨ s = str "nan" ∨ s = str "None" then str "UNKNOWN"
  else s

/-- The `source_codes` mapping with its fallback
(`source[0] if source and source != 'Unknown' else 'X'`). -/
def sourceCode (source : Str) : Str :=
  if source = str "UniProt" then str "U"
  else if source = str "Predicted" then str "P"
  else if source = str "Non-UniProt" then str "P"
  else if source = str "OmniPath" then str "O"
  else if source = str "SIGNOR" then str "S"
  else if source = str "TRRUST" then str "T"
  else if source = str "Signor" then str "S"
  else if source = str "ORegAnno" then str "R"
  else if source = str "HTRIdb" then str "H"
  else if source ≠ [] ∧ source ≠ str "Unknown" then source.take 1
  else str "X"

/-- Row order of `df.sort_values([pmid_col, source_col])`: ascending
lexicographic on (PMID, Source). -/
def rowLe (a b : PreRow) : Bool :=
  strLt a.pmid b.pmid || (a.pmid = b.pmid && !strLt b.source a.source)

def insortRow (a : PreRow) : List PreRow → List PreRow
  | [] => [a]
  | b :: bs => if rowLe a b then a :: b :: bs else b :: insortRow a bs

def sortRows (l : List PreRow) : List PreRow := l.foldr insortRow []

/-- `merge_enriched_predictions.generate_unique_row_ac`: sort rows by
(PMID, Source), then walk them keeping an occurrence counter per
`f"{sanitized_pmid}_{source}"` key, emitting
`{prefix}-{source_code}-{sanitized_pmid}-{counter}` per row (the returned
list is the AC column, aligned with the sorted rows). -/
def generate_unique_row_ac (pfx : Str) (rows : List PreRow) : List Str :=
  ((sortRows rows).foldl
    (fun (st : List (Str × Nat) × List Str) row =>
      let pmid := sanitize_pmid row.pmid
      let source := row.source
      let code := sourceCode source
      let key := pmid ++ str "_" ++ source
      let n := ((dlookup st.1 key).getD 0) + 1
      let ac := pfx ++ str "-" ++ code ++ str "-" ++ pmid ++ str "-"
                  ++ Nat.toDigits 10 n
      (dset key n st.1, st.2 ++ [ac]))
    ([], [])).2

end GenerateRowAc

/-- C7: the generated RowAccession values are not pairwise distinct. The
occurrence counter is keyed by `(pmid, source)`, but distinct sources
share a source code (`'Predicted'` and the legacy `'Non-UniProt'` both
map to `'P'`), so two rows with the same PMID and those two sources both
receive the AC `SOORENA-P-1-1`, contradicting the function's own
docstring ("This guarantees uniqueness"). -/
theorem c7_duplicate_row_ac :
    generate_unique_row_ac (str "SOORENA")
        [{ pmid := str "1", source := str "Predicted" },
         { pmid := str "1", source := str "Non-UniProt" }]
      = [str "SOORENA-P-1-1", str "SOORENA-P-1-1"] ∧
    ¬ (generate_unique_row_ac (str "SOORENA")
        [{ pmid := str "1", source := str "Predicted" },
         { pmid := str "1", source := str "Non-UniProt" }]).Nodup := by
  decide

section HttpClient

/-- Outcome of one network attempt, as seen by the caller of
`urllib.request.urlopen` + `json.load`: either a decoded response or a
raised exception (`HTTPError` with a status code, or anything else). -/
inductive HErr where
  | http (code : Nat)
  | other
deriving DecidableEq, Repr

/-- The retry loop shared by `http_get_json`: attempt `i`; on success
return the decoded body; on failure re-raise if `attempt == retries - 1`,
otherwise sleep `sleep * (2 ** attempt)` and continue. The slept
durations are returned alongside the result; `emptyJ` is the `return {}`
after the loop (reachable only when `retries = 0`). -/
def httpGetLoop {α : Type} (attempt : Nat → Except HErr α) (retries : Nat)
    (base : ℚ) (emptyJ : α) : Nat → Nat → List ℚ → Except HErr α × List ℚ
  | 0, _, sleeps => (.ok emptyJ, sleeps)
  | fuel + 1, i, sleeps =>
    match attempt i with
    | .ok v => (.ok v, sleeps)
    | .error e =>
      if i = retries - 1 then (.error e, sleeps)
      else httpGetLoop attempt retries base emptyJ fuel (i + 1)
        (sleeps ++ [base * 2 ^ i])

/-- `pubtator_enrich.http_get_json` (result, plus the backoff sleeps it
performed). -/
def http_get_json {α : Type} (attempt : Nat → Except HErr α) (retries : Nat)
    (base : ℚ) (emptyJ : α) : Except HErr α × List ℚ :=
  httpGetLoop attempt retries base emptyJ retries 0 []

/-- The identical retry loop of `http_post_json` (the form payload is
encoded outside the loop, so it is part of the attempt oracle). -/
def httpPostLoop {α : Type} (attempt : Nat → Except HErr α) (retries : Nat)
    (base : ℚ) (emptyJ : α) : Nat → Nat → List ℚ → Except HErr α × List ℚ
  | 0, _, sleeps => (.ok emptyJ, sleeps)
  | fuel + 1, i, sleeps =>
    match attempt i with
    | .ok v => (.ok v, sleeps)
    | .error e =>
      if i = retries - 1 then (.error e, sleeps)
      else httpPostLoop attempt retries base emptyJ fuel (i + 1)
        (sleeps ++ [base * 2 ^ i])

/-- `pubtator_enrich.http_post_json`. -/
def http_post_json {α : Type} (attempt : Nat → Except HErr α) (retries : Nat)
    (base : ℚ) (emptyJ : α) : Except HErr α × List ℚ :=
  httpPostLoop attempt retries base emptyJ retries 0 []

theorem httpGetLoop_all_fail {α : Type} (attempt : Nat → Except HErr α)
    (retries : Nat) (base : ℚ) (emptyJ : α) (err : Nat → HErr) :
    ∀ fuel i sleeps, fuel = retries - i → i < retries →
      (∀ j, i ≤ j → j < retries → attempt j = .error (err j)) →
      httpGetLoop attempt retries base emptyJ fuel i sleeps
        = (.error (err (retries - 1)),
           sleeps ++ (List.range' i (retries - 1 - i)).map (fun j => base * 2 ^ j)) := by
  intro fuel
  induction fuel with
  | zero => intro i sleeps hf hi _; omega
  | succ f ih =>
    intro i sleeps hf hi hfail
    have hai : attempt i = .error (err i) := hfail i (Nat.le_refl i) hi
    unfold httpGetLoop
    simp only [hai]
    by_cases hlast : i = retries - 1
    · have h0 : retries - 1 - i = 0 := by omega
      rw [if_pos hlast, h0, hlast]
      simp
    · rw [if_neg hlast]
      rw [ih (i + 1) (sleeps ++ [base * 2 ^ i]) (by omega) (by omega)
        (fun j h1 h2 => hfail j (by omega) h2)]
      have h1 : retries - 1 - i = (retries - 1 - (i + 1)) + 1 := by omega
      rw [h1, List.range'_succ]
      simp

theorem httpGetLoop_succeeds {α : Type} (attempt : Nat → Except HErr α)
    (retries : Nat) (base : ℚ) (emptyJ : α) (err : Nat → HErr) (k : Nat) (v : α) :
    ∀ fuel i sleeps, fuel = retries - i → i ≤ k → k < retries →
      (∀ j, i ≤ j → j < k → attempt j = .error (err j)) →
      attempt k = .ok v →
      httpGetLoop attempt retries base emptyJ fuel i sleeps
        = (.ok v, sleeps ++ (List.range' i (k - i)).map (fun j => base * 2 ^ j)) := by
  intro fuel
  induction fuel with
  | zero => intro i sleeps hf hi hk _ _; omega
  | succ f ih =>
    intro i sleeps hf hik hk hfail hok
    unfold httpGetLoop
    by_cases hieq : i = k
    · subst hieq
      simp only [hok]
      simp
    · have hai : attempt i = .error (err i) := hfail i (Nat.le_refl i) (by omega)
      simp only [hai]
      rw [if_neg (show ¬ i = retries - 1 by omega)]
      rw [ih (i + 1) (sleeps ++ [base * 2 ^ i]) (by omega) (by omega) hk
        (fun j h1 h2 => hfail j (by omega) h2) hok]
      have h1 : k - i = (k - (i + 1)) + 1 := by omega
      rw [h1, List.range'_succ]
      simp

theorem httpPostLoop_eq_get {α : Type} (attempt : Nat → Except HErr α)
    (retries : Nat) (base : ℚ) (emptyJ : α) :
    ∀ fuel i sleeps, httpPostLoop attempt retries base emptyJ fuel i sleeps
      = httpGetLoop attempt retries base emptyJ fuel i sleeps := by
  intro fuel
  induction fuel with
  | zero => intro i sleeps; rfl
  | succ f ih =>
    intro i sleeps
    unfold httpPostLoop httpGetLoop
    cases hai : attempt i with
    | ok v => simp only [hai]
    | error e =>
      simp only [hai]
      by_cases hlast : i = retries - 1
      · rw [if_pos hlast, if_pos hlast]
      · rw [if_neg hlast, if_neg hlast, ih]

end HttpClient

/-- C9: both HTTP helpers retry a failing request exactly `retries`
times, sleeping `base * 2 ^ attempt` between consecutive attempts; when
every attempt fails, the last exception propagates unchanged (never an
empty result); when attempt `k` is the first success, the loop stops
there with the decoded response. -/
theorem c9_http_retry_contract {α : Type} (attempt : Nat → Except HErr α)
    (retries : Nat) (base : ℚ) (emptyJ : α) (err : Nat → HErr)
    (hr : 1 ≤ retries) :
    ((∀ i, i < retries → attempt i = .error (err i)) →
      http_get_json attempt retries base emptyJ
          = (.error (err (retries - 1)),
             (List.range (retries - 1)).map (fun j => base * 2 ^ j)) ∧
      http_post_json attempt retries base emptyJ
          = (.error (err (retries - 1)),
             (List.range (retries - 1)).map (fun j => base * 2 ^ j))) ∧
    (∀ k v, k < retries → (∀ i, i < k → attempt i = .error (err i)) →
      attempt k = .ok v →
      http_get_json attempt retries base emptyJ
          = (.ok v, (List.range k).map (fun j => base * 2 ^ j)) ∧
      http_post_json attempt retries base emptyJ
          = (.ok v, (List.range k).map (fun j => base * 2 ^ j))) := by
  constructor
  · intro hfail
    have hg := httpGetLoop_all_fail attempt retries base emptyJ err retries 0 []
      (by omega) (by omega) (fun j _ h2 => hfail j h2)
    constructor
    · rw [http_get_json, hg]
      simp [List.range_eq_range']
    · rw [http_post_json, httpPostLoop_eq_get, hg]
      simp [List.range_eq_range']
  · intro k v hk hfail hok
    have hg := httpGetLoop_succeeds attempt retries base emptyJ err k v retries 0 []
      (by omega) (by omega) hk (fun j _ h2 => hfail j h2) hok
    constructor
    · rw [http_get_json, hg]
      simp [List.range_eq_range']
    · rw [http_post_json, httpPostLoop_eq_get, hg]
      simp [List.range_eq_range']

/-- C9 witness: with three attempts all failing with a non-HTTP error,
`http_get_json` propagates the last error after sleeping 1 and 2
seconds; with a success on the second attempt it returns it after one
1-second sleep. -/
theorem c9_http_retry_contract_witness :
    http_get_json (fun i => if i = 1 then .ok 7 else (.error .other : Except HErr Nat)) 3 1 0
        = (.ok 7, [1 * 2 ^ 0]) ∧
    http_post_json (fun _ => (.error (.http 500) : Except HErr Nat)) 3 1 0
        = (.error (.http 500), [1 * 2 ^ 0, 1 * 2 ^ 1]) := by
  constructor
  · have h := ((c9_http_retry_contract
      (fun i => if i = 1 then .ok 7 else (.error .other : Except HErr Nat)) 3 1 0
      (fun _ => .other) (by omega)).2 1 7 (by omega)
      (by intro i hi; interval_cases i; rfl) (by rfl)).1
    rw [h]
    rfl
  · have h := ((c9_http_retry_contract
      (fun _ => (.error (.http 500) : Except HErr Nat)) 3 1 0
      (fun _ => .http 500) (by omega)).1 (fun i _ => rfl)).2
    rw [h]
    rfl

section StrOrder

theorem charExt {x y : Char} (h : x.toNat = y.toNat) : x = y := by
  have h2 : x.val = y.val := UInt32.ext h
  cases x
  cases y
  simp only [] at h2
  subst h2
  rfl

theorem strLt_irrefl (a : Str) : strLt a a = false := by
  induction a with
  | nil => rfl
  | cons x xs ih => simp [strLt, ih]

theorem strLt_trans {a : Str} : ∀ {b c : Str},
    strLt a b = true → strLt b c = true → strLt a c = true := by
  induction a with
  | nil =>
    intro b c hab hbc
    cases b with
    | nil => simp [strLt] at hab
    | cons y ys =>
      cases c with
      | nil => simp [strLt] at hbc
      | cons z zs => simp [strLt]
  | cons x xs ih =>
    intro b c hab hbc
    cases b with
    | nil => simp [strLt] at hab
    | cons y ys =>
      cases c with
      | nil => simp [strLt] at hbc
      | cons z zs =>
        simp only [strLt] at hab hbc ⊢
        rcases lt_trichotomy x.toNat y.toNat with h1 | h1 | h1
        · rcases lt_trichotomy y.toNat z.toNat with h2 | h2 | h2
          · simp [h1.trans h2]
          · have hyz : y = z := charExt h2
            subst hyz
            simp [h1]
          · simp [asymm h2, h2] at hbc
        · have hxy : x = y := charExt h1
          subst hxy
          simp only [lt_irrefl, if_false] at hab
          rcases lt_trichotomy x.toNat z.toNat with h2 | h2 | h2
          · simp [h2]
          · have hxz : x = z := charExt h2
            subst hxz
            simp only [lt_irrefl, if_false] at hbc ⊢
            exact ih hab hbc
          · simp [asymm h2, h2] at hbc
        · simp [asymm h1, h1] at hab

theorem strLt_asymm {a b : Str} (h : strLt a b = true) : strLt b a = false := by
  by_contra h2
  have h3 : strLt b a = true := by simpa using h2
  have h4 := strLt_trans h h3
  rw [strLt_irrefl] at h4
  exact absurd h4 (by simp)

theorem strLt_connex : ∀ (a b : Str), a = b ∨ strLt a b = true ∨ strLt b a = true := by
  intro a
  induction a with
  | nil =>
    intro b
    cases b with
    | nil => exact Or.inl rfl
    | cons y ys => exact Or.inr (Or.inl (by simp [strLt]))
  | cons x xs ih =>
    intro b
    cases b with
    | nil => exact Or.inr (Or.inr (by simp [strLt]))
    | cons y ys =>
      rcases lt_trichotomy x.toNat y.toNat with h1 | h1 | h1
      · exact Or.inr (Or.inl (by simp [strLt, h1]))
      · have hxy : x = y := charExt h1
        subst hxy
        rcases ih ys with h2 | h2 | h2
        · exact Or.inl (by rw [h2])
        · exact Or.inr (Or.inl (by simp [strLt, h2]))
        · exact Or.inr (Or.inr (by simp [strLt, h2]))
      · exact Or.inr (Or.inr (by simp [strLt, h1]))

/-- The strict sortedness invariant of the `StrSet` representation. -/
def SortedSet (s : StrSet) : Prop := s.Pairwise (fun a b => strLt a b = true)

instance (s : StrSet) : Decidable (SortedSet s) :=
  inferInstanceAs (Decidable (s.Pairwise (fun a b => strLt a b = true)))

theorem mem_sinsert {b a : Str} : ∀ {s : StrSet}, b ∈ sinsert a s ↔ b = a ∨ b ∈ s := by
  intro s
  induction s with
  | nil => simp [sinsert]
  | cons c cs ih =>
    by_cases h1 : strLt a c
    · simp [sinsert, h1]
    · by_cases h2 : a = c
      · subst h2
        rw [sinsert, if_neg (by simp [h1]), if_pos rfl]
        constructor
        · intro h; exact Or.inr h
        · intro h
          rcases h with h | h
          · rw [h]; exact List.mem_cons_self a cs
          · exact h
      · rw [sinsert, if_neg (by simp [h1]), if_neg h2]
        rw [List.mem_cons, List.mem_cons, ih]
        tauto

theorem sinsert_sorted {a : Str} : ∀ {s : StrSet}, SortedSet s → SortedSet (sinsert a s) := by
  intro s
  induction s with
  | nil => intro _; simp [sinsert, SortedSet]
  | cons c cs ih =>
    intro hs
    rw [SortedSet, List.pairwise_cons] at hs
    obtain ⟨hc, hcs⟩ := hs
    by_cases h1 : strLt a c
    · rw [sinsert, if_pos h1]
      rw [SortedSet, List.pairwise_cons]
      refine ⟨?_, List.pairwise_cons.mpr ⟨hc, hcs⟩⟩
      intro b hb
      rcases List.mem_cons.mp hb with hb2 | hb2
      · rw [hb2]; exact h1
      · exact strLt_trans h1 (hc b hb2)
    · by_cases h2 : a = c
      · rw [sinsert, if_neg (by simp [h1]), if_pos h2]
        exact List.pairwise_cons.mpr ⟨hc, hcs⟩
      · rw [sinsert, if_neg (by simp [h1]), if_neg h2]
        rw [SortedSet, List.pairwise_cons]
        refine ⟨?_, ih hcs⟩
        intro b hb
        rcases mem_sinsert.mp hb with hb2 | hb2
        · subst hb2
          rcases strLt_connex c b with h3 | h3 | h3
          · exact absurd h3.symm h2
          · exact h3
          · exact absurd h3 (by simp [h1])
        · exact hc b hb2

theorem sinsert_of_forall_lt {a : Str} : ∀ {s : StrSet},
    (∀ b ∈ s, strLt b a = true) → sinsert a s = s ++ [a] := by
  intro s
  induction s with
  | nil => intro _; rfl
  | cons c cs ih =>
    intro h
    have hca : strLt c a = true := h c (List.mem_cons_self c cs)
    rw [sinsert, if_neg (by simp [strLt_asymm hca]),
      if_neg (by rintro rfl; rw [strLt_irrefl] at hca; exact absurd hca (by simp))]
    rw [ih (fun b hb => h b (List.mem_cons_of_mem c hb))]
    rfl

theorem foldl_sinsert_sorted : ∀ (s t : StrSet), SortedSet (t ++ s) →
    s.foldl (fun acc a => sinsert a acc) t = t ++ s := by
  intro s
  induction s with
  | nil => intro t _; simp
  | cons a rest ih =>
    intro t hs
    have hlt : ∀ b ∈ t, strLt b a = true := by
      rw [SortedSet, List.pairwise_append] at hs
      intro b hb
      exact hs.2.2 b hb a (List.mem_cons_self a rest)
    rw [List.foldl_cons, sinsert_of_forall_lt hlt]
    rw [ih (t ++ [a]) (by simpa using hs)]
    simp

end StrOrder

section SplitJoin

theorem splitOnChar_ne_nil (c : Char) : ∀ (s : Str), splitOnChar c s ≠ [] := by
  intro s
  induction s with
  | nil => simp [splitOnChar]
  | cons x xs ih =>
    by_cases h : x = c
    · simp [splitOnChar, h]
    · rw [splitOnChar, if_neg h]
      cases hsp : splitOnChar c xs with
      | nil => simp
      | cons a as => simp

theorem splitOnChar_no_sep (c : Char) : ∀ (s : Str),
    s.contains c = false → splitOnChar c s = [s] := by
  intro s
  induction s with
  | nil => intro _; rfl
  | cons x xs ih =>
    intro h
    rw [List.contains_cons] at h
    have hx : ¬ x = c := by
      intro he
      rw [he] at h
      simp at h
    have hxs : xs.contains c = false := by
      revert h
      cases xs.contains c <;> simp
    rw [splitOnChar, if_neg hx, ih hxs]

theorem splitOnChar_append_sep (c : Char) : ∀ (x rest : Str),
    x.contains c = false → splitOnChar c (x ++ c :: rest) = x :: splitOnChar c rest := by
  intro x
  induction x with
  | nil =>
    intro rest _
    simp [splitOnChar]
  | cons a as ih =>
    intro rest h
    rw [List.contains_cons] at h
    have ha : ¬ a = c := by
      intro he
      rw [he] at h
      simp at h
    have has : as.contains c = false := by
      revert h
      cases as.contains c <;> simp
    rw [List.cons_append, splitOnChar, if_neg ha, ih rest has]

theorem splitOnChar_join (c : Char) : ∀ (parts : List Str), parts ≠ [] →
    (∀ p ∈ parts, p.contains c = false) →
    splitOnChar c (joinSep [c] parts) = parts := by
  intro parts
  induction parts with
  | nil => intro h _; exact absurd rfl h
  | cons p rest ih =>
    intro _ hns
    cases rest with
    | nil =>
      rw [joinSep]
      exact splitOnChar_no_sep c p (hns p (List.mem_cons_self p []))
    | cons q qs =>
      rw [joinSep]
      have : p ++ [c] ++ joinSep [c] (q :: qs) = p ++ c :: joinSep [c] (q :: qs) := by
        simp
      rw [this, splitOnChar_append_sep c p _ (hns p (List.mem_cons_self p _))]
      rw [ih (List.cons_ne_nil q qs) (fun r hr => hns r (List.mem_cons_of_mem p hr))]
      exact List.cons_ne_nil q qs

end SplitJoin

section CacheStore

/-- SQLite `INSERT OR REPLACE` on a table with a primary-key column: the
conflicting row is deleted and the new row appended. -/
def upsertRow {α : Type} (k : Str) (v : α) (tbl : List (Str × α)) : List (Str × α) :=
  tbl.filter (fun kv => ¬ kv.1 = k) ++ [(k, v)]

/-- The value of the row of `tbl` keyed `g` (last write wins, matching
both the primary key and the dict built row-by-row in the readers). -/
def lastVal {α : Type} (tbl : List (Str × α)) (g : Str) : Option α :=
  tbl.foldl (fun r kv => if kv.1 = g then some kv.2 else r) none

/-- Parse one `gene_to_uniprot.accessions` cell back into a set:
`set(a.strip() for a in accessions.split(',') if a.strip())`, with NULL
and `''` giving the empty set (`if accessions:`). -/
def parseGeneRow : Option Str → StrSet
  | none => []
  | some s =>
    if s = [] then []
    else (splitOnChar ',' s).foldl
      (fun acc a => if pyStrip a = [] then acc else sinsert (pyStrip a) acc) []

/-- `pubtator_enrich.get_cached_gene_map`: select the rows whose key is
in `ids` and build `{gene_id: set(accessions)}` row by row. -/
def get_cached_gene_map (tbl : List (Str × Option Str)) (ids : List Str) :
    List (Str × StrSet) :=
  tbl.foldl (fun m kv => if kv.1 ∈ ids then dset kv.1 (parseGeneRow kv.2) m else m) []

/-- `','.join(sorted(accessions)) if accessions else ''`. -/
def serializeAccs (s : StrSet) : Str := joinSep (str ",") s

/-- `pubtator_enrich.store_gene_map`: `INSERT OR REPLACE` one row per
mapping entry. -/
def store_gene_map (tbl : List (Str × Option Str)) (m : List (Str × StrSet)) :
    List (Str × Option Str) :=
  m.foldl (fun tbl kv => upsertRow kv.1 (some (serializeAccs kv.2)) tbl) tbl

end CacheStore

section RoundTrip

theorem parse_fold_strip : ∀ (parts : List Str) (acc : StrSet),
    (∀ p ∈ parts, pyStrip p = p ∧ p ≠ []) →
    parts.foldl (fun acc a => if pyStrip a = [] then acc else sinsert (pyStrip a) acc) acc
      = parts.foldl (fun acc a => sinsert a acc) acc := by
  intro parts
  induction parts with
  | nil => intro acc _; rfl
  | cons p rest ih =>
    intro acc h
    obtain ⟨hstrip, hne⟩ := h p (List.mem_cons_self p rest)
    rw [List.foldl_cons, List.foldl_cons, hstrip, if_neg hne]
    exact ih _ (fun q hq => h q (List.mem_cons_of_mem p hq))

theorem joinSep_ne_nil (sep : Str) (a : Str) (rest : List Str) (ha : a ≠ []) :
    joinSep sep (a :: rest) ≠ [] := by
  cases rest with
  | nil => rw [joinSep]; exact ha
  | cons b bs =>
    rw [joinSep]
    · cases a with
      | nil => exact absurd rfl ha
      | cons x xs => simp
    · exact List.cons_ne_nil b bs

theorem parse_serialize (s : StrSet) (hs : SortedSet s)
    (h : ∀ a ∈ s, a ≠ [] ∧ pyStrip a = a ∧ a.contains ',' = false) :
    parseGeneRow (some (serializeAccs s)) = s := by
  cases s with
  | nil => rfl
  | cons a rest =>
    rw [serializeAccs, parseGeneRow,
      if_neg (joinSep_ne_nil _ a rest (h a (List.mem_cons_self a rest)).1)]
    have hc : str "," = [','] := rfl
    rw [hc, splitOnChar_join ',' (a :: rest) (List.cons_ne_nil a rest)
      (fun p hp => (h p hp).2.2)]
    rw [parse_fold_strip (a :: rest) [] (fun p hp => ⟨(h p hp).2.1, (h p hp).1⟩)]
    exact foldl_sinsert_sorted (a :: rest) [] (by simpa using hs)

end RoundTrip

section LastValLemmas

theorem foldl_lastVal {α : Type} (g : Str) : ∀ (tbl : List (Str × α)) (r : Option α),
    tbl.foldl (fun r kv => if kv.1 = g then some kv.2 else r) r
      = match lastVal tbl g with
        | some v => some v
        | none => r := by
  intro tbl
  induction tbl with
  | nil => intro r; rfl
  | cons kv rest ih =>
    intro r
    have hcons : lastVal (kv :: rest) g
        = rest.foldl (fun r kv => if kv.1 = g then some kv.2 else r)
            (if kv.1 = g then some kv.2 else none) := by
      rw [lastVal, List.foldl_cons]
    rw [List.foldl_cons, hcons]
    by_cases hk : kv.1 = g
    · rw [if_pos hk, if_pos hk, ih (some kv.2)]
      cases lastVal rest g <;> rfl
    · rw [if_neg hk, if_neg hk, ih r, ih none]
      cases lastVal rest g <;> rfl

theorem lastVal_cons {α : Type} (kv : Str × α) (tbl : List (Str × α)) (g : Str) :
    lastVal (kv :: tbl) g
      = match lastVal tbl g with
        | some v => some v
        | none => if kv.1 = g then some kv.2 else none := by
  rw [lastVal, List.foldl_cons, foldl_lastVal]

theorem lastVal_append {α : Type} (t1 t2 : List (Str × α)) (g : Str) :
    lastVal (t1 ++ t2) g
      = match lastVal t2 g with
        | some v => some v
        | none => lastVal t1 g := by
  rw [lastVal, List.foldl_append, foldl_lastVal]
  cases lastVal t2 g <;> rfl

theorem lastVal_filter_ne {α : Type} (k g : Str) (hne : ¬ k = g) :
    ∀ (tbl : List (Str × α)),
    lastVal (tbl.filter (fun kv => ¬ kv.1 = k)) g = lastVal tbl g := by
  intro tbl
  induction tbl with
  | nil => rfl
  | cons kv rest ih =>
    by_cases hk : kv.1 = k
    · rw [List.filter_cons_of_neg (by simp [hk]), ih, lastVal_cons,
        if_neg (by rw [hk]; exact fun he => hne he)]
      cases lastVal rest g <;> rfl
    · rw [List.filter_cons_of_pos (by simp [hk]), lastVal_cons, lastVal_cons, ih]

theorem lastVal_filter_self {α : Type} (k : Str) : ∀ (tbl : List (Str × α)),
    lastVal (tbl.filter (fun kv => ¬ kv.1 = k)) k = none := by
  intro tbl
  induction tbl with
  | nil => rfl
  | cons kv rest ih =>
    by_cases hk : kv.1 = k
    · rw [List.filter_cons_of_neg (by simp [hk]), ih]
    · rw [List.filter_cons_of_pos (by simp [hk]), lastVal_cons, ih, if_neg hk]

theorem lastVal_upsert {α : Type} (k : Str) (v : α) (tbl : List (Str × α)) (g : Str) :
    lastVal (upsertRow k v tbl) g = if k = g then some v else lastVal tbl g := by
  rw [upsertRow, lastVal_append]
  by_cases hk : k = g
  · subst hk
    rw [if_pos rfl]
    have h1 : lastVal [(k, v)] k = some v := by simp [lastVal]
    rw [h1]
  · have h1 : lastVal [(k, v)] g = none := by simp [lastVal, hk]
    rw [h1, if_neg hk, lastVal_filter_ne k g hk]

theorem dlookup_dset {α : Type} (k : Str) (v : α) : ∀ (d : List (Str × α)) (g : Str),
    dlookup (dset k v d) g = if k = g then some v else dlookup d g := by
  intro d
  induction d with
  | nil =>
    intro g
    by_cases hk : k = g <;> simp [dset, dlookup, hk]
  | cons kv rest ih =>
    intro g
    by_cases h2 : kv.1 = k
    · rw [dset, if_pos h2]
      by_cases hk : k = g
      · rw [dlookup, if_pos (h2.trans hk), if_pos hk]
      · rw [dlookup, if_neg (fun he => hk (h2 ▸ he)), if_neg hk, dlookup,
          if_neg (fun he => hk (h2 ▸ he))]
    · rw [dset, if_neg h2]
      by_cases hg : kv.1 = g
      · rw [dlookup, if_pos hg, dlookup, if_pos hg]
        rw [if_neg (fun he => h2 (by rw [he, hg]))]
      · rw [dlookup, if_neg hg, dlookup, if_neg hg, ih]

theorem dlookup_mem {α : Type} :
    ∀ (d : List (Str × α)) (g : Str) (v : α), dlookup d g = some v → (g, v) ∈ d := by
  intro d
  induction d with
  | nil => intro g v h; exact absurd h (by simp [dlookup])
  | cons kv rest ih =>
    intro g v h
    rw [dlookup] at h
    by_cases hk : kv.1 = g
    · rw [if_pos hk] at h
      have heq : kv = (g, v) := by
        cases kv
        simp only [] at hk h
        rw [hk, Option.some.inj h]
      rw [← heq]
      exact List.mem_cons_self _ _
    · rw [if_neg hk] at h
      exact List.mem_cons_of_mem _ (ih g v h)

theorem dlookup_eq_lastVal_of_nodup {α : Type} :
    ∀ (d : List (Str × α)), (d.map Prod.fst).Nodup →
    ∀ g, dlookup d g = lastVal d g := by
  intro d
  induction d with
  | nil => intro _ g; rfl
  | cons kv rest ih =>
    intro hnd g
    rw [List.map_cons, List.nodup_cons] at hnd
    rw [dlookup, lastVal_cons]
    by_cases hk : kv.1 = g
    · rw [if_pos hk]
      have hnone : lastVal rest g = none := by
        rw [← ih hnd.2]
        cases hl : dlookup rest g with
        | none => rfl
        | some v =>
          exfalso
          apply hnd.1
          rw [hk]
          exact List.mem_map_of_mem Prod.fst (dlookup_mem rest g v hl)
      rw [hnone]
      simp [hk]
    · rw [if_neg hk, ih hnd.2]
      cases lastVal rest g <;> simp [hk]

theorem dlookup_none_of_not_mem_keys {α : Type} :
    ∀ (d : List (Str × α)) (g : Str), g ∉ d.map Prod.fst → dlookup d g = none := by
  intro d
  induction d with
  | nil => intro g _; rfl
  | cons kv rest ih =>
    intro g hg
    rw [List.map_cons, List.mem_cons] at hg
    push_neg at hg
    rw [dlookup, if_neg (fun he => hg.1 he.symm)]
    exact ih g hg.2

end LastValLemmas

section GeneMapRoundTrip

theorem dlookup_get_cached (ids : List Str) :
    ∀ (tbl : List (Str × Option Str)) (m0 : List (Str × StrSet)) (g : Str),
    dlookup (tbl.foldl
        (fun m kv => if kv.1 ∈ ids then dset kv.1 (parseGeneRow kv.2) m else m) m0) g
      = if g ∈ ids then
          (match lastVal tbl g with
           | some v => some (parseGeneRow v)
           | none => dlookup m0 g)
        else dlookup m0 g := by
  intro tbl
  induction tbl with
  | nil =>
    intro m0 g
    by_cases hg : g ∈ ids <;> simp [hg, lastVal]
  | cons kv rest ih =>
    intro m0 g
    rw [List.foldl_cons, ih, lastVal_cons]
    by_cases hg : g ∈ ids
    · rw [if_pos hg, if_pos hg]
      cases lastVal rest g with
      | some v => rfl
      | none =>
        by_cases hkg : kv.1 = g
        · have hki : kv.1 ∈ ids := by rw [hkg]; exact hg
          rw [if_pos hki, if_pos hkg, dlookup_dset, if_pos hkg]
        · rw [if_neg hkg]
          by_cases hki : kv.1 ∈ ids
          · rw [if_pos hki, dlookup_dset, if_neg hkg]
          · rw [if_neg hki]
    · rw [if_neg hg, if_neg hg]
      by_cases hki : kv.1 ∈ ids
      · rw [if_pos hki, dlookup_dset, if_neg (fun he => hg (by rw [← he]; exact hki))]
      · rw [if_neg hki]

theorem get_cached_gene_map_lookup (tbl : List (Str × Option Str)) (ids : List Str)
    (g : Str) :
    dlookup (get_cached_gene_map tbl ids) g
      = if g ∈ ids then
          (match lastVal tbl g with
           | some v => some (parseGeneRow v)
           | none => none)
        else none := by
  rw [get_cached_gene_map, dlookup_get_cached]
  by_cases hg : g ∈ ids
  · rw [if_pos hg, if_pos hg]
    cases lastVal tbl g <;> rfl
  · rw [if_neg hg, if_neg hg]
    rfl

theorem lastVal_store (g : Str) : ∀ (m : List (Str × StrSet))
    (tbl : List (Str × Option Str)),
    lastVal (store_gene_map tbl m) g
      = match lastVal m g with
        | some s => some (some (serializeAccs s))
        | none => lastVal tbl g := by
  intro m
  induction m with
  | nil => intro tbl; rfl
  | cons kv rest ih =>
    intro tbl
    have hstep : store_gene_map tbl (kv :: rest)
        = store_gene_map (upsertRow kv.1 (some (serializeAccs kv.2)) tbl) rest := by
      rw [store_gene_map, store_gene_map, List.foldl_cons]
    rw [hstep, ih, lastVal_upsert, lastVal_cons]
    cases lastVal rest g with
    | some s => rfl
    | none =>
      by_cases hk : kv.1 = g
      · rw [if_pos hk, if_pos hk]
      · rw [if_neg hk, if_neg hk]

theorem dlookup_isSome_of_mem_keys {α : Type} :
    ∀ (d : List (Str × α)) (g : Str), g ∈ d.map Prod.fst →
    ∃ v, dlookup d g = some v := by
  intro d
  induction d with
  | nil => intro g hg; exact absurd hg (by simp)
  | cons kv rest ih =>
    intro g hg
    by_cases hk : kv.1 = g
    · exact ⟨kv.2, by rw [dlookup, if_pos hk]⟩
    · rw [List.map_cons, List.mem_cons] at hg
      rcases hg with hg | hg
      · exact absurd hg.symm hk
      · obtain ⟨v, hv⟩ := ih g hg
        exact ⟨v, by rw [dlookup, if_neg hk, hv]⟩

end GeneMapRoundTrip

/-- C10 counterexample: the accession `" a"` is non-empty and contains no
comma, yet it does not survive the cache round trip: `store_gene_map`
serializes it verbatim and `get_cached_gene_map` strips each
comma-separated part, so the value comes back as `{"a"}`, not `{" a"}`.
-/
theorem c10_counterexample :
    (str " a") ≠ [] ∧ (str " a").contains ',' = false ∧
    dlookup (get_cached_gene_map
        (store_gene_map [] [(str "g", [str " a"])]) [str "g"]) (str "g")
      = some [str "a"] ∧
    dlookup [(str "g", [str " a"])] (str "g") = some [str " a"] ∧
    ¬ ([str "a"] : StrSet) = [str " a"] := by
  decide

/-- C10 amended: for a finite mapping whose accessions are non-empty,
comma-free and carry no surrounding whitespace (`pyStrip a = a`), calling
`store_gene_map` and then `get_cached_gene_map` on exactly the stored
keys returns the stored mapping; in particular a key stored with the
empty set comes back present with the empty set, distinguishable from an
absent key. -/
theorem c10_gene_map_roundtrip (cache : List (Str × Option Str))
    (m : List (Str × StrSet)) (hkeys : (m.map Prod.fst).Nodup)
    (hvals : ∀ kv ∈ m, SortedSet kv.2 ∧
      ∀ a ∈ kv.2, a ≠ [] ∧ pyStrip a = a ∧ a.contains ',' = false)
    (g : Str) :
    dlookup (get_cached_gene_map (store_gene_map cache m) (m.map Prod.fst)) g
      = dlookup m g := by
  rw [get_cached_gene_map_lookup]
  by_cases hg : g ∈ m.map Prod.fst
  · rw [if_pos hg, lastVal_store]
    have hl : dlookup m g = lastVal m g := dlookup_eq_lastVal_of_nodup m hkeys g
    obtain ⟨s, hs⟩ := dlookup_isSome_of_mem_keys m g hg
    have hs2 : lastVal m g = some s := hl ▸ hs
    simp only [hs2]
    have hmem : (g, s) ∈ m := dlookup_mem m g s hs
    rw [parse_serialize s (hvals (g, s) hmem).1 (fun a ha => (hvals (g, s) hmem).2 a ha),
      hs]
  · rw [if_neg hg]
    exact (dlookup_none_of_not_mem_keys m g hg).symm

/-- C10 witness: a two-key mapping, one key with two accessions and one
key with an explicit empty set, stored over a non-empty pre-existing
cache, round-trips exactly; the empty-set key is returned as present. -/
theorem c10_gene_map_roundtrip_witness :
    dlookup (get_cached_gene_map
        (store_gene_map [(str "x", some (str "P1"))]
          [(str "g", [str "A1", str "B2"]), (str "h", [])])
        [str "g", str "h"]) (str "h")
      = dlookup [(str "g", [str "A1", str "B2"]), (str "h", ([] : StrSet))] (str "h") ∧
    dlookup [(str "g", [str "A1", str "B2"]), (str "h", ([] : StrSet))] (str "h")
      = some [] := by
  constructor
  · exact c10_gene_map_roundtrip [(str "x", some (str "P1"))]
      [(str "g", [str "A1", str "B2"]), (str "h", [])] (by decide) (by decide) (str "h")
  · decide

section NormalizeTheorems

theorem sinsert_all {P : Str → Bool} {a : Str} {s : StrSet}
    (ha : P a = true) (hs : s.all P = true) : (sinsert a s).all P = true := by
  rw [List.all_eq_true] at hs ⊢
  intro x hx
  rcases mem_sinsert.mp hx with h | h
  · rw [h]; exact ha
  · exact hs x h

theorem norm_inner_fold_digits : ∀ (parts : List Str) (acc : StrSet),
    acc.all isDigits = true →
    (parts.foldl
      (fun cleaned part =>
        match normTok part with
        | some p => sinsert p cleaned
        | none => cleaned) acc).all isDigits = true := by
  intro parts
  induction parts with
  | nil => intro acc h; exact h
  | cons p rest ih =>
    intro acc h
    rw [List.foldl_cons]
    cases hn : normTok p with
    | none => exact ih acc h
    | some q => exact ih _ (sinsert_all (normTok_digits p q hn) h)

theorem normalize_gene_ids_all_digits (ids : List Str) :
    (normalize_gene_ids ids).all isDigits = true := by
  rw [normalize_gene_ids]
  have main : ∀ (l : List Str) (acc : StrSet), acc.all isDigits = true →
      (l.foldl
        (fun cleaned gid =>
          let raw := pyStrip gid
          if raw = [] then cleaned
          else
            (splitOnChar ',' (replaceChar ';' ',' (replaceChar '|' ',' raw))).foldl
              (fun cleaned part =>
                match normTok part with
                | some p => sinsert p cleaned
                | none => cleaned)
              cleaned) acc).all isDigits = true := by
    intro l
    induction l with
    | nil => intro acc h; exact h
    | cons gid rest ih =>
      intro acc h
      rw [List.foldl_cons]
      by_cases hraw : pyStrip gid = []
      · simp only [hraw, if_pos rfl]
        exact ih acc h
      · simp only [if_neg hraw]
        exact ih _ (norm_inner_fold_digits _ acc h)
  exact main ids [] rfl

end NormalizeTheorems

/-- C6: `normalize_gene_ids` splits raw identifiers on `|`, `;`, `,`,
strips a case-insensitive `geneid:` head, recovers an all-digits tail
after the last `:`, and keeps exactly the entirely numeric tokens:
the two example inputs from the spec evaluate as claimed, and every
element of any output is entirely numeric. -/
theorem c6_normalize_gene_ids :
    normalize_gene_ids [str "GeneID:123", str "456|789", str "foo:999"]
        = [str "123", str "456", str "789", str "999"] ∧
    normalize_gene_ids [str "GeneID:abc"] = [] ∧
    ∀ ids : List Str, (normalize_gene_ids ids).all isDigits = true :=
  ⟨by decide, by decide, normalize_gene_ids_all_digits⟩

section UniprotMapping

/-- The identifier-mapping service, one oracle function per endpoint, each
returning the decoded JSON field the code reads or the exception that the
HTTP layer re-raises after its retries: `submit` gives
`run_resp.get("jobId")`, `poll job i` gives `status.get("jobStatus")` of
the `i`-th poll, `results` gives the `(from, to)` pairs of
`results["results"]`. -/
structure MapSvc where
  submit : List Str → Except HErr (Option Str)
  poll : Str → Nat → Except HErr (Option Str)
  results : Str → Except HErr (List (Str × Str))

/-- The polling loop's break condition:
`job_status in (None, "FINISHED", "FAILED")`. -/
def pollStop (st : Option Str) : Bool :=
  match st with
  | none => true
  | some s => s = str "FINISHED" || s = str "FAILED"

/-- The `for _ in range(60)` polling loop of `run_chunk`; arguments are
the poll index, the remaining iterations and the current value of the
`job_status` variable; returns the final `job_status` (or the exception
that escaped a poll). -/
def pollAux (svc : MapSvc) (job : Str) : Nat → Nat → Option Str → Except HErr (Option Str)
  | _, 0, last => .ok last
  | i, rem + 1, _ =>
    match svc.poll job i with
    | .error e => .error e
    | .ok st => if pollStop st then .ok st else pollAux svc job (i + 1) rem st

/-- Which exceptions reaching `run_chunk`'s handlers trigger bisection:
`urllib.error.HTTPError` only when `exc.code == 400`; any other exception
always (`except Exception`). -/
def errBisects : HErr → Bool
  | .http c => c = 400
  | .other => true

/-- `mapping = {gid: set() for gid in ids}`. -/
def initMapping (ids : List Str) : List (Str × StrSet) := ids.map (fun g => (g, []))

/-- The per-result-row accumulation of `run_chunk`: strip `from` and
`to`, skip rows with an empty side, else
`mapping.setdefault(gene_id, set()).add(acc)`. -/
def addResultRow (m : List (Str × StrSet)) (row : Str × Str) : List (Str × StrSet) :=
  let g := pyStrip row.1
  let a := pyStrip row.2
  if g = [] ∨ a = [] then m else dAddToSet g a m

/-- `pubtator_enrich.run_uniprot_idmapping.run_chunk`: submit the chunk,
poll up to 60 times, fetch results on a non-FAILED final status; on a
FAILED status or a bisecting exception, split a multi-ID chunk into two
halves, recurse, and merge with `left.update(right)`; a single-ID chunk
(or a non-bisecting HTTPError) yields its all-empty initial mapping. -/
def run_chunk (svc : MapSvc) (ids : List Str) : List (Str × StrSet) :=
  match svc.submit ids with
  | .error e =>
    if errBisects e then
      if h : 1 < ids.length then
        dupdate (run_chunk svc (ids.take (ids.length / 2)))
                (run_chunk svc (ids.drop (ids.length / 2)))
      else initMapping ids
    else initMapping ids
  | .ok none => initMapping ids
  | .ok (some job) =>
    match pollAux svc job 0 60 none with
    | .error e =>
      if errBisects e then
        if h : 1 < ids.length then
          dupdate (run_chunk svc (ids.take (ids.length / 2)))
                  (run_chunk svc (ids.drop (ids.length / 2)))
        else initMapping ids
      else initMapping ids
    | .ok st =>
      if st = some (str "FAILED") then
        if h : 1 < ids.length then
          dupdate (run_chunk svc (ids.take (ids.length / 2)))
                  (run_chunk svc (ids.drop (ids.length / 2)))
        else initMapping ids
      else
        match svc.results job with
        | .error e =>
          if errBisects e then
            if h : 1 < ids.length then
              dupdate (run_chunk svc (ids.take (ids.length / 2)))
                      (run_chunk svc (ids.drop (ids.length / 2)))
            else initMapping ids
          else initMapping ids
        | .ok rs => rs.foldl addResultRow (initMapping ids)
termination_by ids.length
decreasing_by
  all_goals simp [List.length_take, List.length_drop]
  all_goals omega

/-- Count of chunk attempts that observe a failure (FAILED status or a
handled exception) during `run_chunk`'s recursion, used to state the
O(log N) bisection bound. -/
def run_chunk_failures (svc : MapSvc) (ids : List Str) : Nat :=
  match svc.submit ids with
  | .error e =>
    if errBisects e then
      if h : 1 < ids.length then
        1 + run_chunk_failures svc (ids.take (ids.length / 2))
          + run_chunk_failures svc (ids.drop (ids.length / 2))
      else 1
    else 1
  | .ok none => 0
  | .ok (some job) =>
    match pollAux svc job 0 60 none with
    | .error e =>
      if errBisects e then
        if h : 1 < ids.length then
          1 + run_chunk_failures svc (ids.take (ids.length / 2))
            + run_chunk_failures svc (ids.drop (ids.length / 2))
        else 1
      else 1
    | .ok st =>
      if st = some (str "FAILED") then
        if h : 1 < ids.length then
          1 + run_chunk_failures svc (ids.take (ids.length / 2))
            + run_chunk_failures svc (ids.drop (ids.length / 2))
        else 1
      else
        match svc.results job with
        | .error e =>
          if errBisects e then
            if h : 1 < ids.length then
              1 + run_chunk_failures svc (ids.take (ids.length / 2))
                + run_chunk_failures svc (ids.drop (ids.length / 2))
            else 1
          else 1
        | .ok _ => 0
termination_by ids.length
decreasing_by
  all_goals simp [List.length_take, List.length_drop]
  all_goals omega

/-- `pubtator_enrich.run_uniprot_idmapping`. -/
def run_uniprot_idmapping (svc : MapSvc) (geneIds : List Str) : List (Str × StrSet) :=
  let ids := normalize_gene_ids geneIds
  if ids = [] then [] else run_chunk svc ids

end UniprotMapping

section MapLookupLemmas

theorem dlookup_dupdate {α : Type} (g : Str) : ∀ (e d : List (Str × α)),
    dlookup (dupdate d e) g
      = match lastVal e g with
        | some v => some v
        | none => dlookup d g := by
  intro e
  induction e with
  | nil => intro d; rfl
  | cons kv rest ih =>
    intro d
    have hstep : dupdate d (kv :: rest) = dupdate (dset kv.1 kv.2 d) rest := by
      rw [dupdate, dupdate, List.foldl_cons]
    rw [hstep, ih, lastVal_cons, dlookup_dset]
    cases lastVal rest g with
    | some v => rfl
    | none =>
      by_cases hk : kv.1 = g
      · rw [if_pos hk, if_pos hk]
      · rw [if_neg hk, if_neg hk]

theorem dlookup_dAddToSet (k a : Str) : ∀ (m : List (Str × StrSet)) (g : Str),
    dlookup (dAddToSet k a m) g
      = if k = g then some (sinsert a ((dlookup m g).getD [])) else dlookup m g := by
  intro m
  induction m with
  | nil =>
    intro g
    by_cases hk : k = g <;> simp [dAddToSet, dlookup, hk, sinsert]
  | cons kv rest ih =>
    intro g
    by_cases h2 : kv.1 = k
    · rw [dAddToSet, if_pos h2]
      by_cases hk : k = g
      · rw [dlookup, if_pos (h2.trans hk), if_pos hk, dlookup, if_pos (h2.trans hk)]
        rfl
      · rw [dlookup, if_neg (fun he => hk (h2 ▸ he)), if_neg hk, dlookup,
          if_neg (fun he => hk (h2 ▸ he))]
    · rw [dAddToSet, if_neg h2]
      by_cases hg : kv.1 = g
      · rw [dlookup, if_pos hg, dlookup, if_pos hg,
          if_neg (fun he => h2 (by rw [he, hg]))]
      · rw [dlookup, if_neg hg, dlookup, if_neg hg, ih]

theorem lastVal_mem {α : Type} :
    ∀ (d : List (Str × α)) (g : Str) (v : α), lastVal d g = some v → (g, v) ∈ d := by
  intro d
  induction d with
  | nil => intro g v h; exact absurd h (by simp [lastVal])
  | cons kv rest ih =>
    intro g v h
    rw [lastVal_cons] at h
    cases hl : lastVal rest g with
    | some w =>
      rw [hl] at h
      exact List.mem_cons_of_mem _ (ih g v (hl.trans (congrArg some (Option.some.inj h))))
    | none =>
      rw [hl] at h
      by_cases hk : kv.1 = g
      · rw [if_pos hk] at h
        have heq : kv = (g, v) := by
          cases kv
          simp only [] at hk h
          rw [hk, Option.some.inj h]
        rw [← heq]
        exact List.mem_cons_self _ _
      · rw [if_neg hk] at h
        exact absurd h (by simp)

theorem lastVal_isSome_of_mem_keys {α : Type} :
    ∀ (d : List (Str × α)) (g : Str), g ∈ d.map Prod.fst →
    ∃ v, lastVal d g = some v := by
  intro d
  induction d with
  | nil => intro g hg; exact absurd hg (by simp)
  | cons kv rest ih =>
    intro g hg
    rw [lastVal_cons]
    rw [List.map_cons, List.mem_cons] at hg
    cases hl : lastVal rest g with
    | some v => exact ⟨v, rfl⟩
    | none =>
      rcases hg with hg | hg
      · exact ⟨kv.2, by rw [if_pos hg.symm]⟩
      · obtain ⟨v, hv⟩ := ih g hg
        rw [hv] at hl
        exact absurd hl (by simp)

theorem lastVal_none_of_not_mem_keys {α : Type} :
    ∀ (d : List (Str × α)) (g : Str), g ∉ d.map Prod.fst → lastVal d g = none := by
  intro d g hg
  cases hl : lastVal d g with
  | none => rfl
  | some v =>
    exact absurd (List.mem_map_of_mem Prod.fst (lastVal_mem d g v hl)) hg

theorem dlookup_map_self {α : Type} (f : Str → α) :
    ∀ (l : List Str) (g : Str), g ∈ l →
    dlookup (l.map (fun g => (g, f g))) g = some (f g) := by
  intro l
  induction l with
  | nil => intro g hg; exact absurd hg (by simp)
  | cons x rest ih =>
    intro g hg
    rw [List.map_cons, dlookup]
    by_cases hx : x = g
    · rw [if_pos hx, hx]
    · rcases List.mem_cons.mp hg with hg2 | hg2
      · exact absurd hg2.symm hx
      · rw [if_neg hx]
        exact ih g hg2

theorem dlookup_initMapping (ids : List Str) (g : Str) (hg : g ∈ ids) :
    dlookup (initMapping ids) g = some [] :=
  dlookup_map_self (fun _ => []) ids g hg

end MapLookupLemmas

section PollingLemmas

theorem pollAux_stop_early (svc : MapSvc) (job : Str) (stats : Nat → Option Str)
    (k : Nat) (st : Option Str)
    (hpoll : ∀ j, j < k → svc.poll job j = .ok (stats j))
    (hns : ∀ j, j < k → pollStop (stats j) = false)
    (hk : svc.poll job k = .ok st) (hstop : pollStop st = true) :
    ∀ rem i last, i + rem = 60 → i ≤ k → k < i + rem →
      pollAux svc job i rem last = .ok st := by
  intro rem
  induction rem with
  | zero => intro i last _ _ h3; omega
  | succ r ih =>
    intro i last h1 h2 h3
    by_cases hik : i = k
    · subst hik
      rw [pollAux]
      simp only [hk]
      rw [if_pos hstop]
    · rw [pollAux]
      simp only [hpoll i (by omega)]
      rw [if_neg (by simp [hns i (by omega)])]
      exact ih (i + 1) (stats i) (by omega) (by omega) (by omega)

theorem pollAux_runs_out (svc : MapSvc) (job : Str) (stats : Nat → Option Str)
    (hpoll : ∀ j, j < 60 → svc.poll job j = .ok (stats j))
    (hns : ∀ j, j < 60 → pollStop (stats j) = false) :
    ∀ rem i last, i + rem = 60 → 1 ≤ rem →
      pollAux svc job i rem last = .ok (stats 59) := by
  intro rem
  induction rem with
  | zero => intro i last _ h2; omega
  | succ r ih =>
    intro i last h1 _
    rw [pollAux]
    simp only [hpoll i (by omega)]
    rw [if_neg (by simp [hns i (by omega)])]
    cases hr : r with
    | zero =>
      have hi : i = 59 := by omega
      rw [hi]
      rfl
    | succ r2 =>
      rw [← hr]
      exact ih (i + 1) (stats i) (by omega) (by omega)

end PollingLemmas

/-- Service used to refute C4: the job status is never recognizable
(always "RUNNING"), yet after the 60 polls run out the code proceeds to
the results fetch, which succeeds. -/
def svcRunning : MapSvc :=
  { submit := fun _ => .ok (some (str "J"))
    poll := fun _ _ => .ok (some (str "RUNNING"))
    results := fun _ => .ok [(str "5", str "P1")] }

/-- C4 counterexample: with a job whose status is always the
unrecognizable "RUNNING", `run_chunk` polls 60 times and then fetches the
results anyway, returning the fetched mapping `{"5": {"P1"}}` — not the
failure-path outcome (which for this single-ID chunk would be the
all-empty mapping `{"5": set()}`). So the absence of a recognizable
terminal state after the maximum number of polls is not treated as a
terminal failure. -/
theorem c4_counterexample :
    run_chunk svcRunning [str "5"] = [(str "5", [str "P1"])] ∧
    initMapping [str "5"] = [(str "5", [])] ∧
    ¬ run_chunk svcRunning [str "5"] = initMapping [str "5"] := by
  refine ⟨?_, by decide, ?_⟩
  · rw [run_chunk]; decide
  · rw [run_chunk]; decide

/-- C4 amended: `run_chunk` polls the status endpoint at most 60 times
(at ~1-second intervals, not modelled); it stops polling as soon as a
poll returns "FINISHED", "FAILED", or a response with no recognizable
`jobStatus` field; if all 60 polls return unrecognized non-terminal
statuses, polling stops with the last observed status and — since that
status is not "FAILED" — the chunk proceeds to the results fetch, not to
the failure path. -/
theorem c4_polling_contract :
    (∀ (svc : MapSvc) (job : Str) (stats : Nat → Option Str) (k : Nat)
       (st : Option Str),
      (∀ j, j < k → svc.poll job j = .ok (stats j)) →
      (∀ j, j < k → pollStop (stats j) = false) →
      svc.poll job k = .ok st → pollStop st = true → k < 60 →
      pollAux svc job 0 60 none = .ok st) ∧
    (∀ (svc : MapSvc) (ids : List Str) (job : Str) (stats : Nat → Option Str)
       (rs : List (Str × Str)),
      svc.submit ids = .ok (some job) →
      (∀ j, j < 60 → svc.poll job j = .ok (stats j)) →
      (∀ j, j < 60 → pollStop (stats j) = false) →
      svc.results job = .ok rs →
      pollAux svc job 0 60 none = .ok (stats 59) ∧
      run_chunk svc ids = rs.foldl addResultRow (initMapping ids)) := by
  constructor
  · intro svc job stats k st h1 h2 h3 h4 h5
    exact pollAux_stop_early svc job stats k st h1 h2 h3 h4 60 0 none rfl
      (by omega) (by omega)
  · intro svc ids job stats rs hsub hpoll hns hres
    have hpa : pollAux svc job 0 60 none = .ok (stats 59) :=
      pollAux_runs_out svc job stats hpoll hns 60 0 none rfl (by omega)
    refine ⟨hpa, ?_⟩
    have hnf : ¬ stats 59 = some (str "FAILED") := by
      intro he
      have h2 := hns 59 (by omega)
      rw [he] at h2
      exact absurd h2 (by decide)
    rw [run_chunk]
    simp only [hsub, hpa]
    rw [if_neg hnf]
    simp only [hres]

/-- C4 witness: a service whose second poll says FINISHED stops the loop
there; `svcRunning` (never-terminal statuses) exhausts the 60 polls,
keeps "RUNNING", and the chunk is resolved from the results fetch. -/
theorem c4_polling_contract_witness :
    pollAux
      { submit := fun _ => .ok (some (str "J"))
        poll := fun _ i => .ok (some (if i = 1 then str "FINISHED" else str "RUNNING"))
        results := fun _ => .ok [] }
      (str "J") 0 60 none = .ok (some (str "FINISHED")) ∧
    pollAux svcRunning (str "J") 0 60 none = .ok (some (str "RUNNING")) ∧
    run_chunk svcRunning [str "5"]
      = [(str "5", str "P1")].foldl addResultRow (initMapping [str "5"]) := by
  refine ⟨?_, ?_⟩
  · exact c4_polling_contract.1 _ (str "J")
      (fun i => some (if i = 1 then str "FINISHED" else str "RUNNING")) 1
      (some (str "FINISHED"))
      (by intro j hj; interval_cases j; rfl)
      (by intro j hj; interval_cases j; decide)
      rfl (by decide) (by omega)
  · exact (c4_polling_contract.2 svcRunning [str "5"] (str "J")
      (fun _ => some (str "RUNNING")) [(str "5", str "P1")]
      rfl (fun j _ => rfl) (fun j _ => rfl) rfl)

section ChunkResultLemmas

/-- The set of accessions the service results give for gene ID `g`:
stripped `to` values of rows whose stripped `from` equals `g` (empty
values skipped). -/
def accsOfResults (g : Str) (rs : List (Str × Str)) : StrSet :=
  rs.foldl
    (fun s row =>
      if pyStrip row.1 = g ∧ ¬ pyStrip row.2 = [] then sinsert (pyStrip row.2) s
      else s) []

theorem dlookup_fold_addResultRow : ∀ (rs : List (Str × Str))
    (m0 : List (Str × StrSet)) (g : Str) (v0 : StrSet), ¬ g = [] →
    dlookup m0 g = some v0 →
    dlookup (rs.foldl addResultRow m0) g
      = some (rs.foldl
          (fun s row =>
            if pyStrip row.1 = g ∧ ¬ pyStrip row.2 = [] then sinsert (pyStrip row.2) s
            else s) v0) := by
  intro rs
  induction rs with
  | nil => intro m0 g v0 _ h0; exact h0
  | cons row rest ih =>
    intro m0 g v0 hg h0
    rw [List.foldl_cons, List.foldl_cons]
    by_cases hskip : pyStrip row.1 = [] ∨ pyStrip row.2 = []
    · have hstep : addResultRow m0 row = m0 := by
        rw [addResultRow, if_pos hskip]
      have hcond : ¬ (pyStrip row.1 = g ∧ ¬ pyStrip row.2 = []) := by
        rcases hskip with h | h
        · intro hc
          exact hg (hc.1 ▸ h)
        · intro hc
          exact hc.2 h
      rw [hstep, if_neg hcond]
      exact ih m0 g v0 hg h0
    · push_neg at hskip
      have hstep : addResultRow m0 row
          = dAddToSet (pyStrip row.1) (pyStrip row.2) m0 := by
        rw [addResultRow, if_neg (by push_neg; exact hskip)]
      rw [hstep]
      by_cases hk : pyStrip row.1 = g
      · rw [if_pos ⟨hk, hskip.2⟩]
        have h1 : dlookup (dAddToSet (pyStrip row.1) (pyStrip row.2) m0) g
            = some (sinsert (pyStrip row.2) v0) := by
          rw [dlookup_dAddToSet, if_pos hk, h0]
          rfl
        exact ih _ g _ hg h1
      · rw [if_neg (fun hc => hk hc.1)]
        have h1 : dlookup (dAddToSet (pyStrip row.1) (pyStrip row.2) m0) g
            = some v0 := by
          rw [dlookup_dAddToSet, if_neg hk, h0]
        exact ih _ g _ hg h1

theorem fold_addResultRow_preserves_keys : ∀ (rs : List (Str × Str))
    (m0 : List (Str × StrSet)) (g : Str) (v0 : StrSet),
    dlookup m0 g = some v0 →
    ∃ v, dlookup (rs.foldl addResultRow m0) g = some v := by
  intro rs
  induction rs with
  | nil => intro m0 g v0 h0; exact ⟨v0, h0⟩
  | cons row rest ih =>
    intro m0 g v0 h0
    rw [List.foldl_cons]
    by_cases hskip : pyStrip row.1 = [] ∨ pyStrip row.2 = []
    · rw [addResultRow, if_pos hskip]
      exact ih m0 g v0 h0
    · rw [addResultRow, if_neg hskip]
      by_cases hk : pyStrip row.1 = g
      · exact ih _ g (sinsert (pyStrip row.2) ((dlookup m0 g).getD []))
          (by rw [dlookup_dAddToSet, if_pos hk])
      · exact ih _ g v0 (by rw [dlookup_dAddToSet, if_neg hk, h0])

theorem bisect_keys (svc : MapSvc) (ids : List Str) (g : Str) (hg : g ∈ ids)
    (ihL : ∀ g2 ∈ ids.take (ids.length / 2),
      ∃ v, dlookup (run_chunk svc (ids.take (ids.length / 2))) g2 = some v)
    (ihR : ∀ g2 ∈ ids.drop (ids.length / 2),
      ∃ v, dlookup (run_chunk svc (ids.drop (ids.length / 2))) g2 = some v) :
    ∃ v, dlookup (dupdate (run_chunk svc (ids.take (ids.length / 2)))
        (run_chunk svc (ids.drop (ids.length / 2)))) g = some v := by
  rw [dlookup_dupdate]
  cases hlv : lastVal (run_chunk svc (ids.drop (ids.length / 2))) g with
  | some w => exact ⟨w, rfl⟩
  | none =>
    have hgt : g ∈ ids.take (ids.length / 2) ∨ g ∈ ids.drop (ids.length / 2) := by
      rw [← List.mem_append, List.take_append_drop]
      exact hg
    rcases hgt with hgt | hgt
    · obtain ⟨v, hv⟩ := ihL g hgt
      exact ⟨v, hv⟩
    · obtain ⟨v, hv⟩ := ihR g hgt
      obtain ⟨w, hw⟩ := lastVal_isSome_of_mem_keys _ g
        (List.mem_map_of_mem Prod.fst (dlookup_mem _ g v hv))
      rw [hw] at hlv
      exact absurd hlv (by simp)

theorem run_chunk_keys_present (svc : MapSvc) : ∀ (n : Nat) (ids : List Str),
    ids.length = n → ∀ (g : Str), g ∈ ids →
    ∃ v, dlookup (run_chunk svc ids) g = some v := by
  intro n
  induction n using Nat.strong_induction_on with
  | _ n ih =>
    intro ids hn g hg
    have hbis : 1 < ids.length →
        ((ids.take (ids.length / 2)).length < n ∧
         (ids.drop (ids.length / 2)).length < n) := by
      intro hlen
      rw [List.length_take, List.length_drop]
      omega
    have hL : 1 < ids.length → ∀ g2 ∈ ids.take (ids.length / 2),
        ∃ v, dlookup (run_chunk svc (ids.take (ids.length / 2))) g2 = some v :=
      fun hlen g2 hg2 => ih _ (hbis hlen).1 _ rfl g2 hg2
    have hR : 1 < ids.length → ∀ g2 ∈ ids.drop (ids.length / 2),
        ∃ v, dlookup (run_chunk svc (ids.drop (ids.length / 2))) g2 = some v :=
      fun hlen g2 hg2 => ih _ (hbis hlen).2 _ rfl g2 hg2
    cases hsub : svc.submit ids with
    | error e =>
      rw [run_chunk]
      simp only [hsub]
      by_cases hb : errBisects e
      · rw [if_pos hb]
        by_cases hlen : 1 < ids.length
        · rw [dif_pos hlen]
          exact bisect_keys svc ids g hg (hL hlen) (hR hlen)
        · rw [dif_neg hlen]
          exact ⟨[], dlookup_initMapping ids g hg⟩
      · rw [if_neg hb]
        exact ⟨[], dlookup_initMapping ids g hg⟩
    | ok jo =>
      cases jo with
      | none =>
        rw [run_chunk]
        simp only [hsub]
        exact ⟨[], dlookup_initMapping ids g hg⟩
      | some job =>
        cases hpa : pollAux svc job 0 60 none with
        | error e =>
          rw [run_chunk]
          simp only [hsub, hpa]
          by_cases hb : errBisects e
          · rw [if_pos hb]
            by_cases hlen : 1 < ids.length
            · rw [dif_pos hlen]
              exact bisect_keys svc ids g hg (hL hlen) (hR hlen)
            · rw [dif_neg hlen]
              exact ⟨[], dlookup_initMapping ids g hg⟩
          · rw [if_neg hb]
            exact ⟨[], dlookup_initMapping ids g hg⟩
        | ok st =>
          by_cases hf : st = some (str "FAILED")
          · rw [run_chunk]
            simp only [hsub, hpa]
            rw [if_pos hf]
            by_cases hlen : 1 < ids.length
            · rw [dif_pos hlen]
              exact bisect_keys svc ids g hg (hL hlen) (hR hlen)
            · rw [dif_neg hlen]
              exact ⟨[], dlookup_initMapping ids g hg⟩
          · cases hres : svc.results job with
            | error e =>
              rw [run_chunk]
              simp only [hsub, hpa, hres]
              rw [if_neg hf]
              by_cases hb : errBisects e
              · rw [if_pos hb]
                by_cases hlen : 1 < ids.length
                · rw [dif_pos hlen]
                  exact bisect_keys svc ids g hg (hL hlen) (hR hlen)
                · rw [dif_neg hlen]
                  exact ⟨[], dlookup_initMapping ids g hg⟩
              · rw [if_neg hb]
                exact ⟨[], dlookup_initMapping ids g hg⟩
            | ok rs =>
              rw [run_chunk]
              simp only [hsub, hpa, hres]
              rw [if_neg hf]
              exact fold_addResultRow_preserves_keys rs (initMapping ids) g []
                (dlookup_initMapping ids g hg)

end ChunkResultLemmas

/-- C5: every gene ID of the input chunk appears as a key of
`run_chunk`'s returned mapping, on every control path; and on the
success path (job submitted, polled to a non-FAILED final status,
results fetched) each input ID is mapped to exactly the set of its
returned stripped accessions — so an ID absent from the results is
mapped to the explicit empty set, distinguishable from an absent key. -/
theorem c5_explicit_empty_mapping :
    (∀ (svc : MapSvc) (ids : List Str) (g : Str), g ∈ ids →
      ∃ v, dlookup (run_chunk svc ids) g = some v) ∧
    (∀ (svc : MapSvc) (ids : List Str) (job : Str) (st : Option Str)
       (rs : List (Str × Str)),
      svc.submit ids = .ok (some job) →
      pollAux svc job 0 60 none = .ok st →
      ¬ st = some (str "FAILED") →
      svc.results job = .ok rs →
      ∀ g ∈ ids, ¬ g = [] →
        dlookup (run_chunk svc ids) g = some (accsOfResults g rs)) := by
  constructor
  · intro svc ids g hg
    exact run_chunk_keys_present svc ids.length ids rfl g hg
  · intro svc ids job st rs hsub hpa hf hres g hg hgne
    rw [run_chunk]
    simp only [hsub, hpa]
    rw [if_neg hf]
    simp only [hres]
    exact dlookup_fold_addResultRow rs (initMapping ids) g [] hgne
      (dlookup_initMapping ids g hg)

/-- Service whose results omit the queried gene ID. -/
def svcOtherResult : MapSvc :=
  { submit := fun _ => .ok (some (str "J"))
    poll := fun _ _ => .ok (some (str "FINISHED"))
    results := fun _ => .ok [(str "6", str "Q2")] }

/-- C5 witness: for the chunk `["5"]` under a service returning the
result row `("5", "P1")`, the input ID "5" is mapped to `{"P1"}`; for a
service whose results omit the input ID, the ID is mapped to the
explicit empty set (present key, empty value). -/
theorem c5_explicit_empty_mapping_witness :
    dlookup (run_chunk svcRunning [str "5"]) (str "5")
      = some (accsOfResults (str "5") [(str "5", str "P1")]) ∧
    accsOfResults (str "5") [(str "5", str "P1")] = [str "P1"] ∧
    dlookup (run_chunk svcOtherResult [str "5"]) (str "5")
      = some (accsOfResults (str "5") [(str "6", str "Q2")]) ∧
    accsOfResults (str "5") [(str "6", str "Q2")] = [] := by
  refine ⟨?_, by decide, ?_, by decide⟩
  · exact c5_explicit_empty_mapping.2 svcRunning [str "5"] (str "J")
      (some (str "RUNNING")) [(str "5", str "P1")] rfl rfl
      (by decide) rfl (str "5") (by decide) (by decide)
  · exact c5_explicit_empty_mapping.2 svcOtherResult [str "5"] (str "J")
      (some (str "FINISHED")) [(str "6", str "Q2")] rfl rfl
      (by decide) rfl (str "5") (by decide) (by decide)

section BisectionScenario

theorem dAddToSet_head (g a : Str) (s : StrSet) (m : List (Str × StrSet)) :
    dAddToSet g a ((g, s) :: m) = (g, sinsert a s) :: m := by
  rw [dAddToSet, if_pos rfl]

theorem dAddToSet_cons_ne (k a : Str) (hd : Str × StrSet) (m : List (Str × StrSet))
    (hne : ¬ hd.1 = k) :
    dAddToSet k a (hd :: m) = hd :: dAddToSet k a m := by
  cases hd
  rw [dAddToSet, if_neg hne]

theorem fold_pairs_head (g : Str) (hg : pyStrip g = g) (hgne : ¬ g = []) :
    ∀ (accs : List Str) (s : StrSet) (m : List (Str × StrSet)),
    (∀ a ∈ accs, pyStrip a = a ∧ ¬ a = []) →
    (accs.map (fun a => (g, a))).foldl addResultRow ((g, s) :: m)
      = (g, accs.foldl (fun s a => sinsert a s) s) :: m := by
  intro accs
  induction accs with
  | nil => intro s m _; rfl
  | cons a rest ih =>
    intro s m ha
    obtain ⟨has, hane⟩ := ha a (List.mem_cons_self a rest)
    rw [List.map_cons, List.foldl_cons]
    have hstep : addResultRow ((g, s) :: m) (g, a) = (g, sinsert a s) :: m := by
      rw [addResultRow]
      simp only [hg, has]
      rw [if_neg (by push_neg; exact ⟨hgne, hane⟩), dAddToSet_head]
    rw [hstep, List.foldl_cons]
    exact ih (sinsert a s) m (fun b hb => ha b (List.mem_cons_of_mem a hb))

theorem fold_skip_head : ∀ (rs : List (Str × Str)) (hd : Str × StrSet)
    (m : List (Str × StrSet)),
    (∀ row ∈ rs, ¬ pyStrip row.1 = hd.1) →
    rs.foldl addResultRow (hd :: m) = hd :: rs.foldl addResultRow m := by
  intro rs
  induction rs with
  | nil => intro hd m _; rfl
  | cons row rest ih =>
    intro hd m hne
    rw [List.foldl_cons, List.foldl_cons]
    by_cases hskip : pyStrip row.1 = [] ∨ pyStrip row.2 = []
    · rw [addResultRow, if_pos hskip, addResultRow, if_pos hskip]
      exact ih hd m (fun r hr => hne r (List.mem_cons_of_mem row hr))
    · rw [addResultRow, if_neg hskip, addResultRow, if_neg hskip,
        dAddToSet_cons_ne _ _ _ _ (fun he => hne row (List.mem_cons_self row rest) he.symm)]
      exact ih hd _ (fun r hr => hne r (List.mem_cons_of_mem row hr))

theorem fold_flatMap_truth (truth : Str → StrSet)
    (htruth : ∀ g a, a ∈ truth g → pyStrip a = a ∧ ¬ a = [])
    (hsorted : ∀ g, SortedSet (truth g)) :
    ∀ (c : List Str), c.Nodup → (∀ g ∈ c, pyStrip g = g ∧ ¬ g = []) →
    (c.flatMap (fun g => (truth g).map (fun a => (g, a)))).foldl addResultRow
        (initMapping c)
      = c.map (fun g => (g, truth g)) := by
  intro c
  induction c with
  | nil => intro _ _; rfl
  | cons g rest ih =>
    intro hnd hc
    rw [List.nodup_cons] at hnd
    obtain ⟨hgs, hgne⟩ := hc g (List.mem_cons_self g rest)
    rw [List.flatMap_cons, List.foldl_append]
    have h0 : initMapping (g :: rest) = (g, []) :: initMapping rest := rfl
    rw [h0, fold_pairs_head g hgs hgne (truth g) [] (initMapping rest)
      (fun a ha => htruth g a ha)]
    rw [foldl_sinsert_sorted (truth g) [] (by simpa using hsorted g), List.nil_append]
    rw [fold_skip_head _ (g, truth g) (initMapping rest) ?hrows]
    case hrows =>
      intro row hrow
      rw [List.mem_flatMap] at hrow
      obtain ⟨g2, hg2, hr2⟩ := hrow
      rw [List.mem_map] at hr2
      obtain ⟨a, _, hra⟩ := hr2
      rw [← hra]
      have hg2p := (hc g2 (List.mem_cons_of_mem g hg2)).1
      simp only [hg2p]
      intro he
      exact hnd.1 (he ▸ hg2)
    rw [ih hnd.2 (fun g2 hg2 => hc g2 (List.mem_cons_of_mem g hg2)), List.map_cons]

end BisectionScenario

section KeysNodup

theorem keys_map_self {α : Type} (f : Str → α) : ∀ (l : List Str),
    (l.map (fun g => (g, f g))).map Prod.fst = l := by
  intro l
  induction l with
  | nil => rfl
  | cons x xs ih => rw [List.map_cons, List.map_cons, ih]

theorem mem_keys_dset {α : Type} (k : Str) (v : α) : ∀ (m : List (Str × α)) (x : Str),
    x ∈ (dset k v m).map Prod.fst ↔ x = k ∨ x ∈ m.map Prod.fst := by
  intro m
  induction m with
  | nil => intro x; simp [dset]
  | cons kv rest ih =>
    intro x
    by_cases h2 : kv.1 = k
    · rw [dset, if_pos h2]
      simp only [List.map_cons, List.mem_cons, h2]
      tauto
    · rw [dset, if_neg h2]
      simp only [List.map_cons, List.mem_cons, ih]
      tauto

theorem dset_keys_nodup {α : Type} (k : Str) (v : α) : ∀ (m : List (Str × α)),
    (m.map Prod.fst).Nodup → ((dset k v m).map Prod.fst).Nodup := by
  intro m
  induction m with
  | nil => intro _; simp [dset]
  | cons kv rest ih =>
    intro hnd
    rw [List.map_cons, List.nodup_cons] at hnd
    by_cases h2 : kv.1 = k
    · rw [dset, if_pos h2, List.map_cons, List.nodup_cons]
      exact hnd
    · rw [dset, if_neg h2, List.map_cons, List.nodup_cons]
      refine ⟨?_, ih hnd.2⟩
      rw [mem_keys_dset]
      rintro (he | he)
      · exact h2 he
      · exact hnd.1 he

theorem mem_keys_dAddToSet (k a : Str) : ∀ (m : List (Str × StrSet)) (x : Str),
    x ∈ (dAddToSet k a m).map Prod.fst ↔ x = k ∨ x ∈ m.map Prod.fst := by
  intro m
  induction m with
  | nil => intro x; simp [dAddToSet]
  | cons kv rest ih =>
    intro x
    by_cases h2 : kv.1 = k
    · cases kv
      rw [dAddToSet, if_pos h2]
      simp only [List.map_cons, List.mem_cons] at h2 ⊢
      rw [h2]
      tauto
    · cases kv
      rw [dAddToSet, if_neg h2]
      simp only [List.map_cons, List.mem_cons, ih]
      tauto

theorem dAddToSet_keys_nodup (k a : Str) : ∀ (m : List (Str × StrSet)),
    (m.map Prod.fst).Nodup → ((dAddToSet k a m).map Prod.fst).Nodup := by
  intro m
  induction m with
  | nil => intro _; simp [dAddToSet]
  | cons kv rest ih =>
    intro hnd
    rw [List.map_cons, List.nodup_cons] at hnd
    by_cases h2 : kv.1 = k
    · cases kv
      rw [dAddToSet, if_pos h2, List.map_cons, List.nodup_cons]
      exact hnd
    · cases kv
      rw [dAddToSet, if_neg h2, List.map_cons, List.nodup_cons]
      refine ⟨?_, ih hnd.2⟩
      rw [mem_keys_dAddToSet]
      rintro (he | he)
      · exact h2 he
      · exact hnd.1 he

theorem fold_addResultRow_keys_nodup : ∀ (rs : List (Str × Str))
    (m : List (Str × StrSet)), (m.map Prod.fst).Nodup →
    ((rs.foldl addResultRow m).map Prod.fst).Nodup := by
  intro rs
  induction rs with
  | nil => intro m h; exact h
  | cons row rest ih =>
    intro m h
    rw [List.foldl_cons]
    apply ih
    rw [addResultRow]
    by_cases hskip : pyStrip row.1 = [] ∨ pyStrip row.2 = []
    · rw [if_pos hskip]; exact h
    · rw [if_neg hskip]; exact dAddToSet_keys_nodup _ _ m h

theorem dupdate_keys_nodup {α : Type} : ∀ (e d : List (Str × α)),
    (d.map Prod.fst).Nodup → ((dupdate d e).map Prod.fst).Nodup := by
  intro e
  induction e with
  | nil => intro d h; exact h
  | cons kv rest ih =>
    intro d h
    have hstep : dupdate d (kv :: rest) = dupdate (dset kv.1 kv.2 d) rest := by
      rw [dupdate, dupdate, List.foldl_cons]
    rw [hstep]
    exact ih _ (dset_keys_nodup kv.1 kv.2 d h)

theorem run_chunk_keys_nodup (svc : MapSvc) : ∀ (n : Nat) (ids : List Str),
    ids.length = n → ids.Nodup →
    ((run_chunk svc ids).map Prod.fst).Nodup := by
  intro n
  induction n using Nat.strong_induction_on with
  | _ n ih =>
    intro ids hn hnd
    have hinit : ((initMapping ids).map Prod.fst).Nodup := by
      rw [initMapping, keys_map_self]
      exact hnd
    have hbis : 1 < ids.length →
        ((dupdate (run_chunk svc (ids.take (ids.length / 2)))
          (run_chunk svc (ids.drop (ids.length / 2)))).map Prod.fst).Nodup := by
      intro hlen
      apply dupdate_keys_nodup
      apply ih (ids.take (ids.length / 2)).length
        (by rw [List.length_take]; omega) _ rfl
      exact List.Nodup.sublist (List.take_sublist _ ids) hnd
    cases hsub : svc.submit ids with
    | error e =>
      rw [run_chunk]
      simp only [hsub]
      by_cases hb : errBisects e
      · rw [if_pos hb]
        by_cases hlen : 1 < ids.length
        · rw [dif_pos hlen]; exact hbis hlen
        · rw [dif_neg hlen]; exact hinit
      · rw [if_neg hb]; exact hinit
    | ok jo =>
      cases jo with
      | none =>
        rw [run_chunk]
        simp only [hsub]
        exact hinit
      | some job =>
        cases hpa : pollAux svc job 0 60 none with
        | error e =>
          rw [run_chunk]
          simp only [hsub, hpa]
          by_cases hb : errBisects e
          · rw [if_pos hb]
            by_cases hlen : 1 < ids.length
            · rw [dif_pos hlen]; exact hbis hlen
            · rw [dif_neg hlen]; exact hinit
          · rw [if_neg hb]; exact hinit
        | ok st =>
          by_cases hf : st = some (str "FAILED")
          · rw [run_chunk]
            simp only [hsub, hpa]
            rw [if_pos hf]
            by_cases hlen : 1 < ids.length
            · rw [dif_pos hlen]; exact hbis hlen
            · rw [dif_neg hlen]; exact hinit
          · cases hres : svc.results job with
            | error e =>
              rw [run_chunk]
              simp only [hsub, hpa, hres]
              rw [if_neg hf]
              by_cases hb : errBisects e
              · rw [if_pos hb]
                by_cases hlen : 1 < ids.length
                · rw [dif_pos hlen]; exact hbis hlen
                · rw [dif_neg hlen]; exact hinit
              · rw [if_neg hb]; exact hinit
            | ok rs =>
              rw [run_chunk]
              simp only [hsub, hpa, hres]
              rw [if_neg hf]
              exact fold_addResultRow_keys_nodup rs (initMapping ids) hinit

end KeysNodup

/-- A mapping service with exactly one poison ID: any submitted chunk
containing it polls to FAILED, any other chunk finishes and returns the
ground-truth `(from, to)` pairs of its IDs. Hypotheses are restricted to
chunks drawn from `ids`, the only ones the recursion visits. -/
structure PoisonScenario where
  svc : MapSvc
  jobOf : List Str → Str
  poison : Str
  truth : Str → StrSet
  ids : List Str
  hsub : ∀ c, (∀ g ∈ c, g ∈ ids) → svc.submit c = .ok (some (jobOf c))
  hpoll : ∀ c i, (∀ g ∈ c, g ∈ ids) →
    svc.poll (jobOf c) i
      = .ok (some (if poison ∈ c then str "FAILED" else str "FINISHED"))
  hres : ∀ c, (∀ g ∈ c, g ∈ ids) → poison ∉ c →
    svc.results (jobOf c)
      = .ok (c.flatMap (fun g => (truth g).map (fun a => (g, a))))
  htruth : ∀ g a, a ∈ truth g → pyStrip a = a ∧ ¬ a = []
  hsorted : ∀ g, SortedSet (truth g)

theorem clean_chunk_eval (S : PoisonScenario) (c : List Str)
    (hcin : ∀ g ∈ c, g ∈ S.ids) (hnp : S.poison ∉ c) (hnd : c.Nodup)
    (hc : ∀ g ∈ c, pyStrip g = g ∧ ¬ g = []) :
    run_chunk S.svc c = c.map (fun g => (g, S.truth g)) ∧
    run_chunk_failures S.svc c = 0 := by
  have hpa : pollAux S.svc (S.jobOf c) 0 60 none = .ok (some (str "FINISHED")) := by
    rw [pollAux]
    simp only [S.hpoll c 0 hcin]
    rw [if_neg hnp, if_pos (show pollStop (some (str "FINISHED")) = true by decide)]
  constructor
  · rw [run_chunk]
    simp only [S.hsub c hcin, hpa]
    rw [if_neg (show ¬ (some (str "FINISHED") : Option Str) = some (str "FAILED")
      by decide)]
    simp only [S.hres c hcin hnp]
    exact fold_flatMap_truth S.truth S.htruth S.hsorted c hnd hc
  · rw [run_chunk_failures]
    simp only [S.hsub c hcin, hpa]
    rw [if_neg (show ¬ (some (str "FINISHED") : Option Str) = some (str "FAILED")
      by decide)]
    simp only [S.hres c hcin hnp]

theorem poison_chunk_eval (S : PoisonScenario) : ∀ (n : Nat) (c : List Str),
    c.length = n → (∀ g ∈ c, g ∈ S.ids) → S.poison ∈ c → c.Nodup →
    (∀ g ∈ c, pyStrip g = g ∧ ¬ g = []) →
    (∀ g ∈ c, dlookup (run_chunk S.svc c) g
      = some (if g = S.poison then [] else S.truth g)) ∧
    (∀ g, g ∉ c → dlookup (run_chunk S.svc c) g = none) ∧
    run_chunk_failures S.svc c ≤ Nat.clog 2 c.length + 1 := by
  intro n
  induction n using Nat.strong_induction_on with
  | _ n ih =>
    intro c hn hcin hp hnd hc
    have hpa : pollAux S.svc (S.jobOf c) 0 60 none = .ok (some (str "FAILED")) := by
      rw [pollAux]
      simp only [S.hpoll c 0 hcin]
      rw [if_pos hp, if_pos (show pollStop (some (str "FAILED")) = true by decide)]
    have hrc : run_chunk S.svc c
        = if h : 1 < c.length then
            dupdate (run_chunk S.svc (c.take (c.length / 2)))
              (run_chunk S.svc (c.drop (c.length / 2)))
          else initMapping c := by
      rw [run_chunk]
      simp only [S.hsub c hcin, hpa]
      rw [if_pos trivial]
    have hrf : run_chunk_failures S.svc c
        = if h : 1 < c.length then
            1 + run_chunk_failures S.svc (c.take (c.length / 2))
              + run_chunk_failures S.svc (c.drop (c.length / 2))
          else 1 := by
      rw [run_chunk_failures]
      simp only [S.hsub c hcin, hpa]
      rw [if_pos trivial]
    by_cases hlen : 1 < c.length
    · rw [dif_pos hlen] at hrc hrf
      have hsplit : c.take (c.length / 2) ++ c.drop (c.length / 2) = c :=
        List.take_append_drop _ c
      obtain ⟨hndL, hndR, hdisj⟩ := List.nodup_append.mp (hsplit ▸ hnd)
      have hcinL : ∀ g ∈ c.take (c.length / 2), g ∈ S.ids := fun g hg =>
        hcin g (by rw [← hsplit]; exact List.mem_append_left _ hg)
      have hcinR : ∀ g ∈ c.drop (c.length / 2), g ∈ S.ids := fun g hg =>
        hcin g (by rw [← hsplit]; exact List.mem_append_right _ hg)
      have hcL : ∀ g ∈ c.take (c.length / 2), pyStrip g = g ∧ ¬ g = [] := fun g hg =>
        hc g (by rw [← hsplit]; exact List.mem_append_left _ hg)
      have hcR : ∀ g ∈ c.drop (c.length / 2), pyStrip g = g ∧ ¬ g = [] := fun g hg =>
        hc g (by rw [← hsplit]; exact List.mem_append_right _ hg)
      have hlenL : (c.take (c.length / 2)).length = c.length / 2 := by
        rw [List.length_take]; omega
      have hlenR : (c.drop (c.length / 2)).length = c.length - c.length / 2 :=
        List.length_drop _ c
      have hclog : Nat.clog 2 c.length = Nat.clog 2 ((c.length + 1) / 2) + 1 := by
        have h2 := Nat.clog_of_two_le (b := 2) (by omega) (show 2 ≤ c.length by omega)
        have h3 : (c.length + 2 - 1) / 2 = (c.length + 1) / 2 := by omega
        rw [h3] at h2
        exact h2
      have hmem2 : S.poison ∈ c.take (c.length / 2) ∨ S.poison ∈ c.drop (c.length / 2) := by
        rw [← List.mem_append, hsplit]
        exact hp
      rcases hmem2 with hpL | hpR
      · -- poison in the left half; right half is clean
        have hnpR : S.poison ∉ c.drop (c.length / 2) := hdisj hpL
        have hclean := clean_chunk_eval S (c.drop (c.length / 2)) hcinR hnpR hndR hcR
        have hihL := ih (c.take (c.length / 2)).length (by omega)
          (c.take (c.length / 2)) rfl hcinL hpL hndL hcL
        have hkeysR : (run_chunk S.svc (c.drop (c.length / 2))).map Prod.fst
            = c.drop (c.length / 2) := by
          rw [hclean.1, keys_map_self]
        refine ⟨?_, ?_, ?_⟩
        · intro g hg
          rw [hrc, dlookup_dupdate]
          rcases (by rw [← List.mem_append, hsplit]; exact hg :
              g ∈ c.take (c.length / 2) ∨ g ∈ c.drop (c.length / 2)) with hgL | hgR
          · have hlv : lastVal (run_chunk S.svc (c.drop (c.length / 2))) g = none :=
              lastVal_none_of_not_mem_keys _ g (by rw [hkeysR]; exact hdisj hgL)
            rw [hlv]
            exact hihL.1 g hgL
          · have hlv : lastVal (run_chunk S.svc (c.drop (c.length / 2))) g
                = some (S.truth g) := by
              rw [← dlookup_eq_lastVal_of_nodup _ (by rw [hkeysR]; exact hndR) g,
                hclean.1]
              exact dlookup_map_self S.truth _ g hgR
            rw [hlv, if_neg (fun he => hnpR (by rw [← he]; exact hgR))]
        · intro g hg
          rw [hrc, dlookup_dupdate]
          have hgL : g ∉ c.take (c.length / 2) := fun h2 =>
            hg (by rw [← hsplit]; exact List.mem_append_left _ h2)
          have hgR : g ∉ c.drop (c.length / 2) := fun h2 =>
            hg (by rw [← hsplit]; exact List.mem_append_right _ h2)
          have hlv : lastVal (run_chunk S.svc (c.drop (c.length / 2))) g = none :=
            lastVal_none_of_not_mem_keys _ g (by rw [hkeysR]; exact hgR)
          rw [hlv]
          exact hihL.2.1 g hgL
        · rw [hrf, hclean.2, hlenL] at *
          have hb := hihL.2.2
          rw [hlenL] at hb
          have hmono : Nat.clog 2 (c.length / 2) ≤ Nat.clog 2 ((c.length + 1) / 2) :=
            Nat.clog_mono_right 2 (by omega)
          omega
      · -- poison in the right half; left half is clean
        have hnpL : S.poison ∉ c.take (c.length / 2) := fun h2 => hdisj h2 hpR
        have hclean := clean_chunk_eval S (c.take (c.length / 2)) hcinL hnpL hndL hcL
        have hihR := ih (c.drop (c.length / 2)).length (by omega)
          (c.drop (c.length / 2)) rfl hcinR hpR hndR hcR
        refine ⟨?_, ?_, ?_⟩
        · intro g hg
          rw [hrc, dlookup_dupdate]
          rcases (by rw [← List.mem_append, hsplit]; exact hg :
              g ∈ c.take (c.length / 2) ∨ g ∈ c.drop (c.length / 2)) with hgL | hgR
          · have hgnR : g ∉ c.drop (c.length / 2) := hdisj hgL
            have hlv : lastVal (run_chunk S.svc (c.drop (c.length / 2))) g = none := by
              cases hlv2 : lastVal (run_chunk S.svc (c.drop (c.length / 2))) g with
              | none => rfl
              | some v =>
                have hmm := lastVal_mem _ g v hlv2
                have hdl := hihR.2.1 g hgnR
                obtain ⟨w, hw⟩ := dlookup_isSome_of_mem_keys _ g
                  (List.mem_map_of_mem Prod.fst hmm)
                rw [hdl] at hw
                exact absurd hw (by simp)
            rw [hlv, hclean.1]
            rw [dlookup_map_self S.truth _ g hgL,
              if_neg (fun he => hnpL (by rw [← he]; exact hgL))]
          · -- g in the poison (right) half: keys of the right result may not be
            -- nodup a priori, so relate lastVal to dlookup by uniqueness of
            -- the looked-up membership through the recursive characterization
            have hlv : lastVal (run_chunk S.svc (c.drop (c.length / 2))) g
                = some (if g = S.poison then [] else S.truth g) := by
              cases hlv2 : lastVal (run_chunk S.svc (c.drop (c.length / 2))) g with
              | none =>
                obtain ⟨w, hw⟩ := lastVal_isSome_of_mem_keys
                  (run_chunk S.svc (c.drop (c.length / 2))) g
                  (List.mem_map_of_mem Prod.fst (dlookup_mem _ g _ (hihR.1 g hgR)))
                rw [hw] at hlv2
                exact absurd hlv2 (by simp)
              | some w =>
                have hnodupR : ((run_chunk S.svc (c.drop (c.length / 2))).map
                    Prod.fst).Nodup :=
                  run_chunk_keys_nodup S.svc _ _ rfl hndR
                rw [← dlookup_eq_lastVal_of_nodup _ hnodupR g, hihR.1 g hgR] at hlv2
                rw [hlv2]
            rw [hlv]
        · intro g hg
          rw [hrc, dlookup_dupdate]
          have hgL : g ∉ c.take (c.length / 2) := fun h2 =>
            hg (by rw [← hsplit]; exact List.mem_append_left _ h2)
          have hgR : g ∉ c.drop (c.length / 2) := fun h2 =>
            hg (by rw [← hsplit]; exact List.mem_append_right _ h2)
          have hlv : lastVal (run_chunk S.svc (c.drop (c.length / 2))) g = none := by
            cases hlv2 : lastVal (run_chunk S.svc (c.drop (c.length / 2))) g with
            | none => rfl
            | some v =>
              have hmm := lastVal_mem _ g v hlv2
              have hdl := hihR.2.1 g hgR
              obtain ⟨w, hw⟩ := dlookup_isSome_of_mem_keys _ g
                (List.mem_map_of_mem Prod.fst hmm)
              rw [hdl] at hw
              exact absurd hw (by simp)
          rw [hlv, hclean.1]
          exact dlookup_none_of_not_mem_keys _ g (by rw [keys_map_self]; exact hgL)
        · rw [hrf, hclean.2]
          have hb := hihR.2.2
          rw [List.length_drop] at hb
          have hmono : Nat.clog 2 (c.length - c.length / 2)
              ≤ Nat.clog 2 ((c.length + 1) / 2) :=
            Nat.clog_mono_right 2 (by omega)
          omega
    · rw [dif_neg hlen] at hrc hrf
      have hone : c = [S.poison] := by
        cases c with
        | nil => exact absurd hp (by simp)
        | cons a rest =>
          cases rest with
          | nil =>
            rcases List.mem_cons.mp hp with h2 | h2
            · rw [h2]
            · exact absurd h2 (by simp)
          | cons b rest2 =>
            exact absurd (show 1 < (a :: b :: rest2).length by
              rw [List.length_cons, List.length_cons]; omega) hlen
      subst hone
      refine ⟨?_, ?_, ?_⟩
      · intro g hg
        rcases List.mem_cons.mp hg with h2 | h2
        · rw [hrc, h2,
            dlookup_initMapping [S.poison] S.poison (List.mem_cons_self _ _),
            if_pos rfl]
        · exact absurd h2 (by simp)
      · intro g hg
        rw [hrc]
        exact dlookup_none_of_not_mem_keys _ g
          (by rw [initMapping, keys_map_self]; exact hg)
      · rw [hrf]
        have h1 : Nat.clog 2 [S.poison].length = 0 := by
          rw [List.length_singleton]
          exact Nat.clog_one_right 2
        omega

/-- Service used to refute C3: submitting a multi-ID chunk raises
HTTP 429 (a client error that is not 400); single-ID chunks succeed. -/
def svc429 : MapSvc :=
  { submit := fun c =>
      if 1 < c.length then .error (.http 429)
      else .ok (some (joinSep (str " ") c))
    poll := fun _ _ => .ok (some (str "FINISHED"))
    results := fun j => .ok [(j, j ++ str "X")] }

/-- C3 counterexample: an HTTP 429 client error during submit of the
two-ID chunk `["1","2"]` is not bisected — the whole chunk is abandoned
with empty mappings after a single failed attempt — even though each
single-ID half would succeed on its own (the handler only bisects on
HTTP 400). -/
theorem c3_counterexample :
    run_chunk svc429 [str "1", str "2"] = [(str "1", []), (str "2", [])] ∧
    run_chunk_failures svc429 [str "1", str "2"] = 1 ∧
    run_chunk svc429 [str "1"] = [(str "1", [str "1X"])] ∧
    run_chunk svc429 [str "2"] = [(str "2", [str "2X"])] := by
  refine ⟨?_, ?_, ?_, ?_⟩
  · rw [run_chunk]; decide
  · rw [run_chunk_failures]; decide
  · rw [run_chunk]; decide
  · rw [run_chunk]; decide

/-- C3 amended: a failed terminal job state (and likewise HTTP 400 or a
non-HTTP exception) triggers the bisection fallback, but an HTTP client
error other than 400 (e.g. 429) abandons the whole chunk with empty
mappings without splitting it. Under a service where exactly one ID
poisons every chunk containing it (the job reports FAILED) and all other
chunks finish with their ground-truth pairs, the mapper returns the
correct mapping for every non-poison ID, records the poison ID with an
explicit empty mapping, and observes at most `⌈log₂ N⌉ + 1 =
Nat.clog 2 N + 1` failed chunk attempts. -/
theorem c3_bisection_fallback :
    (∀ (svc : MapSvc) (ids : List Str) (e : HErr),
      svc.submit ids = .error e → errBisects e = false →
      run_chunk svc ids = initMapping ids) ∧
    (∀ (S : PoisonScenario),
      S.ids.Nodup → (∀ g ∈ S.ids, pyStrip g = g ∧ ¬ g = []) → S.poison ∈ S.ids →
      (∀ g ∈ S.ids, dlookup (run_chunk S.svc S.ids) g
        = some (if g = S.poison then [] else S.truth g)) ∧
      run_chunk_failures S.svc S.ids ≤ Nat.clog 2 S.ids.length + 1) := by
  constructor
  · intro svc ids e hsub hb
    rw [run_chunk]
    simp only [hsub]
    rw [if_neg (by simp [hb])]
  · intro S hnd hgood hp
    have h := poison_chunk_eval S S.ids.length S.ids rfl (fun g hg => hg) hp hnd hgood
    exact ⟨h.1, h.2.2⟩

/-- Ground truth for the witness scenario: IDs "1" and "3" map to one
accession each; everything else (including the poison "2") to nothing. -/
def truthP (g : Str) : StrSet :=
  if g = str "1" then [str "P1"] else if g = str "3" then [str "P3"] else []

/-- Witness service: the job handle encodes the chunk (space-joined);
any chunk containing the poison ID "2" polls to FAILED, the rest finish
and return their ground-truth pairs. -/
def svcPoison : MapSvc :=
  { submit := fun c => .ok (some (joinSep (str " ") c))
    poll := fun j _ =>
      .ok (some (if str "2" ∈ splitOnChar ' ' j then str "FAILED" else str "FINISHED"))
    results := fun j =>
      .ok ((splitOnChar ' ' j).flatMap (fun g => (truthP g).map (fun a => (g, a)))) }

/-- The chunk decodes back from the witness job encoding for every chunk
drawn from the witness ID list. -/
theorem poisonW_splitjoin : ∀ c : List Str,
    (∀ g ∈ c, g ∈ ([str "1", str "2", str "3"] : List Str)) →
    splitOnChar ' ' (joinSep (str " ") c) = c ∨ c = [] := by
  intro c hc
  cases c with
  | nil => exact Or.inr rfl
  | cons g0 rest =>
    refine Or.inl ?_
    have hns : ∀ p ∈ g0 :: rest, p.contains ' ' = false := by
      intro p hp
      have hin := hc p hp
      fin_cases hin <;> decide
    exact splitOnChar_join ' ' (g0 :: rest) (List.cons_ne_nil g0 rest) hns

theorem poisonW_hpoll : ∀ (c : List Str) (i : Nat),
    (∀ g ∈ c, g ∈ ([str "1", str "2", str "3"] : List Str)) →
    svcPoison.poll (joinSep (str " ") c) i
      = .ok (some (if str "2" ∈ c then str "FAILED" else str "FINISHED")) := by
  intro c i hc
  rcases poisonW_splitjoin c hc with h | h
  · show Except.ok (some (if str "2" ∈ splitOnChar ' ' (joinSep (str " ") c)
      then str "FAILED" else str "FINISHED")) = _
    rw [h]
  · rw [h]
    rfl

theorem poisonW_hres : ∀ (c : List Str),
    (∀ g ∈ c, g ∈ ([str "1", str "2", str "3"] : List Str)) → str "2" ∉ c →
    svcPoison.results (joinSep (str " ") c)
      = .ok (c.flatMap (fun g => (truthP g).map (fun a => (g, a)))) := by
  intro c hc _
  rcases poisonW_splitjoin c hc with h | h
  · show Except.ok ((splitOnChar ' ' (joinSep (str " ") c)).flatMap
      (fun g => (truthP g).map (fun a => (g, a)))) = _
    rw [h]
  · rw [h]
    rfl

theorem poisonW_htruth : ∀ g a, a ∈ truthP g → pyStrip a = a ∧ ¬ a = [] := by
  intro g a ha
  rw [truthP] at ha
  split_ifs at ha
  · have h2 : a = str "P1" := by simpa using ha
    rw [h2]
    exact ⟨by decide, by decide⟩
  · have h2 : a = str "P3" := by simpa using ha
    rw [h2]
    exact ⟨by decide, by decide⟩
  · exact absurd ha (by simp)

theorem poisonW_hsorted : ∀ g, SortedSet (truthP g) := by
  intro g
  rw [truthP]
  split_ifs <;> simp [SortedSet]

/-- The witness poison scenario: IDs `["1","2","3"]`, poison `"2"`. -/
def poisonS : PoisonScenario :=
  { svc := svcPoison
    jobOf := fun c => joinSep (str " ") c
    poison := str "2"
    truth := truthP
    ids := [str "1", str "2", str "3"]
    hsub := fun c _ => rfl
    hpoll := poisonW_hpoll
    hres := poisonW_hres
    htruth := poisonW_htruth
    hsorted := poisonW_hsorted }

/-- C3 witness: non-bisecting 429 abandonment on a concrete chunk, and
the poison scenario on `["1","2","3"]` with poison "2": correct mappings
for "1" and "3", explicit empty mapping for "2", and at most
`Nat.clog 2 3 + 1 = 3` failed chunk attempts. -/
theorem c3_bisection_fallback_witness :
    run_chunk svc429 [str "1", str "2"] = initMapping [str "1", str "2"] ∧
    dlookup (run_chunk svcPoison [str "1", str "2", str "3"]) (str "1")
      = some [str "P1"] ∧
    dlookup (run_chunk svcPoison [str "1", str "2", str "3"]) (str "2")
      = some [] ∧
    dlookup (run_chunk svcPoison [str "1", str "2", str "3"]) (str "3")
      = some [str "P3"] ∧
    run_chunk_failures svcPoison [str "1", str "2", str "3"] ≤ Nat.clog 2 3 + 1 := by
  have hS := c3_bisection_fallback.2 poisonS (by decide) (by decide) (by decide)
  refine ⟨?_, ?_, ?_, ?_, ?_⟩
  · exact c3_bisection_fallback.1 svc429 [str "1", str "2"] (.http 429) rfl rfl
  · exact (hS.1 (str "1") (by decide)).trans (by decide)
  · exact (hS.1 (str "2") (by decide)).trans (by decide)
  · exact (hS.1 (str "3") (by decide)).trans (by decide)
  · exact hS.2

section Aggregation

/-- A `uniprot_details` record as used by the pipeline:
`{uniprot_id, protein_name, gene_name}` (empty string for missing). -/
structure Detail where
  uniprotId : Str
  proteinName : Str
  geneName : Str
deriving DecidableEq, Repr

/-- `cached_details.get(acc, {})`: every field of the empty dict is
falsy. -/
def emptyDetail : Detail := { uniprotId := [], proteinName := [], geneName := [] }

/-- One value of the per-batch `pmid_to_genes` dict:
`{"gene_ids": sorted(gene_ids), "gene_ids_norm": normalized,
"gene_names": sorted(gene_names)}`. -/
structure DocInfo where
  geneIds : List Str
  geneIdsNorm : List Str
  geneNames : List Str
deriving DecidableEq, Repr

/-- The per-document aggregation of `pubtator_enrich.main` (lines
696-725): union the accessions of all normalized gene IDs; derive
UniProt-ID / protein-name / gene-name sets from the details of that
union; prefer UniProt gene names over PubTator ones; serialize with
`", ".join(sorted(...))` for the accession list and
`" | ".join(sorted(...))` for the name lists, empty string when empty.
-/
def computeUpdateRow (cachedMap : List (Str × StrSet))
    (cachedDetails : List (Str × Detail)) (pmidDoc : Str) (info : DocInfo) :
    UpdTuple :=
  let accessions := info.geneIdsNorm.foldl
    (fun s gid => unionS s ((dlookup cachedMap gid).getD [])) []
  let acValue := if accessions = [] then [] else joinSep (str ", ") accessions
  let uniprotIds := accessions.foldl
    (fun s acc =>
      let d := (dlookup cachedDetails acc).getD emptyDetail
      if ¬ d.uniprotId = [] then sinsert d.uniprotId s else s) []
  let proteinNames := accessions.foldl
    (fun s acc =>
      let d := (dlookup cachedDetails acc).getD emptyDetail
      if ¬ d.proteinName = [] then sinsert d.proteinName s else s) []
  let geneNamesUniprot := accessions.foldl
    (fun s acc =>
      let d := (dlookup cachedDetails acc).getD emptyDetail
      if ¬ d.geneName = [] then sinsert d.geneName s else s) []
  let proteinIdValue := if uniprotIds = [] then [] else joinSep (str " | ") uniprotIds
  let proteinNameValue :=
    if proteinNames = [] then [] else joinSep (str " | ") proteinNames
  let geneNamesFinal :=
    if ¬ geneNamesUniprot = [] then geneNamesUniprot else listToStrSet info.geneNames
  let geneNameValue :=
    if geneNamesFinal = [] then [] else joinSep (str " | ") geneNamesFinal
  { ac := acValue, proteinId := proteinIdValue, proteinName := proteinNameValue,
    geneName := geneNameValue, pmid := pmidDoc }

theorem mem_foldl_sinsert (x : Str) : ∀ (t : List Str) (s0 : StrSet),
    x ∈ t.foldl (fun s a => sinsert a s) s0 ↔ x ∈ s0 ∨ x ∈ t := by
  intro t
  induction t with
  | nil => intro s0; simp
  | cons a rest ih =>
    intro s0
    rw [List.foldl_cons, ih, mem_sinsert, List.mem_cons]
    tauto

theorem sorted_foldl_sinsert : ∀ (t : List Str) (s0 : StrSet),
    SortedSet s0 → SortedSet (t.foldl (fun s a => sinsert a s) s0) := by
  intro t
  induction t with
  | nil => intro s0 h; exact h
  | cons a rest ih =>
    intro s0 h
    rw [List.foldl_cons]
    exact ih _ (sinsert_sorted h)

theorem mem_unionS (x : Str) (s t : StrSet) : x ∈ unionS s t ↔ x ∈ s ∨ x ∈ t :=
  mem_foldl_sinsert x t s

theorem unionS_sorted {s : StrSet} (t : StrSet) (h : SortedSet s) :
    SortedSet (unionS s t) :=
  sorted_foldl_sinsert t s h

theorem mem_listToStrSet (x : Str) (l : List Str) : x ∈ listToStrSet l ↔ x ∈ l := by
  rw [listToStrSet, mem_foldl_sinsert]
  simp

theorem listToStrSet_sorted (l : List Str) : SortedSet (listToStrSet l) :=
  sorted_foldl_sinsert l [] (by simp [SortedSet])

theorem mem_foldl_unionS (f : Str → StrSet) (x : Str) : ∀ (l : List Str) (s0 : StrSet),
    x ∈ l.foldl (fun s g => unionS s (f g)) s0 ↔ x ∈ s0 ∨ ∃ g ∈ l, x ∈ f g := by
  intro l
  induction l with
  | nil => intro s0; simp
  | cons g rest ih =>
    intro s0
    rw [List.foldl_cons, ih, mem_unionS]
    constructor
    · rintro ((h | h) | ⟨g2, hg2, hx⟩)
      · exact Or.inl h
      · exact Or.inr ⟨g, List.mem_cons_self g rest, h⟩
      · exact Or.inr ⟨g2, List.mem_cons_of_mem g hg2, hx⟩
    · rintro (h | ⟨g2, hg2, hx⟩)
      · exact Or.inl (Or.inl h)
      · rcases List.mem_cons.mp hg2 with he | he
        · exact Or.inl (Or.inr (he ▸ hx))
        · exact Or.inr ⟨g2, he, hx⟩

theorem sorted_foldl_unionS (f : Str → StrSet) : ∀ (l : List Str) (s0 : StrSet),
    SortedSet s0 → SortedSet (l.foldl (fun s g => unionS s (f g)) s0) := by
  intro l
  induction l with
  | nil => intro s0 h; exact h
  | cons g rest ih =>
    intro s0 h
    rw [List.foldl_cons]
    exact ih _ (unionS_sorted (f g) h)

theorem mem_foldl_sinsert_if (v : Str → Str) (P : Str → Bool) (x : Str) :
    ∀ (l : List Str) (s0 : StrSet),
    x ∈ l.foldl (fun s a => if P a then sinsert (v a) s else s) s0
      ↔ x ∈ s0 ∨ ∃ a ∈ l, P a = true ∧ v a = x := by
  intro l
  induction l with
  | nil => intro s0; simp
  | cons a rest ih =>
    intro s0
    rw [List.foldl_cons]
    by_cases hp : P a
    · rw [if_pos hp, ih, mem_sinsert]
      constructor
      · rintro ((h | h) | ⟨b, hb, hpb, hv⟩)
        · exact Or.inr ⟨a, List.mem_cons_self a rest, hp, h.symm⟩
        · exact Or.inl h
        · exact Or.inr ⟨b, List.mem_cons_of_mem a hb, hpb, hv⟩
      · rintro (h | ⟨b, hb, hpb, hv⟩)
        · exact Or.inl (Or.inr h)
        · rcases List.mem_cons.mp hb with he | he
          · exact Or.inl (Or.inl (he ▸ hv).symm)
          · exact Or.inr ⟨b, he, hpb, hv⟩
    · rw [if_neg hp, ih]
      constructor
      · rintro (h | ⟨b, hb, hpb, hv⟩)
        · exact Or.inl h
        · exact Or.inr ⟨b, List.mem_cons_of_mem a hb, hpb, hv⟩
      · rintro (h | ⟨b, hb, hpb, hv⟩)
        · exact Or.inl h
        · rcases List.mem_cons.mp hb with he | he
          · rw [he] at hpb
            exact absurd hpb (by simp [hp])
          · exact Or.inr ⟨b, he, hpb, hv⟩

theorem sorted_foldl_sinsert_if (v : Str → Str) (P : Str → Bool) :
    ∀ (l : List Str) (s0 : StrSet),
    SortedSet s0 →
    SortedSet (l.foldl (fun s a => if P a then sinsert (v a) s else s) s0) := by
  intro l
  induction l with
  | nil => intro s0 h; exact h
  | cons a rest ih =>
    intro s0 h
    rw [List.foldl_cons]
    by_cases hp : P a
    · rw [if_pos hp]
      exact ih _ (sinsert_sorted h)
    · rw [if_neg hp]
      exact ih _ h

end Aggregation

section AggregationIte

theorem mem_foldl_sinsert_ite (v : Str → Str) (P : Str → Prop) [DecidablePred P]
    (x : Str) : ∀ (l : List Str) (s0 : StrSet),
    x ∈ l.foldl (fun s a => if P a then sinsert (v a) s else s) s0
      ↔ x ∈ s0 ∨ ∃ a ∈ l, P a ∧ v a = x := by
  intro l
  induction l with
  | nil => intro s0; simp
  | cons a rest ih =>
    intro s0
    rw [List.foldl_cons]
    by_cases hp : P a
    · rw [if_pos hp, ih, mem_sinsert]
      constructor
      · rintro ((h | h) | ⟨b, hb, hpb, hv⟩)
        · exact Or.inr ⟨a, List.mem_cons_self a rest, hp, h.symm⟩
        · exact Or.inl h
        · exact Or.inr ⟨b, List.mem_cons_of_mem a hb, hpb, hv⟩
      · rintro (h | ⟨b, hb, hpb, hv⟩)
        · exact Or.inl (Or.inr h)
        · rcases List.mem_cons.mp hb with he | he
          · exact Or.inl (Or.inl (he ▸ hv).symm)
          · exact Or.inr ⟨b, he, hpb, hv⟩
    · rw [if_neg hp, ih]
      constructor
      · rintro (h | ⟨b, hb, hpb, hv⟩)
        · exact Or.inl h
        · exact Or.inr ⟨b, List.mem_cons_of_mem a hb, hpb, hv⟩
      · rintro (h | ⟨b, hb, hpb, hv⟩)
        · exact Or.inl h
        · rcases List.mem_cons.mp hb with he | he
          · rw [he] at hpb
            exact absurd hpb hp
          · exact Or.inr ⟨b, he, hpb, hv⟩

theorem sorted_foldl_sinsert_ite (v : Str → Str) (P : Str → Prop) [DecidablePred P] :
    ∀ (l : List Str) (s0 : StrSet),
    SortedSet s0 →
    SortedSet (l.foldl (fun s a => if P a then sinsert (v a) s else s) s0) := by
  intro l
  induction l with
  | nil => intro s0 h; exact h
  | cons a rest ih =>
    intro s0 h
    rw [List.foldl_cons]
    by_cases hp : P a
    · rw [if_pos hp]
      exact ih _ (sinsert_sorted h)
    · rw [if_neg hp]
      exact ih _ h

end AggregationIte

/-- C8: per-document aggregation and serialization. The computed update
tuple serializes, deterministically: the accession field as the
comma-joined strictly sorted union of all accessions reachable from any
of the document's normalized gene IDs; the Protein_ID and Protein_Name
fields as the pipe-joined strictly sorted sets of non-empty UniProt IDs
and protein names of the details of that union; the Gene_Name field from
the UniProt-derived gene names when at least one exists, otherwise from
the annotation-extracted gene names; empty fields serialize as the empty
string. Being a pure function of its inputs, the same inputs always give
byte-identical values. -/
theorem c8_aggregation_serialization (m : List (Str × StrSet))
    (d : List (Str × Detail)) (p : Str) (info : DocInfo) :
    ∃ A U PN GU GN : StrSet,
      SortedSet A ∧
      (∀ x, x ∈ A ↔ ∃ gid ∈ info.geneIdsNorm, x ∈ (dlookup m gid).getD []) ∧
      SortedSet U ∧
      (∀ x, x ∈ U ↔ ∃ a ∈ A,
        ¬ ((dlookup d a).getD emptyDetail).uniprotId = [] ∧
          ((dlookup d a).getD emptyDetail).uniprotId = x) ∧
      SortedSet PN ∧
      (∀ x, x ∈ PN ↔ ∃ a ∈ A,
        ¬ ((dlookup d a).getD emptyDetail).proteinName = [] ∧
          ((dlookup d a).getD emptyDetail).proteinName = x) ∧
      SortedSet GU ∧
      (∀ x, x ∈ GU ↔ ∃ a ∈ A,
        ¬ ((dlookup d a).getD emptyDetail).geneName = [] ∧
          ((dlookup d a).getD emptyDetail).geneName = x) ∧
      SortedSet GN ∧
      (¬ GU = [] → GN = GU) ∧
      (GU = [] → ∀ x, x ∈ GN ↔ x ∈ info.geneNames) ∧
      computeUpdateRow m d p info
        = { ac := if A = [] then [] else joinSep (str ", ") A,
            proteinId := if U = [] then [] else joinSep (str " | ") U,
            proteinName := if PN = [] then [] else joinSep (str " | ") PN,
            geneName := if GN = [] then [] else joinSep (str " | ") GN,
            pmid := p } := by
  refine ⟨info.geneIdsNorm.foldl (fun s gid => unionS s ((dlookup m gid).getD [])) [],
    (info.geneIdsNorm.foldl (fun s gid => unionS s ((dlookup m gid).getD [])) []).foldl
      (fun s acc =>
        let dd := (dlookup d acc).getD emptyDetail
        if ¬ dd.uniprotId = [] then sinsert dd.uniprotId s else s) [],
    (info.geneIdsNorm.foldl (fun s gid => unionS s ((dlookup m gid).getD [])) []).foldl
      (fun s acc =>
        let dd := (dlookup d acc).getD emptyDetail
        if ¬ dd.proteinName = [] then sinsert dd.proteinName s else s) [],
    (info.geneIdsNorm.foldl (fun s gid => unionS s ((dlookup m gid).getD [])) []).foldl
      (fun s acc =>
        let dd := (dlookup d acc).getD emptyDetail
        if ¬ dd.geneName = [] then sinsert dd.geneName s else s) [],
    (if ¬ ((info.geneIdsNorm.foldl (fun s gid => unionS s ((dlookup m gid).getD [])) []).foldl
      (fun s acc =>
        let dd := (dlookup d acc).getD emptyDetail
        if ¬ dd.geneName = [] then sinsert dd.geneName s else s) []) = []
     then ((info.geneIdsNorm.foldl (fun s gid => unionS s ((dlookup m gid).getD [])) []).foldl
      (fun s acc =>
        let dd := (dlookup d acc).getD emptyDetail
        if ¬ dd.geneName = [] then sinsert dd.geneName s else s) [])
     else listToStrSet info.geneNames),
    ?_, ?_, ?_, ?_, ?_, ?_, ?_, ?_, ?_, ?_, ?_, ?_⟩
  · exact sorted_foldl_unionS _ info.geneIdsNorm [] (by simp [SortedSet])
  · intro x
    exact (mem_foldl_unionS (fun gid => (dlookup m gid).getD []) x
      info.geneIdsNorm []).trans (by simp)
  · exact sorted_foldl_sinsert_ite
      (fun a => ((dlookup d a).getD emptyDetail).uniprotId)
      (fun a => ¬ ((dlookup d a).getD emptyDetail).uniprotId = [])
      _ [] (by simp [SortedSet])
  · intro x
    exact (mem_foldl_sinsert_ite
      (fun a => ((dlookup d a).getD emptyDetail).uniprotId)
      (fun a => ¬ ((dlookup d a).getD emptyDetail).uniprotId = [])
      x _ []).trans (by simp)
  · exact sorted_foldl_sinsert_ite
      (fun a => ((dlookup d a).getD emptyDetail).proteinName)
      (fun a => ¬ ((dlookup d a).getD emptyDetail).proteinName = [])
      _ [] (by simp [SortedSet])
  · intro x
    exact (mem_foldl_sinsert_ite
      (fun a => ((dlookup d a).getD emptyDetail).proteinName)
      (fun a => ¬ ((dlookup d a).getD emptyDetail).proteinName = [])
      x _ []).trans (by simp)
  · exact sorted_foldl_sinsert_ite
      (fun a => ((dlookup d a).getD emptyDetail).geneName)
      (fun a => ¬ ((dlookup d a).getD emptyDetail).geneName = [])
      _ [] (by simp [SortedSet])
  · intro x
    exact (mem_foldl_sinsert_ite
      (fun a => ((dlookup d a).getD emptyDetail).geneName)
      (fun a => ¬ ((dlookup d a).getD emptyDetail).geneName = [])
      x _ []).trans (by simp)
  · by_cases hgu : ((info.geneIdsNorm.foldl
        (fun s gid => unionS s ((dlookup m gid).getD [])) []).foldl
        (fun s acc =>
          let dd := (dlookup d acc).getD emptyDetail
          if ¬ dd.geneName = [] then sinsert dd.geneName s else s) []) = []
    · rw [if_neg (fun hc => hc hgu)]
      exact listToStrSet_sorted info.geneNames
    · rw [if_pos hgu]
      exact sorted_foldl_sinsert_ite
        (fun a => ((dlookup d a).getD emptyDetail).geneName)
        (fun a => ¬ ((dlookup d a).getD emptyDetail).geneName = [])
        _ [] (by simp [SortedSet])
  · intro hgu
    rw [if_pos hgu]
  · intro hgu x
    rw [if_neg (fun hc => hc hgu)]
    exact mem_listToStrSet x info.geneNames
  · rfl

section PipelineModel

/-- One PubTator annotation, flattened to the fields `extract_genes`
reads: `infons.type`, `infons.identifier`, `infons.normalized_id`,
`infons.name`, and the annotation's `text`. -/
structure Ann where
  atype : Str
  identifier : Option Str
  normalizedId : Option Str
  name : Option Str
  text : Option Str
deriving DecidableEq, Repr

/-- One PubTator document: its `id` and its passages' annotation lists
(other passage fields are unread). -/
structure Doc where
  id : Str
  passages : List (List Ann)
deriving DecidableEq, Repr

/-- Python truthiness of an optional string (`None` and `""` falsy). -/
def truthyO : Option Str → Bool
  | none => false
  | some s => !s.isEmpty

/-- Python `a or b` on optional strings. -/
def pyOr (a b : Option Str) : Option Str := if truthyO a then a else b

/-- `pubtator_enrich.extract_genes`: collect the gene identifiers (split
on `;`/`,`, stripped, non-empty) and gene names (stripped) of the
`Gene`-typed annotations; the document id is `str(doc.get("id", ""))`
stripped. -/
def extract_genes (doc : Doc) : Str × StrSet × StrSet :=
  let res := doc.passages.foldl
    (fun st passage => passage.foldl
      (fun (st : StrSet × StrSet) ann =>
        if ann.atype = str "Gene" then
          let ids :=
            match pyOr ann.identifier ann.normalizedId with
            | none => st.1
            | some ident =>
              (splitOnChar ',' (replaceChar ';' ',' ident)).foldl
                (fun ids part =>
                  if pyStrip part = [] then ids else sinsert (pyStrip part) ids)
                st.1
          let names :=
            match pyOr ann.name ann.text with
            | none => st.2
            | some nm => if nm = [] then st.2 else sinsert (pyStrip nm) st.2
          (ids, names)
        else st)
      st)
    ([], [])
  (pyStrip doc.id, res.1, res.2)

/-- The `pmid_to_genes` value built from one document. -/
def docInfoOf (doc : Doc) : DocInfo :=
  { geneIds := (extract_genes doc).2.1,
    geneIdsNorm := normalize_gene_ids (extract_genes doc).2.1,
    geneNames := (extract_genes doc).2.2 }

/-- One iteration of the per-batch document loop of `main`: documents
without an id are skipped, later documents with the same id overwrite
the dict entry, and `all_gene_ids` accumulates. -/
def scanStep (st : List (Str × DocInfo) × StrSet) (doc : Doc) :
    List (Str × DocInfo) × StrSet :=
  if pyStrip doc.id = [] then st
  else
    (dset (pyStrip doc.id) (docInfoOf doc) st.1,
     unionS st.2 (listToStrSet (normalize_gene_ids (extract_genes doc).2.1)))

/-- The per-batch document scan of `main`: build the `pmid_to_genes`
dict and accumulate `all_gene_ids`. -/
def scanDocs (docs : List Doc) : List (Str × DocInfo) × StrSet :=
  docs.foldl scanStep ([], [])

/-- A stored `uniprot_details` row (columns nullable). -/
structure DetailRow where
  uniprotId : Option Str
  proteinName : Option Str
  geneName : Option Str
deriving DecidableEq, Repr

/-- The read path's `or ""` on each column. -/
def rowToDetail (r : DetailRow) : Detail :=
  { uniprotId := r.uniprotId.getD [], proteinName := r.proteinName.getD [],
    geneName := r.geneName.getD [] }

/-- The write path stores the three strings as they are. -/
def detailToRow (v : Detail) : DetailRow :=
  { uniprotId := some v.uniprotId, proteinName := some v.proteinName,
    geneName := some v.geneName }

/-- `pubtator_enrich.get_cached_uniprot_details`. -/
def get_cached_uniprot_details (tbl : List (Str × DetailRow)) (accs : List Str) :
    List (Str × Detail) :=
  tbl.foldl (fun m kv => if kv.1 ∈ accs then dset kv.1 (rowToDetail kv.2) m else m) []

/-- `pubtator_enrich.store_uniprot_details`. -/
def store_uniprot_details (tbl : List (Str × DetailRow))
    (dd : List (Str × Detail)) : List (Str × DetailRow) :=
  dd.foldl (fun tbl kv => upsertRow kv.1 (detailToRow kv.2) tbl) tbl

/-- One raw item of a UniProt search response, flattened to the JSON
paths the code reads (a `none` collapses every missing-key level). -/
structure RawDetailItem where
  primaryAccession : Option Str
  uniProtkbId : Option Str
  recommendedName : Option Str
  submissionNames : List (Option Str)
  genes : List (Option Str)
deriving DecidableEq, Repr

/-- Per-item extraction of `fetch_uniprot_details`: recommended full
name, else first submission name; first gene's name; keyed by
`primaryAccession` when truthy. -/
def extractItem (details : List (Str × Detail)) (it : RawDetailItem) :
    List (Str × Detail) :=
  let pn :=
    if truthyO it.recommendedName then it.recommendedName
    else
      match it.submissionNames with
      | [] => it.recommendedName
      | n0 :: _ => n0
  let gn :=
    match it.genes with
    | [] => none
    | g0 :: _ => g0
  match it.primaryAccession with
  | none => details
  | some acc =>
    if ¬ acc = [] then
      dset acc
        { uniprotId := it.uniProtkbId.getD [], proteinName := pn.getD [],
          geneName := gn.getD [] }
        details
    else details

/-- The batch-accumulation loop shared by `main` (PMID batches of
`--batch`, with the trailing partial batch flushed after the loop) and
the 50-accession batches of `fetch_uniprot_details`; `n = 0` behaves
like 1, as the `len(batch) < n` test then never holds. -/
def chunksAux {α : Type} (n : Nat) : List α → List α → List (List α)
  | [], acc => if acc.isEmpty then [] else [acc.reverse]
  | x :: xs, acc =>
    let acc2 := x :: acc
    if n ≤ acc2.length then acc2.reverse :: chunksAux n xs []
    else chunksAux n xs acc2

def chunksOf {α : Type} (n : Nat) (l : List α) : List (List α) := chunksAux n l []

/-- `pubtator_enrich.fetch_uniprot_details` against a detail-service
oracle (one response list per 50-accession query). -/
def fetch_uniprot_details (dsvc : List Str → List RawDetailItem)
    (accessions : List Str) : List (Str × Detail) :=
  let accs := accessions.filter (fun a => ¬ a = [])
  (chunksOf 50 accs).foldl
    (fun details batch => (dsvc batch).foldl extractItem details) []

/-- The three external services of the pipeline, as fixed oracles. -/
structure Oracle where
  pubtator : List Str → List Doc
  mapSvc : MapSvc
  detailSvc : List Str → List RawDetailItem

/-- The two caches (`gene_to_uniprot`, `uniprot_details`). -/
structure Cache where
  gene : List (Str × Option Str)
  details : List (Str × DetailRow)
deriving DecidableEq, Repr

structure Cfg where
  batch : Nat
  limit : Nat
  commitEvery : Nat
  uniprotBatch : Nat
deriving DecidableEq, Repr

/-- One chunk of the cache-miss loop: run the mapper, store the result,
merge it into the in-memory map. -/
def geneStep (svc : MapSvc)
    (st : List (Str × Option Str) × List (Str × StrSet)) (chunk : List Str) :
    List (Str × Option Str) × List (Str × StrSet) :=
  (store_gene_map st.1 (run_uniprot_idmapping svc chunk),
   dupdate st.2 (run_uniprot_idmapping svc chunk))

/-- The gene-mapping step of one batch: read the cache for the batch's
gene IDs, resolve the cache misses through `run_uniprot_idmapping` in
`--uniprot-batch` chunks, storing each chunk's result. -/
def genePhase (O : Oracle) (cfg : Cfg) (cacheGene : List (Str × Option Str))
    (gids : StrSet) : List (Str × Option Str) × List (Str × StrSet) :=
  let cachedMap0 := get_cached_gene_map cacheGene gids
  let missing := gids.filter (fun gid => (dlookup cachedMap0 gid).isNone)
  (chunksOf cfg.uniprotBatch missing).foldl (geneStep O.mapSvc)
    (cacheGene, cachedMap0)

/-- The detail step of one batch: read the cache for the batch's
accessions, fetch the misses (`if missing_accs:`), store the result. -/
def detailPhase (O : Oracle) (cacheDetails : List (Str × DetailRow))
    (accs : StrSet) : List (Str × DetailRow) × List (Str × Detail) :=
  let cachedDetails0 := get_cached_uniprot_details cacheDetails accs
  let missingAccs := accs.filter (fun a => (dlookup cachedDetails0 a).isNone)
  if missingAccs.isEmpty then (cacheDetails, cachedDetails0)
  else
    let newDetails := fetch_uniprot_details O.detailSvc missingAccs
    (store_uniprot_details cacheDetails newDetails, dupdate cachedDetails0 newDetails)

/-- One cycle of `main`'s batch loop (also the trailing flush): fetch
and scan the PubTator documents, resolve gene IDs and accessions via
cache-then-network, and build one update tuple per scanned document. -/
def processBatch (O : Oracle) (cfg : Cfg) (cache : Cache) (b : List Str) :
    List UpdTuple × Cache :=
  let sc := scanDocs (O.pubtator b)
  let gp := genePhase O cfg cache.gene sc.2
  let allAccessions := gp.2.foldl (fun s kv => unionS s kv.2) []
  let dp := detailPhase O cache.details allAccessions
  (sc.1.map (fun kv => computeUpdateRow gp.2 dp.2 kv.1 kv.2),
   { gene := gp.1, details := dp.1 })

/-- Keep first occurrences (SQL `DISTINCT` over a scan). -/
def dedupFirst (l : List Str) : List Str :=
  l.foldl (fun acc p => if p ∈ acc then acc else acc ++ [p]) []

/-- `pubtator_enrich.iter_pmids_missing_ac`: distinct raw PMID values of
rows with a missing accession and a non-blank PMID, then Python-stripped
and filtered non-empty. -/
def iter_pmids_missing_ac (db : List Row) : List Str :=
  ((dedupFirst (db.filterMap
      (fun r =>
        match r.pmid with
        | none => none
        | some p =>
          if acMissing r.ac && !(sqlTrim p).isEmpty then some p else none))).map
    pyStrip).filter (fun p => !p.isEmpty)

/-- One iteration of `main`'s batch loop after the batch itself is
processed: stage the new update tuples, and commit them (apply
`update_predictions` and reset the staging list) once `commit_every`
is reached. -/
def mainStep (O : Oracle) (cfg : Cfg) (st : List Row × Cache × List UpdTuple)
    (batch : List Str) : List Row × Cache × List UpdTuple :=
  if cfg.commitEvery ≤ (st.2.2 ++ (processBatch O cfg st.2.1 batch).1).length then
    (update_predictions (st.2.2 ++ (processBatch O cfg st.2.1 batch).1) st.1,
     (processBatch O cfg st.2.1 batch).2, [])
  else
    (st.1, (processBatch O cfg st.2.1 batch).2,
     st.2.2 ++ (processBatch O cfg st.2.1 batch).1)

/-- `pubtator_enrich.main` under its default `--store-gene-map` off: one
full run over the dataset and the cache. Batches are the `--batch`-sized
chunks of the missing-PMID stream (`--limit 0` means no limit); staged
update tuples are applied whenever `commit_every` is reached and once
more at the end. -/
def runMain (O : Oracle) (cfg : Cfg) (db : List Row) (cache : Cache) :
    List Row × Cache :=
  let pmids := iter_pmids_missing_ac db
  let pmids := if cfg.limit = 0 then pmids else pmids.take cfg.limit
  let final := (chunksOf cfg.batch pmids).foldl (mainStep O cfg) (db, cache, [])
  (update_predictions final.2.2 final.1, final.2.1)

/-- The final gene-cache value of a gene ID, as the second run reads it. -/
def cacheGeneVal (cache : Cache) (gid : Str) : StrSet :=
  match lastVal cache.gene gid with
  | some v => parseGeneRow v
  | none => []

/-- The final detail-cache value of an accession, as the second run
reads it. -/
def cacheDetailVal (cache : Cache) (a : Str) : Detail :=
  match lastVal cache.details a with
  | some r => rowToDetail r
  | none => emptyDetail

/-- The update tuple for document `p` with scan info `i`, computed
entirely from the (final) cache. -/
def tupleFromCache (cache : Cache) (p : Str) (i : DocInfo) : UpdTuple :=
  let A := i.geneIdsNorm.foldl (fun s gid => unionS s (cacheGeneVal cache gid)) []
  computeUpdateRow (i.geneIdsNorm.map (fun gid => (gid, cacheGeneVal cache gid)))
    (A.map (fun a => (a, cacheDetailVal cache a))) p i

end PipelineModel

section IdempotenceCounterexample

/-- A mapping service that is never reached in the scenario below (every
needed gene ID is already cached). -/
def idleSvc : MapSvc :=
  { submit := fun _ => .ok none, poll := fun _ _ => .ok none,
    results := fun _ => .ok [] }

/-- A document carrying one `Gene` annotation with identifier `7`. -/
def docWithGene7 (pmid : String) : Doc :=
  { id := str pmid,
    passages := [[{ atype := str "Gene", identifier := some (str "7"),
                    normalizedId := none, name := some (str "NG7"),
                    text := none }]] }

/-- A PubTator oracle whose response depends on the batch composition:
the two-PMID batch gets a document only for `B`, the one-PMID batch `A`
gets a document for `A`. Each single response is perfectly
self-consistent. -/
def exOracle : Oracle :=
  { pubtator := fun b =>
      if b = [str "A", str "B"] then [docWithGene7 "B"]
      else if b = [str "A"] then [docWithGene7 "A"]
      else [],
    mapSvc := idleSvc,
    detailSvc := fun _ => [] }

def exCfg : Cfg := { batch := 50, limit := 0, commitEvery := 200, uniprotBatch := 200 }

def blankRow (pmid : String) : Row :=
  { pmid := some (str pmid), ac := none, proteinId := none, proteinName := none,
    geneName := none }

def exDb : List Row := [blankRow "A", blankRow "B"]

/-- Gene ID 7 and its accession P7 are already cached, so no network
mapping call is made in either run. -/
def exCache : Cache :=
  { gene := [(str "7", some (str "P7"))],
    details := [(str "P7",
      { uniprotId := some (str "U7"), proteinName := some (str "NP7"),
        geneName := some (str "G7") })] }

end IdempotenceCounterexample

/-- C1 (counterexample): `main` is not idempotent for every dataset and
cache, even with fixed services. In the scenario above, the first run
misses PMID `A` (the PubTator response for the batch `[A, B]` only
contains a document for `B`), fills `B`'s row and leaves `A`'s row
empty; the second run queries the now-smaller batch `[A]`, for which the
same fixed oracle returns a document for `A`, and fills `A`'s row —
changing the dataset again. -/
theorem c1_counterexample :
    runMain exOracle exCfg (runMain exOracle exCfg exDb exCache).1
        (runMain exOracle exCfg exDb exCache).2
      ≠ runMain exOracle exCfg exDb exCache := by
  decide

section DigitStringFacts

theorem digit_toNat (c : Char) (h : c.isDigit = true) : 48 ≤ c.toNat ∧ c.toNat ≤ 57 := by
  simpa [Char.isDigit] using h

theorem digit_toLower (c : Char) (h : c.isDigit = true) : c.toLower = c := by
  have hb := digit_toNat c h
  rw [Char.toLower, if_neg]
  simp only [ge_iff_le, Bool.and_eq_true, decide_eq_true_eq, not_and]
  omega

theorem digit_ne_of_toNat (c d : Char) (h : c.isDigit = true)
    (hd : ¬ (48 ≤ d.toNat ∧ d.toNat ≤ 57)) : ¬ c = d := by
  intro he
  have hb := digit_toNat c h
  rw [he] at hb
  exact hd hb

theorem digit_not_isWs (c : Char) (h : c.isDigit = true) : isWs c = false := by
  have hb := digit_toNat c h
  cases hw : isWs c with
  | false => rfl
  | true =>
    exfalso
    simp only [isWs, decide_eq_true_eq] at hw
    rcases hw with rfl | rfl | rfl | rfl <;> simp at hb

theorem dropWhile_of_no_sat {p : Char → Bool} : ∀ (s : Str),
    (∀ c ∈ s, p c = false) → s.dropWhile p = s := by
  intro s
  cases s with
  | nil => intro _; rfl
  | cons x xs =>
    intro h
    rw [List.dropWhile_cons, if_neg]
    rw [h x (List.mem_cons_self x xs)]
    simp

theorem trimBy_of_no_sat {p : Char → Bool} (s : Str)
    (h : ∀ c ∈ s, p c = false) : trimBy p s = s := by
  rw [trimBy, dropWhile_of_no_sat s h, dropWhile_of_no_sat s.reverse
    (fun c hc => h c (List.mem_reverse.mp hc))]
  exact List.reverse_reverse s

theorem isDigits_chars {s : Str} (h : isDigits s = true) :
    ∀ c ∈ s, c.isDigit = true := by
  rw [isDigits, Bool.and_eq_true, List.all_eq_true] at h
  exact h.2

theorem isDigits_ne_nil {s : Str} (h : isDigits s = true) : ¬ s = [] := by
  rw [isDigits, Bool.and_eq_true] at h
  intro he
  rw [he] at h
  simp at h

theorem pyStrip_digits {s : Str} (h : isDigits s = true) : pyStrip s = s :=
  trimBy_of_no_sat s (fun c hc => digit_not_isWs c (isDigits_chars h c hc))

theorem replaceChar_of_not_mem (a b : Char) (s : Str)
    (h : ∀ c ∈ s, ¬ c = a) : replaceChar a b s = s := by
  rw [replaceChar]
  have : ∀ c ∈ s, (if c = a then b else c) = c := by
    intro c hc
    rw [if_neg (h c hc)]
  rw [List.map_congr_left this]
  simp

theorem digits_contains_false {s : Str} (d : Char) (h : isDigits s = true)
    (hd : ¬ (48 ≤ d.toNat ∧ d.toNat ≤ 57)) : s.contains d = false := by
  cases hc : s.contains d with
  | false => rfl
  | true =>
    exfalso
    rw [List.contains_eq_any_beq, List.any_eq_true] at hc
    obtain ⟨c, hcm, hcd⟩ := hc
    rw [beq_iff_eq] at hcd
    exact digit_ne_of_toNat c d (isDigits_chars h c hcm) hd hcd.symm

theorem digits_not_starts_geneid {s : Str} (h : isDigits s = true) :
    startsStr (lowerStr s) (str "geneid:") = false := by
  cases s with
  | nil => exact absurd rfl (isDigits_ne_nil h)
  | cons c cs =>
    have hc : c.isDigit = true := isDigits_chars h c (List.mem_cons_self c cs)
    have hg : str "geneid:" = 'g' :: str "eneid:" := rfl
    rw [lowerStr, List.map_cons, hg, startsStr, digit_toLower c hc]
    have hne : ¬ c = 'g' := by
      apply digit_ne_of_toNat c 'g' hc
      intro hb
      simp at hb
    rw [Bool.and_eq_false_iff]
    left
    simpa using hne

theorem normTok_digit_fix {x : Str} (h : isDigits x = true) : normTok x = some x := by
  rw [normTok]
  simp only [pyStrip_digits h]
  rw [if_neg (isDigits_ne_nil h)]
  rw [digits_not_starts_geneid h]
  simp only [if_neg Bool.false_ne_true]
  rw [digits_contains_false ':' h (by intro hb; simp at hb)]
  simp only [Bool.false_and, if_neg Bool.false_ne_true]
  rw [if_pos h]

theorem normalize_gene_ids_idem (l : List Str) (hs : SortedSet l)
    (hd : ∀ x ∈ l, isDigits x = true) : normalize_gene_ids l = l := by
  rw [normalize_gene_ids]
  have main : ∀ (t : List Str) (acc : StrSet), (∀ x ∈ t, isDigits x = true) →
      (t.foldl
        (fun cleaned gid =>
          let raw := pyStrip gid
          if raw = [] then cleaned
          else
            (splitOnChar ',' (replaceChar ';' ',' (replaceChar '|' ',' raw))).foldl
              (fun cleaned part =>
                match normTok part with
                | some p => sinsert p cleaned
                | none => cleaned)
              cleaned) acc)
        = t.foldl (fun acc x => sinsert x acc) acc := by
    intro t
    induction t with
    | nil => intro acc _; rfl
    | cons x rest ih =>
      intro acc ht
      have hx : isDigits x = true := ht x (List.mem_cons_self x rest)
      rw [List.foldl_cons, List.foldl_cons]
      simp only [pyStrip_digits hx]
      rw [if_neg (isDigits_ne_nil hx)]
      rw [replaceChar_of_not_mem '|' ',' x
        (fun c hc => digit_ne_of_toNat c '|' (isDigits_chars hx c hc)
          (by intro hb; simp at hb))]
      rw [replaceChar_of_not_mem ';' ',' x
        (fun c hc => digit_ne_of_toNat c ';' (isDigits_chars hx c hc)
          (by intro hb; simp at hb))]
      rw [splitOnChar_no_sep ',' x
        (digits_contains_false ',' hx (by intro hb; simp at hb))]
      rw [List.foldl_cons, List.foldl_nil, normTok_digit_fix hx]
      exact ih _ (fun y hy => ht y (List.mem_cons_of_mem x hy))
  rw [main l [] hd]
  exact foldl_sinsert_sorted l [] (by simpa using hs)

theorem sortedset_nodup {s : StrSet} (h : SortedSet s) : s.Nodup := by
  apply List.Pairwise.imp _ h
  intro a b hab he
  rw [he] at hab
  rw [strLt_irrefl] at hab
  exact Bool.false_ne_true hab

end DigitStringFacts

section FoldHelpers

theorem foldl_congr_mem {α β : Type} (f h : β → α → β) : ∀ (l : List α) (b : β),
    (∀ b2 : β, ∀ a ∈ l, f b2 a = h b2 a) → l.foldl f b = l.foldl h b := by
  intro l
  induction l with
  | nil => intro b _; rfl
  | cons a rest ih =>
    intro b hc
    rw [List.foldl_cons, List.foldl_cons, hc b a (List.mem_cons_self a rest)]
    exact ih _ (fun b2 x hx => hc b2 x (List.mem_cons_of_mem a hx))

theorem foldl_flatMap {α β γ : Type} (hf : α → List β) (e : γ → β → γ) :
    ∀ (L : List α) (init : γ),
    (L.flatMap hf).foldl e init = L.foldl (fun d bq => (hf bq).foldl e d) init := by
  intro L
  induction L with
  | nil => intro init; rfl
  | cons a rest ih =>
    intro init
    rw [List.flatMap_cons, List.foldl_append, List.foldl_cons, ih]

theorem mem_foldl_unionS_gen {α : Type} (f : α → StrSet) (x : Str) :
    ∀ (l : List α) (s0 : StrSet),
    x ∈ l.foldl (fun s kv => unionS s (f kv)) s0 ↔ x ∈ s0 ∨ ∃ kv ∈ l, x ∈ f kv := by
  intro l
  induction l with
  | nil => intro s0; simp
  | cons g rest ih =>
    intro s0
    rw [List.foldl_cons, ih, mem_unionS]
    constructor
    · rintro ((h | h) | ⟨g2, hg2, hx⟩)
      · exact Or.inl h
      · exact Or.inr ⟨g, List.mem_cons_self g rest, h⟩
      · exact Or.inr ⟨g2, List.mem_cons_of_mem g hg2, hx⟩
    · rintro (h | ⟨g2, hg2, hx⟩)
      · exact Or.inl (Or.inl h)
      · rcases List.mem_cons.mp hg2 with he | he
        · exact Or.inl (Or.inr (he ▸ hx))
        · exact Or.inr ⟨g2, he, hx⟩

theorem sorted_foldl_unionS_gen {α : Type} (f : α → StrSet) :
    ∀ (l : List α) (s0 : StrSet),
    SortedSet s0 → SortedSet (l.foldl (fun s kv => unionS s (f kv)) s0) := by
  intro l
  induction l with
  | nil => intro s0 h; exact h
  | cons g rest ih =>
    intro s0 h
    rw [List.foldl_cons]
    exact ih _ (unionS_sorted (f g) h)

theorem chunksAux_flatten {α : Type} (n : Nat) : ∀ (l acc : List α),
    (chunksAux n l acc).flatten = acc.reverse ++ l := by
  intro l
  induction l with
  | nil =>
    intro acc
    rw [chunksAux]
    cases hacc : acc.isEmpty with
    | true =>
      rw [if_pos rfl]
      rw [List.isEmpty_iff] at hacc
      rw [hacc]
      rfl
    | false =>
      rw [if_neg Bool.false_ne_true]
      simp
  | cons x xs ih =>
    intro acc
    rw [chunksAux]
    by_cases hn : n ≤ (x :: acc).length
    · simp only [if_pos hn, List.flatten_cons, ih, List.reverse_cons]
      simp
    · simp only [if_neg hn, ih, List.reverse_cons]
      simp

theorem chunksOf_flatten {α : Type} (n : Nat) (l : List α) :
    (chunksOf n l).flatten = l := by
  rw [chunksOf, chunksAux_flatten]
  rfl

theorem mem_chunksOf_sublist {α : Type} (n : Nat) (l c : List α)
    (hc : c ∈ chunksOf n l) : c.Sublist l := by
  have h := List.sublist_flatten_of_mem hc
  rwa [chunksOf_flatten] at h

theorem mem_of_mem_chunksOf {α : Type} (n : Nat) (l c : List α) (x : α)
    (hc : c ∈ chunksOf n l) (hx : x ∈ c) : x ∈ l :=
  (mem_chunksOf_sublist n l c hc).mem hx

theorem chunksOf_disjoint {α : Type} (n : Nat) (l : List α) (hl : l.Nodup) :
    (chunksOf n l).Pairwise List.Disjoint := by
  have h : (chunksOf n l).flatten.Nodup := by rwa [chunksOf_flatten]
  exact (List.nodup_flatten.mp h).2

theorem chunksOf_parts_nodup {α : Type} (n : Nat) (l : List α) (hl : l.Nodup) :
    ∀ c ∈ chunksOf n l, c.Nodup := by
  have h : (chunksOf n l).flatten.Nodup := by rwa [chunksOf_flatten]
  exact (List.nodup_flatten.mp h).1

theorem mem_dedupFirst_aux : ∀ (l acc : List Str) (x : Str),
    (x ∈ l.foldl (fun acc p => if p ∈ acc then acc else acc ++ [p]) acc)
      ↔ x ∈ acc ∨ x ∈ l := by
  intro l
  induction l with
  | nil => intro acc x; simp
  | cons p rest ih =>
    intro acc x
    rw [List.foldl_cons]
    by_cases hp : p ∈ acc
    · rw [if_pos hp, ih]
      constructor
      · rintro (h | h)
        · exact Or.inl h
        · exact Or.inr (List.mem_cons_of_mem p h)
      · rintro (h | h)
        · exact Or.inl h
        · rcases List.mem_cons.mp h with he | he
          · exact Or.inl (he ▸ hp)
          · exact Or.inr he
    · rw [if_neg hp, ih]
      rw [List.mem_append, List.mem_singleton, List.mem_cons]
      tauto

theorem mem_dedupFirst (l : List Str) (x : Str) : x ∈ dedupFirst l ↔ x ∈ l := by
  rw [dedupFirst, mem_dedupFirst_aux]
  simp

end FoldHelpers

section UpdateAlgebra

theorem update_predictions_append (u v : List UpdTuple) (tbl : List Row) :
    update_predictions (u ++ v) tbl = update_predictions v (update_predictions u tbl) := by
  rw [update_predictions, update_predictions, update_predictions, List.foldl_append]

theorem applyTupleRow_pmid (t : UpdTuple) (r : Row) :
    (applyTupleRow t r).pmid = r.pmid := by
  rw [applyTupleRow]
  split <;> rfl

theorem applyTupleRow_acMissing_mono (t : UpdTuple) (r : Row)
    (h : acMissing (applyTupleRow t r).ac = true) : acMissing r.ac = true := by
  rw [applyTupleRow] at h
  by_cases hc : (r.pmid = some t.pmid && acMissing r.ac) = true
  · exact (Bool.and_eq_true _ _ |>.mp hc).2
  · rw [if_neg hc] at h
    exact h

theorem applyTupleRow_ne_pmid (t : UpdTuple) (r : Row) (h : ¬ r.pmid = some t.pmid) :
    applyTupleRow t r = r := by
  rw [applyTupleRow, if_neg]
  simp [h]

theorem coalesceNullif_idem (v : Str) (x : Option Str) :
    coalesceNullif v (coalesceNullif v x) = coalesceNullif v x := by
  by_cases hv : v = [] <;> simp [coalesceNullif, hv]

theorem applyTupleRow_guard_true (t : UpdTuple) (r : Row)
    (h : (r.pmid = some t.pmid && acMissing r.ac) = true) :
    applyTupleRow t r
      = { r with
          ac := coalesceNullif t.ac r.ac,
          proteinId := coalesceNullif t.proteinId r.proteinId,
          proteinName := coalesceNullif t.proteinName r.proteinName,
          geneName := coalesceNullif t.geneName r.geneName } := by
  rw [applyTupleRow, if_pos h]

theorem applyTupleRow_guard_false (t : UpdTuple) (r : Row)
    (h : ¬ (r.pmid = some t.pmid && acMissing r.ac) = true) :
    applyTupleRow t r = r := by
  rw [applyTupleRow, if_neg h]

theorem applyTupleRow_idem (t : UpdTuple) (r : Row) :
    applyTupleRow t (applyTupleRow t r) = applyTupleRow t r := by
  by_cases hg : (r.pmid = some t.pmid && acMissing r.ac) = true
  · rw [applyTupleRow_guard_true t r hg]
    have hpm : (decide (r.pmid = some t.pmid)) = true := (Bool.and_eq_true _ _).mp hg |>.1
    by_cases hg2 : acMissing (coalesceNullif t.ac r.ac) = true
    · rw [applyTupleRow_guard_true t _ (by
        show (decide (r.pmid = some t.pmid) && acMissing (coalesceNullif t.ac r.ac)) = true
        rw [hpm, hg2]
        rfl)]
      simp only [coalesceNullif_idem]
    · rw [applyTupleRow_guard_false t _ (by
        show ¬ (decide (r.pmid = some t.pmid) && acMissing (coalesceNullif t.ac r.ac)) = true
        intro hc
        exact hg2 ((Bool.and_eq_true _ _).mp hc).2)]
  · rw [applyTupleRow_guard_false t r hg, applyTupleRow_guard_false t r hg]

theorem foldApply_pmid (TS : List UpdTuple) : ∀ (r : Row),
    (TS.foldl (fun r t => applyTupleRow t r) r).pmid = r.pmid := by
  induction TS with
  | nil => intro r; rfl
  | cons t ts ih =>
    intro r
    rw [List.foldl_cons, ih, applyTupleRow_pmid]

theorem foldApply_acMissing_mono (TS : List UpdTuple) : ∀ (r : Row),
    acMissing (TS.foldl (fun r t => applyTupleRow t r) r).ac = true →
    acMissing r.ac = true := by
  induction TS with
  | nil => intro r h; exact h
  | cons t ts ih =>
    intro r h
    rw [List.foldl_cons] at h
    exact applyTupleRow_acMissing_mono t r (ih _ h)

theorem foldApply_skip (TS : List UpdTuple) (p : Str) : ∀ (r : Row),
    r.pmid = some p → (∀ t ∈ TS, ¬ t.pmid = p) →
    TS.foldl (fun r t => applyTupleRow t r) r = r := by
  induction TS with
  | nil => intro r _ _; rfl
  | cons t ts ih =>
    intro r hp hno
    rw [List.foldl_cons, applyTupleRow_ne_pmid t r (by
      rw [hp]
      intro he
      exact hno t (List.mem_cons_self t ts) (Option.some.inj he).symm)]
    exact ih r hp (fun u hu => hno u (List.mem_cons_of_mem t hu))

theorem foldApply_fixed (t2 : UpdTuple) : ∀ (TS : List UpdTuple) (r : Row),
    r.pmid = some t2.pmid → t2 ∈ TS → (∀ t ∈ TS, t.pmid = t2.pmid → t = t2) →
    applyTupleRow t2 (TS.foldl (fun r t => applyTupleRow t r) r)
      = TS.foldl (fun r t => applyTupleRow t r) r := by
  intro TS
  induction TS with
  | nil => intro r _ h2 _; exact absurd h2 (by simp)
  | cons t ts ih =>
    intro r hp ht2 hall
    rw [List.foldl_cons]
    by_cases hmem : t2 ∈ ts
    · exact ih (applyTupleRow t r) (by rw [applyTupleRow_pmid]; exact hp) hmem
        (fun u hu hup => hall u (List.mem_cons_of_mem t hu) hup)
    · have hte : t = t2 := by
        rcases List.mem_cons.mp ht2 with he | he
        · exact he.symm
        · exact absurd he hmem
      rw [hte]
      have hskip : ts.foldl (fun r t => applyTupleRow t r) (applyTupleRow t2 r)
          = applyTupleRow t2 r := by
        apply foldApply_skip ts t2.pmid _ (by rw [applyTupleRow_pmid]; exact hp)
        intro u hu hup
        exact hmem (hall u (List.mem_cons_of_mem t hu) hup ▸ hu)
      rw [hskip, applyTupleRow_idem]

theorem update_predictions_inert : ∀ (T2 : List UpdTuple) (db : List Row),
    (∀ t ∈ T2, ∀ r ∈ db, applyTupleRow t r = r) → update_predictions T2 db = db := by
  intro T2
  induction T2 with
  | nil => intro db _; rfl
  | cons t ts ih =>
    intro db h
    have hmap : db.map (applyTupleRow t) = db := by
      rw [List.map_congr_left
        (fun r hr => h t (List.mem_cons_self t ts) r hr : ∀ r ∈ db, applyTupleRow t r = id r)]
      exact List.map_id db
    show update_predictions ts (db.map (applyTupleRow t)) = db
    rw [hmap]
    exact ih db (fun u hu r hr => h u (List.mem_cons_of_mem t hu) r hr)

theorem mem_dlookup_of_nodup_keys {α : Type} :
    ∀ (d : List (Str × α)), (d.map Prod.fst).Nodup →
    ∀ (k : Str) (v : α), (k, v) ∈ d → dlookup d k = some v := by
  intro d
  induction d with
  | nil => intro _ k v h; exact absurd h (by simp)
  | cons kv rest ih =>
    intro hnd k v h
    rw [List.map_cons, List.nodup_cons] at hnd
    rw [dlookup]
    rcases List.mem_cons.mp h with he | he
    · rw [← he]
      rw [if_pos rfl]
    · have hne : ¬ kv.1 = k := by
        intro hk
        exact hnd.1 (hk ▸ List.mem_map_of_mem Prod.fst he)
      rw [if_neg hne]
      exact ih hnd.2 k v he

end UpdateAlgebra

section StripIdem

theorem dropWhile_head_false {p : Char → Bool} : ∀ (y : Str) (c : Char) (rest : Str),
    y.dropWhile p = c :: rest → p c = false := by
  intro y
  induction y with
  | nil => intro c rest h; exact absurd h (by simp)
  | cons a as ih =>
    intro c rest h
    rw [List.dropWhile_cons] at h
    by_cases hpa : p a = true
    · rw [if_pos hpa] at h
      exact ih c rest h
    · rw [if_neg hpa] at h
      cases h
      exact Bool.not_eq_true _ |>.mp hpa

theorem dropWhile_is_suffix {p : Char → Bool} : ∀ (y : Str),
    ∃ t, y = t ++ y.dropWhile p := by
  intro y
  induction y with
  | nil => exact ⟨[], rfl⟩
  | cons a as ih =>
    rw [List.dropWhile_cons]
    by_cases hpa : p a = true
    · rw [if_pos hpa]
      obtain ⟨t, ht⟩ := ih
      exact ⟨a :: t, by rw [List.cons_append, ← ht]⟩
    · rw [if_neg hpa]
      exact ⟨[], rfl⟩

theorem dropWhile_eq_self_of_head {p : Char → Bool} (y : Str)
    (h : ∀ c rest, y = c :: rest → p c = false) : y.dropWhile p = y := by
  cases y with
  | nil => rfl
  | cons c rest =>
    rw [List.dropWhile_cons, if_neg]
    rw [h c rest rfl]
    simp

theorem trim_core (p : Char → Bool) (u : Str)
    (hcu : ∀ c rest, u = c :: rest → p c = false) :
    trimBy p ((u.reverse.dropWhile p).reverse) = (u.reverse.dropWhile p).reverse := by
  cases hvv : u.reverse.dropWhile p with
  | nil => rfl
  | cons c0 rest0 =>
    have hvne : (c0 :: rest0 : Str) ≠ [] := List.cons_ne_nil _ _
    have hune : u ≠ [] := by
      intro he
      rw [he] at hvv
      simp at hvv
    obtain ⟨cu, us, hus⟩ : ∃ cu us, u = cu :: us := by
      cases u with
      | nil => exact absurd rfl hune
      | cons cu us => exact ⟨cu, us, rfl⟩
    have hcu0 : p cu = false := hcu cu us hus
    obtain ⟨t, ht⟩ := dropWhile_is_suffix (p := p) u.reverse
    rw [hvv] at ht
    have hlast : (c0 :: rest0).getLast hvne = cu := by
      have h1 : u.reverse = us.reverse ++ [cu] := by
        rw [hus]
        simp
      have h2 : t ++ (c0 :: rest0) = us.reverse ++ [cu] := by rw [← ht, h1]
      have h3 : (t ++ (c0 :: rest0)).getLast (by simp) = (c0 :: rest0).getLast hvne :=
        List.getLast_append' t _ hvne
      have h4 : (us.reverse ++ [cu]).getLast (by simp) = cu := by
        rw [List.getLast_append' us.reverse [cu] (List.cons_ne_nil _ _)]
        rfl
      rw [← h3]
      rw [← h4]
      congr 1
    have hvdec : (c0 :: rest0 : Str) = (c0 :: rest0).dropLast ++ [cu] := by
      rw [← hlast]
      exact (List.dropLast_append_getLast hvne).symm
    have hstep1 : ((c0 :: rest0 : Str)).reverse.dropWhile p = (c0 :: rest0 : Str).reverse := by
      apply dropWhile_eq_self_of_head
      intro c rest h
      have hrev : ((c0 :: rest0) : Str).reverse
          = cu :: (c0 :: rest0 : Str).dropLast.reverse := by
        conv_lhs => rw [hvdec]
        simp
      rw [hrev] at h
      cases h
      exact hcu0
    have hstep2 : ((c0 :: rest0 : Str)).dropWhile p = c0 :: rest0 := by
      apply dropWhile_eq_self_of_head
      intro c rest h
      cases h
      exact dropWhile_head_false u.reverse c0 rest0 hvv
    rw [trimBy, hstep1, List.reverse_reverse, hstep2]

theorem trimBy_idem (p : Char → Bool) (s : Str) :
    trimBy p (trimBy p s) = trimBy p s :=
  trim_core p (s.dropWhile p) (fun c rest h => dropWhile_head_false s c rest h)

theorem pyStrip_idem (s : Str) : pyStrip (pyStrip s) = pyStrip s :=
  trimBy_idem isWs s

end StripIdem

section RunChunkValues

/-- Value sets that survive the gene-map cache round trip: sorted, with
stripped, non-empty, comma-free elements. -/
def GoodSet (v : StrSet) : Prop :=
  SortedSet v ∧ ∀ a ∈ v, pyStrip a = a ∧ ¬ a = [] ∧ a.contains ',' = false

theorem goodset_nil : GoodSet [] :=
  ⟨List.Pairwise.nil, fun a ha => absurd ha (by simp)⟩

theorem goodset_roundtrip {v : StrSet} (h : GoodSet v) :
    parseGeneRow (some (serializeAccs v)) = v :=
  parse_serialize v h.1 (fun a ha => ⟨(h.2 a ha).2.1, (h.2 a ha).1, (h.2 a ha).2.2⟩)

theorem mem_dset_cases {α : Type} (k : Str) (v : α) : ∀ (m : List (Str × α)) (x : Str × α),
    x ∈ dset k v m → x = (k, v) ∨ x ∈ m := by
  intro m
  induction m with
  | nil =>
    intro x h
    rw [dset] at h
    exact Or.inl (List.mem_singleton.mp h)
  | cons kv rest ih =>
    intro x h
    rw [dset] at h
    by_cases hk : kv.1 = k
    · rw [if_pos hk] at h
      rcases List.mem_cons.mp h with he | he
      · left
        rw [he, hk]
      · exact Or.inr (List.mem_cons_of_mem kv he)
    · rw [if_neg hk] at h
      rcases List.mem_cons.mp h with he | he
      · exact Or.inr (he ▸ List.mem_cons_self kv rest)
      · rcases ih x he with h2 | h2
        · exact Or.inl h2
        · exact Or.inr (List.mem_cons_of_mem kv h2)

theorem mem_dupdate_cases {α : Type} : ∀ (e d : List (Str × α)) (x : Str × α),
    x ∈ dupdate d e → x ∈ d ∨ x ∈ e := by
  intro e
  induction e with
  | nil => intro d x h; exact Or.inl h
  | cons kv rest ih =>
    intro d x h
    have hstep : dupdate d (kv :: rest) = dupdate (dset kv.1 kv.2 d) rest := by
      rw [dupdate, dupdate, List.foldl_cons]
    rw [hstep] at h
    rcases ih _ x h with h2 | h2
    · rcases mem_dset_cases kv.1 kv.2 d x h2 with h3 | h3
      · right
        rw [h3]
        exact List.mem_cons_self _ _
      · exact Or.inl h3
    · exact Or.inr (List.mem_cons_of_mem kv h2)

theorem mem_dAddToSet_cases (k a : Str) : ∀ (m : List (Str × StrSet)) (x : Str × StrSet),
    x ∈ dAddToSet k a m →
    x ∈ m ∨ ∃ s, x = (k, sinsert a s) ∧ ((k, s) ∈ m ∨ s = []) := by
  intro m
  induction m with
  | nil =>
    intro x h
    rw [dAddToSet] at h
    exact Or.inr ⟨[], List.mem_singleton.mp h, Or.inr rfl⟩
  | cons kv rest ih =>
    intro x h
    rw [dAddToSet] at h
    by_cases hk : kv.1 = k
    · rw [if_pos hk] at h
      rcases List.mem_cons.mp h with he | he
      · refine Or.inr ⟨kv.2, ?_, Or.inl ?_⟩
        · rw [he, hk]
        · rw [← hk]
          exact List.mem_cons_self kv rest
      · exact Or.inl (List.mem_cons_of_mem kv he)
    · rw [if_neg hk] at h
      rcases List.mem_cons.mp h with he | he
      · exact Or.inl (he ▸ List.mem_cons_self kv rest)
      · rcases ih x he with h2 | ⟨s, hs1, hs2⟩
        · exact Or.inl (List.mem_cons_of_mem kv h2)
        · refine Or.inr ⟨s, hs1, ?_⟩
          rcases hs2 with h3 | h3
          · exact Or.inl (List.mem_cons_of_mem kv h3)
          · exact Or.inr h3

theorem goodset_sinsert {a : Str} {s : StrSet} (ha : pyStrip a = a ∧ ¬ a = [] ∧ a.contains ',' = false)
    (hs : GoodSet s) : GoodSet (sinsert a s) := by
  constructor
  · exact sinsert_sorted hs.1
  · intro x hx
    rcases mem_sinsert.mp hx with he | he
    · rw [he]
      exact ha
    · exact hs.2 x he

theorem fold_addResultRow_good (rs : List (Str × Str))
    (hrs : ∀ rw ∈ rs, (pyStrip rw.2).contains ',' = false) :
    ∀ (m : List (Str × StrSet)), (∀ gv ∈ m, GoodSet gv.2) →
    ∀ gv ∈ rs.foldl addResultRow m, GoodSet gv.2 := by
  induction rs with
  | nil => intro m hm gv h; exact hm gv h
  | cons row rest ih =>
    intro m hm gv h
    rw [List.foldl_cons] at h
    refine ih (fun rw hrw => hrs rw (List.mem_cons_of_mem row hrw)) _ ?_ gv h
    intro gv2 h2
    rw [addResultRow] at h2
    by_cases hbad : pyStrip row.1 = [] ∨ pyStrip row.2 = []
    · rw [if_pos hbad] at h2
      exact hm gv2 h2
    · rw [if_neg hbad] at h2
      push_neg at hbad
      rcases mem_dAddToSet_cases _ _ m gv2 h2 with h3 | ⟨s, hs1, hs2⟩
      · exact hm gv2 h3
      · rw [hs1]
        refine goodset_sinsert ⟨pyStrip_idem row.2, hbad.2, hrs row (List.mem_cons_self row rest)⟩ ?_
        rcases hs2 with h4 | h4
        · exact hm (pyStrip row.1, s) h4
        · rw [h4]
          exact goodset_nil

theorem initMapping_good (ids : List Str) : ∀ gv ∈ initMapping ids, GoodSet gv.2 := by
  intro gv h
  rw [initMapping] at h
  obtain ⟨g, _, he⟩ := List.mem_map.mp h
  rw [← he]
  exact goodset_nil

theorem run_chunk_values_good (svc : MapSvc)
    (hsvc : ∀ j rs, svc.results j = Except.ok rs →
      ∀ rw ∈ rs, (pyStrip rw.2).contains ',' = false) :
    ∀ (n : Nat) (ids : List Str), ids.length = n →
    ∀ gv ∈ run_chunk svc ids, GoodSet gv.2 := by
  intro n
  induction n using Nat.strong_induction_on with
  | _ n ih =>
    intro ids hn gv hgv
    have hbis : 1 < ids.length →
        ∀ gv2 ∈ dupdate (run_chunk svc (ids.take (ids.length / 2)))
          (run_chunk svc (ids.drop (ids.length / 2))), GoodSet gv2.2 := by
      intro hlen gv2 h2
      rcases mem_dupdate_cases _ _ gv2 h2 with h3 | h3
      · exact ih (ids.take (ids.length / 2)).length
          (by rw [List.length_take]; omega) _ rfl gv2 h3
      · exact ih (ids.drop (ids.length / 2)).length
          (by rw [List.length_drop]; omega) _ rfl gv2 h3
    cases hsub : svc.submit ids with
    | error e =>
      rw [run_chunk] at hgv
      simp only [hsub] at hgv
      by_cases hb : errBisects e = true
      · rw [if_pos hb] at hgv
        by_cases hlen : 1 < ids.length
        · rw [dif_pos hlen] at hgv
          exact hbis hlen gv hgv
        · rw [dif_neg hlen] at hgv
          exact initMapping_good ids gv hgv
      · rw [if_neg hb] at hgv
        exact initMapping_good ids gv hgv
    | ok job? =>
      cases job? with
      | none =>
        rw [run_chunk] at hgv
        simp only [hsub] at hgv
        exact initMapping_good ids gv hgv
      | some job =>
        rw [run_chunk] at hgv
        simp only [hsub] at hgv
        cases hpoll : pollAux svc job 0 60 none with
        | error e =>
          simp only [hpoll] at hgv
          by_cases hb : errBisects e = true
          · rw [if_pos hb] at hgv
            by_cases hlen : 1 < ids.length
            · rw [dif_pos hlen] at hgv
              exact hbis hlen gv hgv
            · rw [dif_neg hlen] at hgv
              exact initMapping_good ids gv hgv
          · rw [if_neg hb] at hgv
            exact initMapping_good ids gv hgv
        | ok st =>
          simp only [hpoll] at hgv
          by_cases hst : st = some (str "FAILED")
          · rw [if_pos hst] at hgv
            by_cases hlen : 1 < ids.length
            · rw [dif_pos hlen] at hgv
              exact hbis hlen gv hgv
            · rw [dif_neg hlen] at hgv
              exact initMapping_good ids gv hgv
          · rw [if_neg hst] at hgv
            cases hres : svc.results job with
            | error e =>
              simp only [hres] at hgv
              by_cases hb : errBisects e = true
              · rw [if_pos hb] at hgv
                by_cases hlen : 1 < ids.length
                · rw [dif_pos hlen] at hgv
                  exact hbis hlen gv hgv
                · rw [dif_neg hlen] at hgv
                  exact initMapping_good ids gv hgv
              · rw [if_neg hb] at hgv
                exact initMapping_good ids gv hgv
            | ok rs =>
              simp only [hres] at hgv
              exact fold_addResultRow_good rs (hsvc job rs hres) _
                (initMapping_good ids) gv hgv

end RunChunkValues

section ParseGood

theorem splitOnChar_parts_no_sep (c : Char) : ∀ (s : Str),
    ∀ part ∈ splitOnChar c s, part.contains c = false := by
  intro s
  induction s with
  | nil =>
    intro part h
    rw [splitOnChar] at h
    rw [List.mem_singleton.mp h]
    rfl
  | cons x xs ih =>
    intro part h
    rw [splitOnChar] at h
    by_cases hx : x = c
    · rw [if_pos hx] at h
      rcases List.mem_cons.mp h with he | he
      · rw [he]
        rfl
      · exact ih part he
    · rw [if_neg hx] at h
      cases hrec : splitOnChar c xs with
      | nil => exact absurd hrec (splitOnChar_ne_nil c xs)
      | cons h0 t =>
        rw [hrec] at h
        rcases List.mem_cons.mp h with he | he
        · rw [he, List.contains_cons]
          have h0in : h0.contains c = false := ih h0 (by rw [hrec]; exact List.mem_cons_self h0 t)
          rw [h0in]
          simp only [Bool.or_false]
          cases hxc : (c == x) with
          | false => rfl
          | true =>
            exfalso
            have hcx : c = x := by simpa using hxc
            exact hx hcx.symm
        · exact ih part (by rw [hrec]; exact List.mem_cons_of_mem h0 he)

theorem mem_trimBy_subset {p : Char → Bool} (s : Str) (c : Char)
    (h : c ∈ trimBy p s) : c ∈ s := by
  rw [trimBy] at h
  rw [List.mem_reverse] at h
  obtain ⟨t2, ht2⟩ := dropWhile_is_suffix (p := p) (s.dropWhile p).reverse
  have h2 : c ∈ (s.dropWhile p).reverse := by
    rw [ht2]
    exact List.mem_append_right t2 h
  rw [List.mem_reverse] at h2
  obtain ⟨t1, ht1⟩ := dropWhile_is_suffix (p := p) s
  rw [ht1]
  exact List.mem_append_right t1 h2

theorem contains_false_pyStrip {a : Str} {c : Char} (h : a.contains c = false) :
    (pyStrip a).contains c = false := by
  cases hc : (pyStrip a).contains c with
  | false => rfl
  | true =>
    exfalso
    have hmem : c ∈ pyStrip a := by simpa using hc
    have hmem2 : c ∈ a := mem_trimBy_subset a c hmem
    simp at h
    exact h hmem2

theorem parse_fold_good : ∀ (parts : List Str),
    (∀ a ∈ parts, a.contains ',' = false) →
    ∀ (acc : StrSet), GoodSet acc →
    GoodSet (parts.foldl
      (fun acc a => if pyStrip a = [] then acc else sinsert (pyStrip a) acc) acc) := by
  intro parts
  induction parts with
  | nil => intro _ acc hacc; exact hacc
  | cons a rest ih =>
    intro hp acc hacc
    rw [List.foldl_cons]
    by_cases ha : pyStrip a = []
    · rw [if_pos ha]
      exact ih (fun x hx => hp x (List.mem_cons_of_mem a hx)) acc hacc
    · rw [if_neg ha]
      refine ih (fun x hx => hp x (List.mem_cons_of_mem a hx)) _
        (goodset_sinsert ⟨pyStrip_idem a, ha, ?_⟩ hacc)
      exact contains_false_pyStrip (hp a (List.mem_cons_self a rest))

theorem parseGeneRow_good (ov : Option Str) : GoodSet (parseGeneRow ov) := by
  cases ov with
  | none => exact goodset_nil
  | some s =>
    rw [parseGeneRow]
    by_cases hs : s = []
    · rw [if_pos hs]
      exact goodset_nil
    · rw [if_neg hs]
      exact parse_fold_good (splitOnChar ',' s) (splitOnChar_parts_no_sep ',' s) [] goodset_nil

end ParseGood

section ScanDocsLemmas

theorem scanAux_snd_mem (x : Str) : ∀ (docs : List Doc) (st : List (Str × DocInfo) × StrSet),
    (x ∈ (docs.foldl scanStep st).2 ↔
      x ∈ st.2 ∨ ∃ d ∈ docs, ¬ pyStrip d.id = []
        ∧ x ∈ normalize_gene_ids (extract_genes d).2.1) := by
  intro docs
  induction docs with
  | nil => intro st; simp
  | cons d rest ih =>
    intro st
    rw [List.foldl_cons, scanStep]
    by_cases hd : pyStrip d.id = []
    · rw [if_pos hd, ih]
      constructor
      · rintro (h | ⟨d2, hd2, h⟩)
        · exact Or.inl h
        · exact Or.inr ⟨d2, List.mem_cons_of_mem d hd2, h⟩
      · rintro (h | ⟨d2, hd2, h⟩)
        · exact Or.inl h
        · rcases List.mem_cons.mp hd2 with he | he
          · exact absurd (he ▸ h.1) (fun hc => hc hd)
          · exact Or.inr ⟨d2, he, h⟩
    · rw [if_neg hd, ih]
      show x ∈ unionS st.2 (listToStrSet (normalize_gene_ids (extract_genes d).2.1))
          ∨ _ ↔ _
      rw [mem_unionS, mem_listToStrSet]
      constructor
      · rintro ((h | h) | ⟨d2, hd2, h⟩)
        · exact Or.inl h
        · exact Or.inr ⟨d, List.mem_cons_self d rest, hd, h⟩
        · exact Or.inr ⟨d2, List.mem_cons_of_mem d hd2, h⟩
      · rintro (h | ⟨d2, hd2, h⟩)
        · exact Or.inl (Or.inl h)
        · rcases List.mem_cons.mp hd2 with he | he
          · exact Or.inl (Or.inr (he ▸ h.2))
          · exact Or.inr ⟨d2, he, h⟩

theorem scanAux_snd_sorted : ∀ (docs : List Doc) (st : List (Str × DocInfo) × StrSet),
    SortedSet st.2 → SortedSet (docs.foldl scanStep st).2 := by
  intro docs
  induction docs with
  | nil => intro st h; exact h
  | cons d rest ih =>
    intro st h
    rw [List.foldl_cons, scanStep]
    by_cases hd : pyStrip d.id = []
    · rw [if_pos hd]
      exact ih st h
    · rw [if_neg hd]
      exact ih _ (unionS_sorted _ h)

theorem mem_scanDocs_snd (x : Str) (docs : List Doc) :
    x ∈ (scanDocs docs).2 ↔
      ∃ d ∈ docs, ¬ pyStrip d.id = [] ∧ x ∈ normalize_gene_ids (extract_genes d).2.1 := by
  rw [scanDocs, scanAux_snd_mem]
  simp

theorem scanDocs_snd_sorted (docs : List Doc) : SortedSet (scanDocs docs).2 :=
  scanAux_snd_sorted docs ([], []) List.Pairwise.nil

theorem scanDocs_snd_digits (docs : List Doc) (x : Str) (h : x ∈ (scanDocs docs).2) :
    isDigits x = true := by
  obtain ⟨d, _, _, hx⟩ := (mem_scanDocs_snd x docs).mp h
  exact List.all_eq_true.mp (normalize_gene_ids_all_digits (extract_genes d).2.1) x hx

theorem scanAux_keys (p : Str) : ∀ (docs : List Doc) (st : List (Str × DocInfo) × StrSet)
    (i : DocInfo), dlookup (docs.foldl scanStep st).1 p = some i →
    dlookup st.1 p = some i ∨ ∃ d ∈ docs, pyStrip d.id = p := by
  intro docs
  induction docs with
  | nil => intro st i h; exact Or.inl h
  | cons d rest ih =>
    intro st i h
    rw [List.foldl_cons, scanStep] at h
    by_cases hd : pyStrip d.id = []
    · rw [if_pos hd] at h
      rcases ih st i h with h2 | ⟨d2, hd2, h2⟩
      · exact Or.inl h2
      · exact Or.inr ⟨d2, List.mem_cons_of_mem d hd2, h2⟩
    · rw [if_neg hd] at h
      rcases ih _ i h with h2 | ⟨d2, hd2, h2⟩
      · rw [dlookup_dset] at h2
        by_cases hdp : pyStrip d.id = p
        · exact Or.inr ⟨d, List.mem_cons_self d rest, hdp⟩
        · rw [if_neg hdp] at h2
          exact Or.inl h2
      · exact Or.inr ⟨d2, List.mem_cons_of_mem d hd2, h2⟩

theorem scanAux_snd_mono (x : Str) (docs : List Doc) (st : List (Str × DocInfo) × StrSet)
    (h : x ∈ st.2) : x ∈ (docs.foldl scanStep st).2 :=
  (scanAux_snd_mem x docs st).mpr (Or.inl h)

theorem scanAux_val_gids (p : Str) : ∀ (docs : List Doc) (st : List (Str × DocInfo) × StrSet)
    (i : DocInfo), dlookup (docs.foldl scanStep st).1 p = some i →
    dlookup st.1 p = some i ∨ ∀ x ∈ i.geneIdsNorm, x ∈ (docs.foldl scanStep st).2 := by
  intro docs
  induction docs with
  | nil => intro st i h; exact Or.inl h
  | cons d rest ih =>
    intro st i h
    rw [List.foldl_cons] at h ⊢
    by_cases hd : pyStrip d.id = []
    · rw [scanStep, if_pos hd] at h ⊢
      exact ih st i h
    · rw [scanStep, if_neg hd] at h ⊢
      rcases ih _ i h with h2 | h2
      · rw [dlookup_dset] at h2
        by_cases hdp : pyStrip d.id = p
        · rw [if_pos hdp] at h2
          refine Or.inr (fun x hx => scanAux_snd_mono x rest _ ?_)
          show x ∈ unionS st.2 (listToStrSet (normalize_gene_ids (extract_genes d).2.1))
          rw [mem_unionS, mem_listToStrSet]
          right
          have hi : i = docInfoOf d := (Option.some.inj h2).symm
          rw [hi] at hx
          exact hx
        · rw [if_neg hdp] at h2
          exact Or.inl h2
      · exact Or.inr h2

theorem scanAux_skip (p : Str) : ∀ (docs : List Doc) (st : List (Str × DocInfo) × StrSet),
    (∀ d ∈ docs, ¬ pyStrip d.id = p) →
    dlookup (docs.foldl scanStep st).1 p = dlookup st.1 p := by
  intro docs
  induction docs with
  | nil => intro st _; rfl
  | cons d rest ih =>
    intro st hno
    rw [List.foldl_cons, scanStep]
    by_cases hd : pyStrip d.id = []
    · rw [if_pos hd]
      exact ih st (fun d2 hd2 => hno d2 (List.mem_cons_of_mem d hd2))
    · rw [if_neg hd, ih _ (fun d2 hd2 => hno d2 (List.mem_cons_of_mem d hd2))]
      show dlookup (dset (pyStrip d.id) (docInfoOf d) st.1) p = dlookup st.1 p
      rw [dlookup_dset, if_neg (hno d (List.mem_cons_self d rest))]

theorem scanAux_only (p : Str) (hp : ¬ p = []) :
    ∀ (docs : List Doc), docs ≠ [] → (∀ d ∈ docs, pyStrip d.id = p) →
    ∀ (st st' : List (Str × DocInfo) × StrSet),
    dlookup (docs.foldl scanStep st).1 p = dlookup (docs.foldl scanStep st').1 p := by
  intro docs
  induction docs with
  | nil => intro h; exact absurd rfl h
  | cons d rest ih =>
    intro _ hall st st'
    have hd : pyStrip d.id = p := hall d (List.mem_cons_self d rest)
    have hdne : ¬ pyStrip d.id = [] := by rw [hd]; exact hp
    cases rest with
    | nil =>
      rw [List.foldl_cons, List.foldl_cons, List.foldl_nil, List.foldl_nil,
        scanStep, scanStep, if_neg hdne, if_neg hdne]
      show dlookup (dset (pyStrip d.id) (docInfoOf d) st.1) p
        = dlookup (dset (pyStrip d.id) (docInfoOf d) st'.1) p
      rw [dlookup_dset, dlookup_dset, if_pos hd, if_pos hd]
    | cons d2 rest2 =>
      rw [List.foldl_cons, List.foldl_cons]
      exact ih (List.cons_ne_nil d2 rest2)
        (fun x hx => hall x (List.mem_cons_of_mem d hx)) _ _

theorem scan_flatMap_val (f : Str → List Doc) (b : List Str) (p : Str)
    (hp : ¬ p = []) (hq : ∀ q ∈ b, ∀ d ∈ f q, pyStrip d.id = q) (hpb : p ∈ b) :
    dlookup (scanDocs (b.flatMap f)).1 p = dlookup (scanDocs (f p)).1 p := by
  cases hfp : f p with
  | nil =>
    have hskip : ∀ d ∈ b.flatMap f, ¬ pyStrip d.id = p := by
      intro d hd
      obtain ⟨q, hqb, hdq⟩ := List.mem_flatMap.mp hd
      rw [hq q hqb d hdq]
      intro he
      rw [he] at hdq
      rw [hfp] at hdq
      exact absurd hdq (by simp)
    rw [scanDocs, scanAux_skip p _ _ hskip]
    rfl
  | cons d0 rest0 =>
    have hfpne : f p ≠ [] := by rw [hfp]; exact List.cons_ne_nil d0 rest0
    have main : ∀ (bb : List Str) (st : List (Str × DocInfo) × StrSet), p ∈ bb →
        (∀ q ∈ bb, ∀ d ∈ f q, pyStrip d.id = q) →
        dlookup ((bb.flatMap f).foldl scanStep st).1 p = dlookup (scanDocs (f p)).1 p := by
      intro bb
      induction bb with
      | nil => intro st h; exact absurd h (by simp)
      | cons q rest ih =>
        intro st hpm hq2
        rw [List.flatMap_cons, List.foldl_append]
        by_cases hpr : p ∈ rest
        · exact ih _ hpr (fun q2 hq2m => hq2 q2 (List.mem_cons_of_mem q hq2m))
        · have hqp : q = p := by
            rcases List.mem_cons.mp hpm with he | he
            · exact he.symm
            · exact absurd he hpr
          rw [scanAux_skip p (rest.flatMap f) _ (by
            intro d hd
            obtain ⟨q2, hq2b, hdq2⟩ := List.mem_flatMap.mp hd
            rw [hq2 q2 (List.mem_cons_of_mem q hq2b) d hdq2]
            intro he
            rw [he] at hq2b
            exact hpr hq2b)]
          rw [hqp]
          exact scanAux_only p hp (f p) hfpne
            (fun d hd => (hq2 q (List.mem_cons_self q rest) d (hqp.symm ▸ hd)).trans hqp)
            st ([], [])
    have h := main b ([], []) hpb hq
    rw [hfp] at h
    exact h

theorem scanDocs_keys_nodup : ∀ (docs : List Doc) (st : List (Str × DocInfo) × StrSet),
    (st.1.map Prod.fst).Nodup → (((docs.foldl scanStep st).1).map Prod.fst).Nodup := by
  intro docs
  induction docs with
  | nil => intro st h; exact h
  | cons d rest ih =>
    intro st h
    rw [List.foldl_cons, scanStep]
    by_cases hd : pyStrip d.id = []
    · rw [if_pos hd]
      exact ih st h
    · rw [if_neg hd]
      exact ih _ (dset_keys_nodup _ _ st.1 h)

end ScanDocsLemmas

section GenePhaseLemmas

theorem run_uniprot_eq_run_chunk (svc : MapSvc) (c : List Str)
    (hs : SortedSet c) (hd : ∀ x ∈ c, isDigits x = true) :
    run_uniprot_idmapping svc c = if c = [] then [] else run_chunk svc c := by
  rw [run_uniprot_idmapping, normalize_gene_ids_idem c hs hd]

theorem store_gene_map_nil (tbl : List (Str × Option Str)) :
    store_gene_map tbl [] = tbl := rfl

theorem dupdate_nil {α : Type} (d : List (Str × α)) : dupdate d [] = d := rfl

theorem geneFold_char (svc : MapSvc)
    (hH6 : ∀ ids k, ¬ dlookup (run_chunk svc ids) k = none → k ∈ ids)
    (hH8 : ∀ j rs, svc.results j = Except.ok rs →
      ∀ rw ∈ rs, (pyStrip rw.2).contains ',' = false) :
    ∀ (CL : List (List Str)) (tbl : List (Str × Option Str)) (M : List (Str × StrSet)),
    (∀ c ∈ CL, c.Nodup ∧ SortedSet c ∧ ∀ x ∈ c, isDigits x = true) →
    CL.Pairwise List.Disjoint →
    ((∀ k, (∀ c ∈ CL, k ∉ c) →
      lastVal (CL.foldl (geneStep svc) (tbl, M)).1 k = lastVal tbl k
      ∧ dlookup (CL.foldl (geneStep svc) (tbl, M)).2 k = dlookup M k)
    ∧ (∀ c ∈ CL, ∀ k ∈ c, ∃ v, dlookup (CL.foldl (geneStep svc) (tbl, M)).2 k = some v
        ∧ GoodSet v
        ∧ lastVal (CL.foldl (geneStep svc) (tbl, M)).1 k = some (some (serializeAccs v)))) := by
  intro CL
  induction CL with
  | nil =>
    intro tbl M _ _
    exact ⟨fun k _ => ⟨rfl, rfl⟩, fun c hc => absurd hc (by simp)⟩
  | cons c CL' ih =>
    intro tbl M hCL hdisj
    obtain ⟨hcnd, hcs, hcd⟩ := hCL c (List.mem_cons_self c CL')
    have hCL' : ∀ c2 ∈ CL', c2.Nodup ∧ SortedSet c2 ∧ ∀ x ∈ c2, isDigits x = true :=
      fun c2 hc2 => hCL c2 (List.mem_cons_of_mem c hc2)
    have hdisj' : CL'.Pairwise List.Disjoint := (List.pairwise_cons.mp hdisj).2
    have hheadDisj : ∀ c2 ∈ CL', c.Disjoint c2 := (List.pairwise_cons.mp hdisj).1
    rw [List.foldl_cons]
    by_cases hc0 : c = []
    · have hnm : geneStep svc (tbl, M) c = (tbl, M) := by
        rw [geneStep, run_uniprot_eq_run_chunk svc c hcs hcd, if_pos hc0]
        rfl
      rw [hnm]
      obtain ⟨ihu, ihc⟩ := ih tbl M hCL' hdisj'
      constructor
      · intro k hk
        exact ihu k (fun c2 hc2 => hk c2 (List.mem_cons_of_mem c hc2))
      · intro c2 hc2 k hk
        rcases List.mem_cons.mp hc2 with he | he
        · rw [he] at hk
          rw [hc0] at hk
          exact absurd hk (by simp)
        · exact ihc c2 he k hk
    · have hnm : geneStep svc (tbl, M) c
          = (store_gene_map tbl (run_chunk svc c), dupdate M (run_chunk svc c)) := by
        rw [geneStep, run_uniprot_eq_run_chunk svc c hcs hcd, if_neg hc0]
      rw [hnm]
      have hkeys_sub : ∀ k, k ∈ (run_chunk svc c).map Prod.fst → k ∈ c := by
        intro k hk
        obtain ⟨v, hv⟩ := dlookup_isSome_of_mem_keys _ k hk
        exact hH6 c k (by rw [hv]; simp)
      have hkeys_nodup : ((run_chunk svc c).map Prod.fst).Nodup :=
        run_chunk_keys_nodup svc c.length c rfl hcnd
      obtain ⟨ihu, ihc⟩ := ih _ _ hCL' hdisj'
      constructor
      · intro k hk
        have hkc : k ∉ c := hk c (List.mem_cons_self c CL')
        have hknm : lastVal (run_chunk svc c) k = none :=
          lastVal_none_of_not_mem_keys _ k (fun hm => hkc (hkeys_sub k hm))
        have h1 := ihu k (fun c2 hc2 => hk c2 (List.mem_cons_of_mem c hc2))
        constructor
        · rw [h1.1, lastVal_store, hknm]
        · rw [h1.2, dlookup_dupdate, hknm]
      · intro c2 hc2 k hk
        rcases List.mem_cons.mp hc2 with he | he
        · rw [he] at hk
          have hkCL' : ∀ c3 ∈ CL', k ∉ c3 := fun c3 hc3 hkm => hheadDisj c3 hc3 hk hkm
          have h1 := ihu k hkCL'
          obtain ⟨v, hv⟩ := run_chunk_keys_present svc c.length c rfl k hk
          have hlast : lastVal (run_chunk svc c) k = some v := by
            rw [← dlookup_eq_lastVal_of_nodup _ hkeys_nodup k]
            exact hv
          refine ⟨v, ?_, ?_, ?_⟩
          · rw [h1.2, dlookup_dupdate, hlast]
          · exact run_chunk_values_good svc hH8 c.length c rfl (k, v)
              (dlookup_mem _ k v hv)
          · rw [h1.1, lastVal_store, hlast]
        · exact ihc c2 he k hk

end GenePhaseLemmas

section DetailPhaseLemmas

theorem dlookup_get_cached_details (accs : List Str) :
    ∀ (tbl : List (Str × DetailRow)) (m0 : List (Str × Detail)) (a : Str),
    dlookup (tbl.foldl
        (fun m kv => if kv.1 ∈ accs then dset kv.1 (rowToDetail kv.2) m else m) m0) a
      = if a ∈ accs then
          (match lastVal tbl a with
           | some r => some (rowToDetail r)
           | none => dlookup m0 a)
        else dlookup m0 a := by
  intro tbl
  induction tbl with
  | nil =>
    intro m0 a
    by_cases ha : a ∈ accs <;> simp [ha, lastVal]
  | cons kv rest ih =>
    intro m0 a
    rw [List.foldl_cons, ih, lastVal_cons]
    by_cases ha : a ∈ accs
    · rw [if_pos ha, if_pos ha]
      cases lastVal rest a with
      | some r => rfl
      | none =>
        by_cases hka : kv.1 = a
        · have hki : kv.1 ∈ accs := by rw [hka]; exact ha
          rw [if_pos hki, if_pos hka, dlookup_dset, if_pos hka]
        · rw [if_neg hka]
          by_cases hki : kv.1 ∈ accs
          · rw [if_pos hki, dlookup_dset, if_neg hka]
          · rw [if_neg hki]
    · rw [if_neg ha, if_neg ha]
      by_cases hki : kv.1 ∈ accs
      · rw [if_pos hki, dlookup_dset, if_neg (fun he => ha (by rw [← he]; exact hki))]
      · rw [if_neg hki]

theorem get_cached_uniprot_details_lookup (tbl : List (Str × DetailRow))
    (accs : List Str) (a : Str) :
    dlookup (get_cached_uniprot_details tbl accs) a
      = if a ∈ accs then
          (match lastVal tbl a with
           | some r => some (rowToDetail r)
           | none => none)
        else none := by
  rw [get_cached_uniprot_details, dlookup_get_cached_details]
  by_cases ha : a ∈ accs
  · rw [if_pos ha, if_pos ha]
    cases lastVal tbl a <;> rfl
  · rw [if_neg ha, if_neg ha]
    rfl

/-- The detail record `fetch_uniprot_details` builds from one item. -/
def detailOf (it : RawDetailItem) : Detail :=
  { uniprotId := it.uniProtkbId.getD [],
    proteinName :=
      (if truthyO it.recommendedName then it.recommendedName
       else
         match it.submissionNames with
         | [] => it.recommendedName
         | n0 :: _ => n0).getD [],
    geneName :=
      (match it.genes with
       | [] => none
       | g0 :: _ => g0).getD [] }

theorem extractItem_eq (m : List (Str × Detail)) (it : RawDetailItem) (a : Str)
    (hk : it.primaryAccession = some a) (ha : ¬ a = []) :
    extractItem m it = dset a (detailOf it) m := by
  rw [extractItem]
  simp only [hk]
  rw [if_pos ha]
  rfl

/-- One step of the per-accession view of the detail fetch. -/
def gfoldStep (g : Str → Option RawDetailItem) (m : List (Str × Detail)) (a : Str) :
    List (Str × Detail) :=
  match g a with
  | some it => dset a (detailOf it) m
  | none => m

theorem fetch_fold_char (g : Str → Option RawDetailItem)
    (hgkey : ∀ a it, g a = some it → it.primaryAccession = some a) :
    ∀ (accs : List Str), (∀ a ∈ accs, ¬ a = []) →
    ∀ (m : List (Str × Detail)),
    (accs.filterMap g).foldl extractItem m = accs.foldl (gfoldStep g) m := by
  intro accs
  induction accs with
  | nil => intro _ m; rfl
  | cons a rest ih =>
    intro hne m
    rw [List.filterMap_cons, List.foldl_cons, gfoldStep]
    cases hga : g a with
    | none => exact ih (fun x hx => hne x (List.mem_cons_of_mem a hx)) m
    | some it =>
      rw [List.foldl_cons,
        extractItem_eq m it a (hgkey a it hga) (hne a (List.mem_cons_self a rest))]
      exact ih (fun x hx => hne x (List.mem_cons_of_mem a hx)) _

theorem flatMap_filterMap {α β : Type} (g : α → Option β) :
    ∀ (CL : List (List α)),
    CL.flatMap (fun b => b.filterMap g) = CL.flatten.filterMap g := by
  intro CL
  induction CL with
  | nil => rfl
  | cons c rest ih =>
    rw [List.flatMap_cons, List.flatten_cons, List.filterMap_append, ih]

theorem fetch_char (dsvc : List Str → List RawDetailItem) (g : Str → Option RawDetailItem)
    (hdsvc : ∀ bq, dsvc bq = bq.filterMap g)
    (hgkey : ∀ a it, g a = some it → it.primaryAccession = some a)
    (accs : List Str) :
    fetch_uniprot_details dsvc accs
      = (accs.filter (fun a => ¬ a = [])).foldl (gfoldStep g) [] := by
  have h1 : ∀ (d : List (Str × Detail)), ∀ b ∈ chunksOf 50 (accs.filter (fun a => ¬ a = [])),
      (dsvc b).foldl extractItem d = (b.filterMap g).foldl extractItem d := by
    intro d b _
    rw [hdsvc b]
  show (chunksOf 50 (accs.filter (fun a => ¬ a = []))).foldl
      (fun details batch => (dsvc batch).foldl extractItem details) []
    = (accs.filter (fun a => ¬ a = [])).foldl (gfoldStep g) []
  have h2 := foldl_congr_mem
      (fun (details : List (Str × Detail)) batch => (dsvc batch).foldl extractItem details)
      (fun details batch => (batch.filterMap g).foldl extractItem details)
      (chunksOf 50 (accs.filter (fun a => ¬ a = []))) [] h1
  rw [h2, ← foldl_flatMap (fun (b : List Str) => b.filterMap g) extractItem
      (chunksOf 50 (accs.filter (fun a => ¬ a = []))) [],
    flatMap_filterMap, chunksOf_flatten]
  apply fetch_fold_char g hgkey
  intro a ha
  have := List.mem_filter.mp ha
  simpa using this.2

theorem gfold_keys_nodup (g : Str → Option RawDetailItem) :
    ∀ (accs : List Str) (m : List (Str × Detail)),
    (m.map Prod.fst).Nodup → (((accs.foldl (gfoldStep g) m)).map Prod.fst).Nodup := by
  intro accs
  induction accs with
  | nil => intro m h; exact h
  | cons a rest ih =>
    intro m h
    rw [List.foldl_cons, gfoldStep]
    cases g a with
    | none => exact ih m h
    | some it => exact ih _ (dset_keys_nodup _ _ m h)

theorem dlookup_gfold (g : Str → Option RawDetailItem) :
    ∀ (accs : List Str), accs.Nodup →
    ∀ (m : List (Str × Detail)) (k : Str),
    dlookup (accs.foldl (gfoldStep g) m) k
      = if k ∈ accs then
          (match g k with
           | some it => some (detailOf it)
           | none => dlookup m k)
        else dlookup m k := by
  intro accs
  induction accs with
  | nil =>
    intro _ m k
    simp
  | cons a rest ih =>
    intro hnd m k
    rw [List.nodup_cons] at hnd
    rw [List.foldl_cons, ih hnd.2]
    by_cases hk : k ∈ rest
    · have hk2 : k ∈ a :: rest := List.mem_cons_of_mem a hk
      rw [if_pos hk, if_pos hk2]
      have hka : ¬ a = k := fun he => hnd.1 (he ▸ hk)
      cases g k with
      | some it => rfl
      | none =>
        rw [gfoldStep]
        cases g a with
        | none => rfl
        | some it2 =>
          rw [dlookup_dset, if_neg hka]
    · rw [if_neg hk]
      by_cases hka : k = a
      · rw [if_pos (by rw [hka]; exact List.mem_cons_self a rest)]
        rw [gfoldStep, ← hka]
        cases g k with
        | some it => rw [dlookup_dset, if_pos rfl]
        | none => rfl
      · rw [if_neg (by
          intro hm
          rcases List.mem_cons.mp hm with he | he
          · exact hka he
          · exact hk he)]
        rw [gfoldStep]
        cases g a with
        | none => rfl
        | some it2 => rw [dlookup_dset, if_neg (fun he => hka he.symm)]

theorem lastVal_store_details (k : Str) : ∀ (dd : List (Str × Detail))
    (tbl : List (Str × DetailRow)),
    lastVal (store_uniprot_details tbl dd) k
      = match lastVal dd k with
        | some d => some (detailToRow d)
        | none => lastVal tbl k := by
  intro dd
  induction dd with
  | nil => intro tbl; rfl
  | cons kv rest ih =>
    intro tbl
    have hstep : store_uniprot_details tbl (kv :: rest)
        = store_uniprot_details (upsertRow kv.1 (detailToRow kv.2) tbl) rest := by
      rw [store_uniprot_details, store_uniprot_details, List.foldl_cons]
    rw [hstep, ih, lastVal_upsert, lastVal_cons]
    cases lastVal rest k with
    | some d => rfl
    | none =>
      by_cases hk : kv.1 = k
      · rw [if_pos hk, if_pos hk]
      · rw [if_neg hk, if_neg hk]

theorem rowToDetail_detailToRow (v : Detail) : rowToDetail (detailToRow v) = v := rfl

end DetailPhaseLemmas

section DetailPhaseChar

theorem filter_sorted {s : StrSet} (p : Str → Bool) (h : SortedSet s) :
    SortedSet (s.filter p) :=
  List.Pairwise.sublist (List.filter_sublist s) h

theorem detailPhase_char (O : Oracle) (g : Str → Option RawDetailItem)
    (hdsvc : ∀ bq, O.detailSvc bq = bq.filterMap g)
    (hgkey : ∀ a it, g a = some it → it.primaryAccession = some a)
    (cacheD : List (Str × DetailRow)) (accs : StrSet)
    (hs : SortedSet accs) (hane : ∀ a ∈ accs, ¬ a = []) :
    (∀ k r, lastVal cacheD k = some r →
      lastVal (detailPhase O cacheD accs).1 k = some r)
    ∧ (∀ k, ¬ lastVal (detailPhase O cacheD accs).1 k = none →
        ¬ lastVal cacheD k = none ∨ ∃ it, g k = some it)
    ∧ (∀ a ∈ accs,
        (dlookup (detailPhase O cacheD accs).2 a).getD emptyDetail
          = (match lastVal (detailPhase O cacheD accs).1 a with
             | some r => rowToDetail r
             | none => emptyDetail)
        ∧ (lastVal (detailPhase O cacheD accs).1 a = none → g a = none)
        ∧ ((∃ it, g a = some it) → ¬ lastVal (detailPhase O cacheD accs).1 a = none)) := by
  have hdp : detailPhase O cacheD accs
      = (if (accs.filter (fun a =>
            (dlookup (get_cached_uniprot_details cacheD accs) a).isNone)).isEmpty then
          (cacheD, get_cached_uniprot_details cacheD accs)
        else
          (store_uniprot_details cacheD
            (fetch_uniprot_details O.detailSvc (accs.filter (fun a =>
              (dlookup (get_cached_uniprot_details cacheD accs) a).isNone))),
           dupdate (get_cached_uniprot_details cacheD accs)
            (fetch_uniprot_details O.detailSvc (accs.filter (fun a =>
              (dlookup (get_cached_uniprot_details cacheD accs) a).isNone))))) := rfl
  by_cases hmiss : (accs.filter (fun a =>
      (dlookup (get_cached_uniprot_details cacheD accs) a).isNone)).isEmpty = true
  · have hdp2 : detailPhase O cacheD accs = (cacheD, get_cached_uniprot_details cacheD accs) := by
      rw [hdp, if_pos hmiss]
    rw [hdp2]
    refine ⟨fun k r h => h, fun k h => Or.inl h, ?_⟩
    intro a ha
    have hnm : a ∉ accs.filter (fun a =>
        (dlookup (get_cached_uniprot_details cacheD accs) a).isNone) := by
      rw [List.isEmpty_iff] at hmiss
      rw [hmiss]
      exact List.not_mem_nil a
    have hsome : ¬ (dlookup (get_cached_uniprot_details cacheD accs) a).isNone = true := by
      intro hn
      exact hnm (List.mem_filter.mpr ⟨ha, by simpa using hn⟩)
    rw [get_cached_uniprot_details_lookup, if_pos ha] at hsome ⊢
    cases hlv : lastVal cacheD a with
    | none =>
      rw [hlv] at hsome
      exact absurd rfl hsome
    | some r =>
      refine ⟨rfl, ?_, ?_⟩
      · intro hn
        exact absurd hn (by simp)
      · intro _ hn
        exact absurd hn (by simp)
  · have hdp2 : detailPhase O cacheD accs
        = (store_uniprot_details cacheD
            (fetch_uniprot_details O.detailSvc (accs.filter (fun a =>
              (dlookup (get_cached_uniprot_details cacheD accs) a).isNone))),
           dupdate (get_cached_uniprot_details cacheD accs)
            (fetch_uniprot_details O.detailSvc (accs.filter (fun a =>
              (dlookup (get_cached_uniprot_details cacheD accs) a).isNone)))) := by
      rw [hdp, if_neg hmiss]
    have hmisnodup : (accs.filter (fun a =>
        (dlookup (get_cached_uniprot_details cacheD accs) a).isNone)).Nodup :=
      sortedset_nodup (filter_sorted _ hs)
    have hmisne : ∀ a ∈ accs.filter (fun a =>
        (dlookup (get_cached_uniprot_details cacheD accs) a).isNone), ¬ a = [] :=
      fun a ha => hane a (List.mem_filter.mp ha).1
    have hmislast : ∀ a ∈ accs.filter (fun a =>
        (dlookup (get_cached_uniprot_details cacheD accs) a).isNone),
        lastVal cacheD a = none := by
      intro a ha
      obtain ⟨hain, hisn⟩ := List.mem_filter.mp ha
      rw [get_cached_uniprot_details_lookup, if_pos hain] at hisn
      cases hlv : lastVal cacheD a with
      | none => rfl
      | some r =>
        exfalso
        rw [hlv] at hisn
        simp at hisn
    have hfilter_eq : (accs.filter (fun a =>
          (dlookup (get_cached_uniprot_details cacheD accs) a).isNone)).filter
          (fun a => ¬ a = [])
        = accs.filter (fun a =>
            (dlookup (get_cached_uniprot_details cacheD accs) a).isNone) := by
      rw [List.filter_eq_self]
      intro a ha
      simpa using hmisne a ha
    have hnewD : fetch_uniprot_details O.detailSvc (accs.filter (fun a =>
          (dlookup (get_cached_uniprot_details cacheD accs) a).isNone))
        = (accs.filter (fun a =>
            (dlookup (get_cached_uniprot_details cacheD accs) a).isNone)).foldl
            (gfoldStep g) [] := by
      rw [fetch_char O.detailSvc g hdsvc hgkey, hfilter_eq]
    have hnewlook : ∀ k, dlookup (fetch_uniprot_details O.detailSvc (accs.filter (fun a =>
          (dlookup (get_cached_uniprot_details cacheD accs) a).isNone))) k
        = if k ∈ accs.filter (fun a =>
            (dlookup (get_cached_uniprot_details cacheD accs) a).isNone) then
            (match g k with
             | some it => some (detailOf it)
             | none => none)
          else none := by
      intro k
      rw [hnewD, dlookup_gfold g _ hmisnodup]
      by_cases hk : k ∈ accs.filter (fun a =>
          (dlookup (get_cached_uniprot_details cacheD accs) a).isNone)
      · rw [if_pos hk, if_pos hk]
        cases g k <;> rfl
      · rw [if_neg hk, if_neg hk]
        rfl
    have hnewnodup : ((fetch_uniprot_details O.detailSvc (accs.filter (fun a =>
          (dlookup (get_cached_uniprot_details cacheD accs) a).isNone))).map
          Prod.fst).Nodup := by
      rw [hnewD]
      exact gfold_keys_nodup g _ [] (by simp)
    have hnewlast : ∀ k, lastVal (fetch_uniprot_details O.detailSvc (accs.filter (fun a =>
          (dlookup (get_cached_uniprot_details cacheD accs) a).isNone))) k
        = dlookup (fetch_uniprot_details O.detailSvc (accs.filter (fun a =>
            (dlookup (get_cached_uniprot_details cacheD accs) a).isNone))) k :=
      fun k => (dlookup_eq_lastVal_of_nodup _ hnewnodup k).symm
    rw [hdp2]
    refine ⟨?_, ?_, ?_⟩
    · -- mono
      intro k r h
      rw [lastVal_store_details, hnewlast, hnewlook]
      by_cases hk : k ∈ accs.filter (fun a =>
          (dlookup (get_cached_uniprot_details cacheD accs) a).isNone)
      · exfalso
        rw [hmislast k hk] at h
        exact absurd h (by simp)
      · rw [if_neg hk]
        exact h
    · -- provenance
      intro k h
      rw [lastVal_store_details, hnewlast, hnewlook] at h
      by_cases hk : k ∈ accs.filter (fun a =>
          (dlookup (get_cached_uniprot_details cacheD accs) a).isNone)
      · rw [if_pos hk] at h
        cases hg : g k with
        | none =>
          rw [hg] at h
          exact Or.inl h
        | some it => exact Or.inr ⟨it, rfl⟩
      · rw [if_neg hk] at h
        exact Or.inl h
    · -- per-accession link
      intro a ha
      rw [lastVal_store_details, hnewlast, hnewlook]
      by_cases hk : a ∈ accs.filter (fun a =>
          (dlookup (get_cached_uniprot_details cacheD accs) a).isNone)
      · rw [if_pos hk]
        cases hg : g a with
        | some it =>
          have hlook2 : dlookup (dupdate (get_cached_uniprot_details cacheD accs)
              (fetch_uniprot_details O.detailSvc (accs.filter (fun a =>
                (dlookup (get_cached_uniprot_details cacheD accs) a).isNone)))) a
              = some (detailOf it) := by
            rw [dlookup_dupdate, hnewlast, hnewlook, if_pos hk, hg]
          rw [hlook2]
          refine ⟨rfl, ?_, ?_⟩
          · intro hn
            exact absurd hn (by simp)
          · intro _ hn
            exact absurd hn (by simp)
        | none =>
          have hlook2 : dlookup (dupdate (get_cached_uniprot_details cacheD accs)
              (fetch_uniprot_details O.detailSvc (accs.filter (fun a =>
                (dlookup (get_cached_uniprot_details cacheD accs) a).isNone)))) a
              = none := by
            rw [dlookup_dupdate, hnewlast, hnewlook, if_pos hk, hg]
            obtain ⟨_, hisn⟩ := List.mem_filter.mp hk
            cases hdl : dlookup (get_cached_uniprot_details cacheD accs) a with
            | none => rfl
            | some d =>
              exfalso
              rw [hdl] at hisn
              simp at hisn
          rw [hlook2, hmislast a hk]
          refine ⟨rfl, fun _ => rfl, ?_⟩
          intro hex
          obtain ⟨it, hit⟩ := hex
          exact absurd hit (by simp)
      · rw [if_neg hk]
        have hcached : ∃ r, lastVal cacheD a = some r := by
          have hnotn : ¬ (dlookup (get_cached_uniprot_details cacheD accs) a).isNone = true :=
            fun hn => hk (List.mem_filter.mpr ⟨ha, by simpa using hn⟩)
          rw [get_cached_uniprot_details_lookup, if_pos ha] at hnotn
          cases hlv : lastVal cacheD a with
          | none =>
            exfalso
            rw [hlv] at hnotn
            exact hnotn rfl
          | some r => exact ⟨r, rfl⟩
        obtain ⟨r, hr⟩ := hcached
        rw [hr]
        have hlook2 : dlookup (dupdate (get_cached_uniprot_details cacheD accs)
            (fetch_uniprot_details O.detailSvc (accs.filter (fun a =>
              (dlookup (get_cached_uniprot_details cacheD accs) a).isNone)))) a
            = some (rowToDetail r) := by
          rw [dlookup_dupdate, hnewlast, hnewlook, if_neg hk,
            get_cached_uniprot_details_lookup, if_pos ha, hr]
        rw [hlook2]
        refine ⟨rfl, ?_, ?_⟩
        · intro hn
          exact absurd hn (by simp)
        · intro _ hn
          exact absurd hn (by simp)

end DetailPhaseChar

section TupleCongr

theorem computeUpdateRow_congr (M M2 : List (Str × StrSet)) (D D2 : List (Str × Detail))
    (p : Str) (i : DocInfo)
    (hm : ∀ gid ∈ i.geneIdsNorm, (dlookup M gid).getD [] = (dlookup M2 gid).getD [])
    (hd : ∀ a ∈ i.geneIdsNorm.foldl (fun s gid => unionS s ((dlookup M gid).getD [])) [],
      (dlookup D a).getD emptyDetail = (dlookup D2 a).getD emptyDetail) :
    computeUpdateRow M D p i = computeUpdateRow M2 D2 p i := by
  have hA : i.geneIdsNorm.foldl (fun s gid => unionS s ((dlookup M gid).getD [])) []
      = i.geneIdsNorm.foldl (fun s gid => unionS s ((dlookup M2 gid).getD [])) [] :=
    foldl_congr_mem _ _ i.geneIdsNorm [] (fun s gid hg => by rw [hm gid hg])
  have hU : (i.geneIdsNorm.foldl (fun s gid => unionS s ((dlookup M gid).getD [])) []).foldl
        (fun s acc =>
          if ¬ ((dlookup D acc).getD emptyDetail).uniprotId = []
          then sinsert ((dlookup D acc).getD emptyDetail).uniprotId s else s) []
      = (i.geneIdsNorm.foldl (fun s gid => unionS s ((dlookup M gid).getD [])) []).foldl
        (fun s acc =>
          if ¬ ((dlookup D2 acc).getD emptyDetail).uniprotId = []
          then sinsert ((dlookup D2 acc).getD emptyDetail).uniprotId s else s) [] :=
    foldl_congr_mem _ _ _ [] (fun s a ha => by rw [hd a ha])
  have hP : (i.geneIdsNorm.foldl (fun s gid => unionS s ((dlookup M gid).getD [])) []).foldl
        (fun s acc =>
          if ¬ ((dlookup D acc).getD emptyDetail).proteinName = []
          then sinsert ((dlookup D acc).getD emptyDetail).proteinName s else s) []
      = (i.geneIdsNorm.foldl (fun s gid => unionS s ((dlookup M gid).getD [])) []).foldl
        (fun s acc =>
          if ¬ ((dlookup D2 acc).getD emptyDetail).proteinName = []
          then sinsert ((dlookup D2 acc).getD emptyDetail).proteinName s else s) [] :=
    foldl_congr_mem _ _ _ [] (fun s a ha => by rw [hd a ha])
  have hG : (i.geneIdsNorm.foldl (fun s gid => unionS s ((dlookup M gid).getD [])) []).foldl
        (fun s acc =>
          if ¬ ((dlookup D acc).getD emptyDetail).geneName = []
          then sinsert ((dlookup D acc).getD emptyDetail).geneName s else s) []
      = (i.geneIdsNorm.foldl (fun s gid => unionS s ((dlookup M gid).getD [])) []).foldl
        (fun s acc =>
          if ¬ ((dlookup D2 acc).getD emptyDetail).geneName = []
          then sinsert ((dlookup D2 acc).getD emptyDetail).geneName s else s) [] :=
    foldl_congr_mem _ _ _ [] (fun s a ha => by rw [hd a ha])
  simp only [computeUpdateRow]
  rw [← hA, hU, hP, hG]

end TupleCongr

section TupleFromCacheEq

theorem computeUpdateRow_eq_tupleFromCache (M : List (Str × StrSet))
    (D : List (Str × Detail)) (cache : Cache) (p : Str) (i : DocInfo)
    (hm : ∀ gid ∈ i.geneIdsNorm, (dlookup M gid).getD [] = cacheGeneVal cache gid)
    (hd : ∀ a ∈ i.geneIdsNorm.foldl (fun s gid => unionS s ((dlookup M gid).getD [])) [],
      (dlookup D a).getD emptyDetail = cacheDetailVal cache a) :
    computeUpdateRow M D p i = tupleFromCache cache p i := by
  have hA : i.geneIdsNorm.foldl (fun s gid => unionS s ((dlookup M gid).getD [])) []
      = i.geneIdsNorm.foldl (fun s gid => unionS s (cacheGeneVal cache gid)) [] :=
    foldl_congr_mem _ _ i.geneIdsNorm [] (fun s gid hg => by rw [hm gid hg])
  show computeUpdateRow M D p i
    = computeUpdateRow (i.geneIdsNorm.map (fun gid => (gid, cacheGeneVal cache gid)))
        ((i.geneIdsNorm.foldl (fun s gid => unionS s (cacheGeneVal cache gid)) []).map
          (fun a => (a, cacheDetailVal cache a))) p i
  apply computeUpdateRow_congr
  · intro gid hg
    rw [hm gid hg,
      dlookup_map_self (fun gid => cacheGeneVal cache gid) i.geneIdsNorm gid hg]
    rfl
  · intro a ha
    have ha2 : a ∈ i.geneIdsNorm.foldl (fun s gid => unionS s (cacheGeneVal cache gid)) [] := by
      rw [← hA]
      exact ha
    rw [hd a ha,
      dlookup_map_self (fun a => cacheDetailVal cache a) _ a ha2]
    rfl

end TupleFromCacheEq

section GenePhaseChar

theorem get_cached_entries_parse (tbl : List (Str × Option Str)) (ids : List Str) :
    ∀ kv ∈ get_cached_gene_map tbl ids, ∃ ov, kv.2 = parseGeneRow ov := by
  rw [get_cached_gene_map]
  have main : ∀ (t : List (Str × Option Str)) (m0 : List (Str × StrSet)),
      (∀ kv ∈ m0, ∃ ov, kv.2 = parseGeneRow ov) →
      ∀ kv ∈ t.foldl
        (fun m kv => if kv.1 ∈ ids then dset kv.1 (parseGeneRow kv.2) m else m) m0,
      ∃ ov, kv.2 = parseGeneRow ov := by
    intro t
    induction t with
    | nil => intro m0 h kv hkv; exact h kv hkv
    | cons row rest ih =>
      intro m0 h kv hkv
      rw [List.foldl_cons] at hkv
      refine ih _ ?_ kv hkv
      intro kv2 hkv2
      by_cases hrow : row.1 ∈ ids
      · rw [if_pos hrow] at hkv2
        rcases mem_dset_cases row.1 (parseGeneRow row.2) m0 kv2 hkv2 with he | he
        · exact ⟨row.2, by rw [he]⟩
        · exact h kv2 he
      · rw [if_neg hrow] at hkv2
        exact h kv2 hkv2
  exact main tbl [] (fun kv hkv => absurd hkv (by simp))

theorem geneFold_entries_good (svc : MapSvc)
    (hH8 : ∀ j rs, svc.results j = Except.ok rs →
      ∀ rw ∈ rs, (pyStrip rw.2).contains ',' = false) :
    ∀ (CL : List (List Str)) (tbl : List (Str × Option Str)) (M : List (Str × StrSet)),
    (∀ kv ∈ M, GoodSet kv.2) →
    ∀ kv ∈ (CL.foldl (geneStep svc) (tbl, M)).2, GoodSet kv.2 := by
  intro CL
  induction CL with
  | nil => intro tbl M h kv hkv; exact h kv hkv
  | cons c CL' ih =>
    intro tbl M h kv hkv
    rw [List.foldl_cons] at hkv
    refine ih _ _ ?_ kv hkv
    intro kv2 hkv2
    simp only [geneStep] at hkv2
    rcases mem_dupdate_cases _ _ kv2 hkv2 with he | he
    · exact h kv2 he
    · rw [run_uniprot_idmapping] at he
      by_cases hn : normalize_gene_ids c = []
      · rw [hn, if_pos rfl] at he
        exact absurd he (by simp)
      · rw [if_neg (by
          intro hc
          exact hn (by rw [hc]))] at he
        exact run_chunk_values_good svc hH8 (normalize_gene_ids c).length _ rfl kv2 he

theorem genePhase_char (O : Oracle) (cfg : Cfg)
    (hH6 : ∀ ids k, ¬ dlookup (run_chunk O.mapSvc ids) k = none → k ∈ ids)
    (hH8 : ∀ j rs, O.mapSvc.results j = Except.ok rs →
      ∀ rw ∈ rs, (pyStrip rw.2).contains ',' = false)
    (cacheG : List (Str × Option Str)) (gids : StrSet)
    (hsort : SortedSet gids) (hdig : ∀ x ∈ gids, isDigits x = true) :
    (∀ k s, lastVal cacheG k = some s → lastVal (genePhase O cfg cacheG gids).1 k = some s)
    ∧ (∀ gid ∈ gids, ∃ v, dlookup (genePhase O cfg cacheG gids).2 gid = some v
        ∧ GoodSet v
        ∧ ∃ s, lastVal (genePhase O cfg cacheG gids).1 gid = some s
            ∧ parseGeneRow s = v)
    ∧ (∀ kv ∈ (genePhase O cfg cacheG gids).2, GoodSet kv.2) := by
  have hmiss_sorted : SortedSet (gids.filter (fun gid =>
      (dlookup (get_cached_gene_map cacheG gids) gid).isNone)) :=
    filter_sorted _ hsort
  have hmiss_nodup : (gids.filter (fun gid =>
      (dlookup (get_cached_gene_map cacheG gids) gid).isNone)).Nodup :=
    sortedset_nodup hmiss_sorted
  have hCLprops : ∀ c ∈ chunksOf cfg.uniprotBatch (gids.filter (fun gid =>
      (dlookup (get_cached_gene_map cacheG gids) gid).isNone)),
      c.Nodup ∧ SortedSet c ∧ ∀ x ∈ c, isDigits x = true := by
    intro c hc
    have hsub := mem_chunksOf_sublist _ _ c hc
    refine ⟨List.Nodup.sublist hsub hmiss_nodup, List.Pairwise.sublist hsub hmiss_sorted, ?_⟩
    intro x hx
    exact hdig x (List.mem_filter.mp (hsub.mem hx)).1
  have hCLdisj := chunksOf_disjoint cfg.uniprotBatch _ hmiss_nodup
  obtain ⟨hgfU, hgfC⟩ := geneFold_char O.mapSvc hH6 hH8
    (chunksOf cfg.uniprotBatch (gids.filter (fun gid =>
      (dlookup (get_cached_gene_map cacheG gids) gid).isNone)))
    cacheG (get_cached_gene_map cacheG gids) hCLprops hCLdisj
  have hgp : genePhase O cfg cacheG gids
      = (chunksOf cfg.uniprotBatch (gids.filter (fun gid =>
          (dlookup (get_cached_gene_map cacheG gids) gid).isNone))).foldl
          (geneStep O.mapSvc) (cacheG, get_cached_gene_map cacheG gids) := rfl
  have hchunk_sub : ∀ c ∈ chunksOf cfg.uniprotBatch (gids.filter (fun gid =>
      (dlookup (get_cached_gene_map cacheG gids) gid).isNone)), ∀ k ∈ c,
      k ∈ gids.filter (fun gid =>
        (dlookup (get_cached_gene_map cacheG gids) gid).isNone) :=
    fun c hc k hk => (mem_chunksOf_sublist _ _ c hc).mem hk
  refine ⟨?_, ?_, ?_⟩
  · -- gene-row monotonicity
    intro k s h
    have hknotmiss : k ∉ gids.filter (fun gid =>
        (dlookup (get_cached_gene_map cacheG gids) gid).isNone) := by
      intro hkm
      obtain ⟨hkin, hkn⟩ := List.mem_filter.mp hkm
      rw [get_cached_gene_map_lookup, if_pos hkin, h] at hkn
      simp at hkn
    have h1 := hgfU k (fun c hc hkc => hknotmiss (hchunk_sub c hc k hkc))
    rw [hgp, h1.1]
    exact h
  · -- coverage with value link
    intro gid hgid
    by_cases hmem : gid ∈ gids.filter (fun gid =>
        (dlookup (get_cached_gene_map cacheG gids) gid).isNone)
    · -- fetched through some chunk
      obtain ⟨c, hc, hgc⟩ : ∃ c ∈ chunksOf cfg.uniprotBatch (gids.filter (fun gid =>
          (dlookup (get_cached_gene_map cacheG gids) gid).isNone)), gid ∈ c := by
        have := chunksOf_flatten cfg.uniprotBatch (gids.filter (fun gid =>
          (dlookup (get_cached_gene_map cacheG gids) gid).isNone))
        rw [← this] at hmem
        obtain ⟨c, hc, hgc⟩ := List.mem_flatten.mp hmem
        exact ⟨c, hc, hgc⟩
      obtain ⟨v, hv, hvg, hvl⟩ := hgfC c hc gid hgc
      refine ⟨v, by rw [hgp]; exact hv, hvg,
        some (serializeAccs v), by rw [hgp]; exact hvl, goodset_roundtrip hvg⟩
    · -- already cached
      have hsome : ¬ (dlookup (get_cached_gene_map cacheG gids) gid).isNone = true := by
        intro hn
        exact hmem (List.mem_filter.mpr ⟨hgid, by simpa using hn⟩)
      have h1 := hgfU gid (fun c hc hkc => hmem (hchunk_sub c hc gid hkc))
      rw [get_cached_gene_map_lookup, if_pos hgid] at hsome
      cases hlv : lastVal cacheG gid with
      | none =>
        exfalso
        rw [hlv] at hsome
        exact hsome rfl
      | some s =>
        refine ⟨parseGeneRow s, ?_, parseGeneRow_good s, s, ?_, rfl⟩
        · rw [hgp, h1.2, get_cached_gene_map_lookup, if_pos hgid, hlv]
        · rw [hgp, h1.1]
          exact hlv
  · -- all entries good
    intro kv hkv
    rw [hgp] at hkv
    refine geneFold_entries_good O.mapSvc hH8 _ cacheG _ ?_ kv hkv
    intro kv2 hkv2
    obtain ⟨ov, hov⟩ := get_cached_entries_parse cacheG gids kv2 hkv2
    rw [hov]
    exact parseGeneRow_good ov

end GenePhaseChar

section ProcessBatchChar

theorem computeUpdateRow_pmid (M : List (Str × StrSet)) (D : List (Str × Detail))
    (p : Str) (i : DocInfo) : (computeUpdateRow M D p i).pmid = p := rfl

theorem processBatch_char (O : Oracle) (cfg : Cfg) (g : Str → Option RawDetailItem)
    (hdsvc : ∀ bq, O.detailSvc bq = bq.filterMap g)
    (hgkey : ∀ a it, g a = some it → it.primaryAccession = some a)
    (hH6 : ∀ ids k, ¬ dlookup (run_chunk O.mapSvc ids) k = none → k ∈ ids)
    (hH8 : ∀ j rs, O.mapSvc.results j = Except.ok rs →
      ∀ rw ∈ rs, (pyStrip rw.2).contains ',' = false)
    (cache : Cache) (b : List Str) :
    (∀ k s, lastVal cache.gene k = some s →
      lastVal (processBatch O cfg cache b).2.gene k = some s)
    ∧ (∀ k r, lastVal cache.details k = some r →
        lastVal (processBatch O cfg cache b).2.details k = some r)
    ∧ (∀ k, ¬ lastVal (processBatch O cfg cache b).2.details k = none →
        ¬ lastVal cache.details k = none ∨ ∃ it, g k = some it)
    ∧ (∀ gid ∈ (scanDocs (O.pubtator b)).2,
        (∃ s, lastVal (processBatch O cfg cache b).2.gene gid = some s)
        ∧ ∀ a ∈ cacheGeneVal (processBatch O cfg cache b).2 gid,
            (lastVal (processBatch O cfg cache b).2.details a = none → g a = none))
    ∧ (∀ t ∈ (processBatch O cfg cache b).1, ∃ p i,
        dlookup (scanDocs (O.pubtator b)).1 p = some i
        ∧ t = tupleFromCache (processBatch O cfg cache b).2 p i ∧ t.pmid = p)
    ∧ (∀ p i, dlookup (scanDocs (O.pubtator b)).1 p = some i →
        tupleFromCache (processBatch O cfg cache b).2 p i ∈ (processBatch O cfg cache b).1) := by
  have hsort : SortedSet (scanDocs (O.pubtator b)).2 := scanDocs_snd_sorted _
  have hdig : ∀ x ∈ (scanDocs (O.pubtator b)).2, isDigits x = true :=
    fun x hx => scanDocs_snd_digits _ x hx
  obtain ⟨hgmono, hgcover, hgentries⟩ :=
    genePhase_char O cfg hH6 hH8 cache.gene (scanDocs (O.pubtator b)).2 hsort hdig
  have haccs_sorted : SortedSet
      ((genePhase O cfg cache.gene (scanDocs (O.pubtator b)).2).2.foldl
        (fun s kv => unionS s kv.2) []) :=
    sorted_foldl_unionS_gen Prod.snd _ [] List.Pairwise.nil
  have haccs_ne : ∀ a ∈ (genePhase O cfg cache.gene (scanDocs (O.pubtator b)).2).2.foldl
      (fun s kv => unionS s kv.2) [], ¬ a = [] := by
    intro a ha
    rcases (mem_foldl_unionS_gen Prod.snd a _ []).mp ha with h | ⟨kv, hkv, hmem⟩
    · exact absurd h (by simp)
    · exact ((hgentries kv hkv).2 a hmem).2.1
  obtain ⟨hdmono, hdprov, hdlink⟩ :=
    detailPhase_char O g hdsvc hgkey cache.details
      ((genePhase O cfg cache.gene (scanDocs (O.pubtator b)).2).2.foldl
        (fun s kv => unionS s kv.2) [])
      haccs_sorted haccs_ne
  have hpb2g : (processBatch O cfg cache b).2.gene
      = (genePhase O cfg cache.gene (scanDocs (O.pubtator b)).2).1 := rfl
  have hpb2d : (processBatch O cfg cache b).2.details
      = (detailPhase O cache.details
          ((genePhase O cfg cache.gene (scanDocs (O.pubtator b)).2).2.foldl
            (fun s kv => unionS s kv.2) [])).1 := rfl
  have hpb1 : (processBatch O cfg cache b).1
      = (scanDocs (O.pubtator b)).1.map (fun kv =>
          computeUpdateRow (genePhase O cfg cache.gene (scanDocs (O.pubtator b)).2).2
            (detailPhase O cache.details
              ((genePhase O cfg cache.gene (scanDocs (O.pubtator b)).2).2.foldl
                (fun s kv => unionS s kv.2) [])).2 kv.1 kv.2) := rfl
  -- the shared value bridge: for every gene ID of the batch, the in-memory map agrees
  -- with the final cache read
  have hbridge : ∀ gid ∈ (scanDocs (O.pubtator b)).2,
      ∃ v, dlookup (genePhase O cfg cache.gene (scanDocs (O.pubtator b)).2).2 gid = some v
        ∧ cacheGeneVal (processBatch O cfg cache b).2 gid = v := by
    intro gid hgid
    obtain ⟨v, hv, _, s, hs, hps⟩ := hgcover gid hgid
    refine ⟨v, hv, ?_⟩
    rw [cacheGeneVal, hpb2g, hs]
    exact hps
  -- tuple equality for every scanned document
  have htuple : ∀ p i, dlookup (scanDocs (O.pubtator b)).1 p = some i →
      computeUpdateRow (genePhase O cfg cache.gene (scanDocs (O.pubtator b)).2).2
          (detailPhase O cache.details
            ((genePhase O cfg cache.gene (scanDocs (O.pubtator b)).2).2.foldl
              (fun s kv => unionS s kv.2) [])).2 p i
        = tupleFromCache (processBatch O cfg cache b).2 p i := by
    intro p i hlook
    have hnorm_sub : ∀ x ∈ i.geneIdsNorm, x ∈ (scanDocs (O.pubtator b)).2 := by
      rcases scanAux_val_gids p (O.pubtator b) ([], []) i hlook with h | h
      · exact absurd h (by simp [dlookup])
      · exact h
    apply computeUpdateRow_eq_tupleFromCache
    · intro gid hg
      obtain ⟨v, hv, hvc⟩ := hbridge gid (hnorm_sub gid hg)
      rw [hv, hvc]
      rfl
    · intro a ha
      rcases (mem_foldl_unionS_gen (fun gid =>
          (dlookup (genePhase O cfg cache.gene (scanDocs (O.pubtator b)).2).2 gid).getD [])
          a i.geneIdsNorm []).mp ha with h | ⟨gid, hgid, hmem⟩
      · exact absurd h (by simp)
      · obtain ⟨v, hv, _⟩ := hbridge gid (hnorm_sub gid hgid)
        rw [hv] at hmem
        have hentry : (gid, v) ∈ (genePhase O cfg cache.gene (scanDocs (O.pubtator b)).2).2 :=
          dlookup_mem _ gid v hv
        have hainaccs : a ∈ (genePhase O cfg cache.gene (scanDocs (O.pubtator b)).2).2.foldl
            (fun s kv => unionS s kv.2) [] :=
          (mem_foldl_unionS_gen Prod.snd a _ []).mpr (Or.inr ⟨(gid, v), hentry, hmem⟩)
        have hl := (hdlink a hainaccs).1
        rw [hl, cacheDetailVal, hpb2d]
  refine ⟨?_, ?_, ?_, ?_, ?_, ?_⟩
  · intro k s h
    rw [hpb2g]
    exact hgmono k s h
  · intro k r h
    rw [hpb2d]
    exact hdmono k r h
  · intro k h
    rw [hpb2d] at h
    exact hdprov k h
  · intro gid hgid
    obtain ⟨v, hv, hvc⟩ := hbridge gid hgid
    constructor
    · obtain ⟨v2, _, _, s, hs, _⟩ := hgcover gid hgid
      rw [hpb2g]
      exact ⟨s, hs⟩
    · intro a hmem
      rw [hvc] at hmem
      have hainaccs : a ∈ (genePhase O cfg cache.gene (scanDocs (O.pubtator b)).2).2.foldl
          (fun s kv => unionS s kv.2) [] :=
        (mem_foldl_unionS_gen Prod.snd a _ []).mpr
          (Or.inr ⟨(gid, v), dlookup_mem _ gid v hv, hmem⟩)
      intro hnone
      rw [hpb2d] at hnone
      exact (hdlink a hainaccs).2.1 hnone
  · intro t ht
    rw [hpb1] at ht
    obtain ⟨kv, hkv, hte⟩ := List.mem_map.mp ht
    have hlook : dlookup (scanDocs (O.pubtator b)).1 kv.1 = some kv.2 :=
      mem_dlookup_of_nodup_keys _ (scanDocs_keys_nodup (O.pubtator b) ([], []) (by simp))
        kv.1 kv.2 (by rw [← Prod.mk.eta (p := kv)] at hkv; exact hkv)
    refine ⟨kv.1, kv.2, hlook, ?_, ?_⟩
    · rw [← hte]
      exact htuple kv.1 kv.2 hlook
    · rw [← hte, computeUpdateRow_pmid]
  · intro p i hlook
    rw [hpb1]
    rw [← htuple p i hlook]
    exact List.mem_map_of_mem _ (dlookup_mem _ p i hlook)

end ProcessBatchChar

section RunBatches

/-- The same batch sequence with all update tuples accumulated instead
of being committed in `commit_every` groups. -/
def runBatchesStep (O : Oracle) (cfg : Cfg) (st : List UpdTuple × Cache)
    (b : List Str) : List UpdTuple × Cache :=
  (st.1 ++ (processBatch O cfg st.2 b).1, (processBatch O cfg st.2 b).2)

def runBatches (O : Oracle) (cfg : Cfg) (bs : List (List Str)) (cache : Cache) :
    List UpdTuple × Cache :=
  bs.foldl (runBatchesStep O cfg) ([], cache)

theorem runBatches_acc (O : Oracle) (cfg : Cfg) : ∀ (bs : List (List Str))
    (acc : List UpdTuple) (cache : Cache),
    bs.foldl (runBatchesStep O cfg) (acc, cache)
      = (acc ++ (runBatches O cfg bs cache).1, (runBatches O cfg bs cache).2) := by
  intro bs
  induction bs with
  | nil =>
    intro acc cache
    show (acc, cache) = (acc ++ [], cache)
    rw [List.append_nil]
  | cons b rest ih =>
    intro acc cache
    rw [List.foldl_cons]
    have hstep : runBatchesStep O cfg (acc, cache) b
        = (acc ++ (processBatch O cfg cache b).1, (processBatch O cfg cache b).2) := rfl
    rw [hstep, ih]
    have hrb : runBatches O cfg (b :: rest) cache
        = ((processBatch O cfg cache b).1
            ++ (runBatches O cfg rest (processBatch O cfg cache b).2).1,
           (runBatches O cfg rest (processBatch O cfg cache b).2).2) := by
      show (b :: rest).foldl (runBatchesStep O cfg) ([], cache) = _
      rw [List.foldl_cons]
      have hstep2 : runBatchesStep O cfg ([], cache) b
          = ([] ++ (processBatch O cfg cache b).1, (processBatch O cfg cache b).2) := rfl
      rw [hstep2, List.nil_append, ih]
    rw [hrb, List.append_assoc]

theorem runBatches_cons (O : Oracle) (cfg : Cfg) (b : List Str) (rest : List (List Str))
    (cache : Cache) :
    runBatches O cfg (b :: rest) cache
      = ((processBatch O cfg cache b).1
          ++ (runBatches O cfg rest (processBatch O cfg cache b).2).1,
         (runBatches O cfg rest (processBatch O cfg cache b).2).2) := by
  show (b :: rest).foldl (runBatchesStep O cfg) ([], cache) = _
  rw [List.foldl_cons]
  have hstep : runBatchesStep O cfg ([], cache) b
      = ([] ++ (processBatch O cfg cache b).1, (processBatch O cfg cache b).2) := rfl
  rw [hstep, List.nil_append, runBatches_acc]

theorem staging_collapse (O : Oracle) (cfg : Cfg) : ∀ (bs : List (List Str))
    (db : List Row) (cache : Cache) (staged : List UpdTuple),
    (update_predictions (bs.foldl (mainStep O cfg) (db, cache, staged)).2.2
       (bs.foldl (mainStep O cfg) (db, cache, staged)).1,
     (bs.foldl (mainStep O cfg) (db, cache, staged)).2.1)
      = (update_predictions (staged ++ (runBatches O cfg bs cache).1) db,
         (runBatches O cfg bs cache).2) := by
  intro bs
  induction bs with
  | nil =>
    intro db cache staged
    show (update_predictions staged db, cache)
      = (update_predictions (staged ++ []) db, cache)
    rw [List.append_nil]
  | cons b rest ih =>
    intro db cache staged
    rw [List.foldl_cons, runBatches_cons]
    by_cases hcm : cfg.commitEvery ≤ (staged ++ (processBatch O cfg cache b).1).length
    · have hstep : mainStep O cfg (db, cache, staged) b
          = (update_predictions (staged ++ (processBatch O cfg cache b).1) db,
             (processBatch O cfg cache b).2, []) := by
        rw [mainStep, if_pos hcm]
      rw [hstep, ih]
      rw [List.nil_append, ← update_predictions_append, ← List.append_assoc]
    · have hstep : mainStep O cfg (db, cache, staged) b
          = (db, (processBatch O cfg cache b).2,
             staged ++ (processBatch O cfg cache b).1) := by
        rw [mainStep, if_neg hcm]
      rw [hstep, ih, ← List.append_assoc]

theorem runMain_collapse (O : Oracle) (cfg : Cfg) (db : List Row) (cache : Cache) :
    runMain O cfg db cache
      = (update_predictions (runBatches O cfg (chunksOf cfg.batch
            (if cfg.limit = 0 then iter_pmids_missing_ac db
             else (iter_pmids_missing_ac db).take cfg.limit)) cache).1 db,
         (runBatches O cfg (chunksOf cfg.batch
            (if cfg.limit = 0 then iter_pmids_missing_ac db
             else (iter_pmids_missing_ac db).take cfg.limit)) cache).2) := by
  have h := staging_collapse O cfg (chunksOf cfg.batch
    (if cfg.limit = 0 then iter_pmids_missing_ac db
     else (iter_pmids_missing_ac db).take cfg.limit)) db cache []
  rw [List.nil_append] at h
  exact h

end RunBatches

section TupleStability

theorem cacheGeneVal_congr {c1 c2 : Cache} {gid : Str} {s : Option Str}
    (h1 : lastVal c1.gene gid = some s) (h2 : lastVal c2.gene gid = some s) :
    cacheGeneVal c1 gid = cacheGeneVal c2 gid := by
  rw [cacheGeneVal, cacheGeneVal, h1, h2]

theorem cacheDetailVal_congr_some {c1 c2 : Cache} {a : Str} {r : DetailRow}
    (h1 : lastVal c1.details a = some r) (h2 : lastVal c2.details a = some r) :
    cacheDetailVal c1 a = cacheDetailVal c2 a := by
  rw [cacheDetailVal, cacheDetailVal, h1, h2]

theorem cacheDetailVal_congr_none {c1 c2 : Cache} {a : Str}
    (h1 : lastVal c1.details a = none) (h2 : lastVal c2.details a = none) :
    cacheDetailVal c1 a = cacheDetailVal c2 a := by
  rw [cacheDetailVal, cacheDetailVal, h1, h2]

theorem tupleFromCache_stable (c1 c2 : Cache) (p : Str) (i : DocInfo)
    (hg : ∀ gid ∈ i.geneIdsNorm, cacheGeneVal c1 gid = cacheGeneVal c2 gid)
    (hd : ∀ a ∈ i.geneIdsNorm.foldl (fun s gid => unionS s (cacheGeneVal c1 gid)) [],
      cacheDetailVal c1 a = cacheDetailVal c2 a) :
    tupleFromCache c1 p i = tupleFromCache c2 p i := by
  show computeUpdateRow (i.geneIdsNorm.map (fun gid => (gid, cacheGeneVal c1 gid)))
      ((i.geneIdsNorm.foldl (fun s gid => unionS s (cacheGeneVal c1 gid)) []).map
        (fun a => (a, cacheDetailVal c1 a))) p i
    = tupleFromCache c2 p i
  apply computeUpdateRow_eq_tupleFromCache
  · intro gid hgid
    rw [dlookup_map_self (fun gid => cacheGeneVal c1 gid) i.geneIdsNorm gid hgid]
    show cacheGeneVal c1 gid = cacheGeneVal c2 gid
    exact hg gid hgid
  · intro a ha
    have hA : i.geneIdsNorm.foldl (fun s gid => unionS s
          ((dlookup (i.geneIdsNorm.map (fun gid => (gid, cacheGeneVal c1 gid))) gid).getD []))
          []
        = i.geneIdsNorm.foldl (fun s gid => unionS s (cacheGeneVal c1 gid)) [] := by
      apply foldl_congr_mem
      intro s gid hgid
      rw [dlookup_map_self (fun gid => cacheGeneVal c1 gid) i.geneIdsNorm gid hgid]
      rfl
    rw [hA] at ha
    rw [dlookup_map_self (fun a => cacheDetailVal c1 a) _ a ha]
    show cacheDetailVal c1 a = cacheDetailVal c2 a
    exact hd a ha

end TupleStability

section RunBatchesChar

theorem runBatches_char (O : Oracle) (cfg : Cfg) (g : Str → Option RawDetailItem)
    (hdsvc : ∀ bq, O.detailSvc bq = bq.filterMap g)
    (hgkey : ∀ a it, g a = some it → it.primaryAccession = some a)
    (hH6 : ∀ ids k, ¬ dlookup (run_chunk O.mapSvc ids) k = none → k ∈ ids)
    (hH8 : ∀ j rs, O.mapSvc.results j = Except.ok rs →
      ∀ rw ∈ rs, (pyStrip rw.2).contains ',' = false) :
    ∀ (bs : List (List Str)) (cache : Cache),
    (∀ k s, lastVal cache.gene k = some s →
      lastVal (runBatches O cfg bs cache).2.gene k = some s)
    ∧ (∀ k r, lastVal cache.details k = some r →
        lastVal (runBatches O cfg bs cache).2.details k = some r)
    ∧ (∀ k, ¬ lastVal (runBatches O cfg bs cache).2.details k = none →
        ¬ lastVal cache.details k = none ∨ ∃ it, g k = some it)
    ∧ (∀ b ∈ bs, ∀ gid ∈ (scanDocs (O.pubtator b)).2,
        (∃ s, lastVal (runBatches O cfg bs cache).2.gene gid = some s)
        ∧ ∀ a ∈ cacheGeneVal (runBatches O cfg bs cache).2 gid,
            (lastVal (runBatches O cfg bs cache).2.details a = none → g a = none))
    ∧ (∀ t ∈ (runBatches O cfg bs cache).1, ∃ b ∈ bs, ∃ p i,
        dlookup (scanDocs (O.pubtator b)).1 p = some i
        ∧ t = tupleFromCache (runBatches O cfg bs cache).2 p i ∧ t.pmid = p)
    ∧ (∀ b ∈ bs, ∀ p i, dlookup (scanDocs (O.pubtator b)).1 p = some i →
        tupleFromCache (runBatches O cfg bs cache).2 p i ∈ (runBatches O cfg bs cache).1) := by
  intro bs
  induction bs with
  | nil =>
    intro cache
    refine ⟨fun k s h => h, fun k r h => h, fun k h => Or.inl h, ?_, ?_, ?_⟩
    · intro b hb
      exact absurd hb (by simp)
    · intro t ht
      exact absurd (show t ∈ ([] : List UpdTuple) from ht) (by simp)
    · intro b hb
      exact absurd hb (by simp)
  | cons b rest ih =>
    intro cache
    obtain ⟨pbGmono, pbDmono, pbDprov, pbCover, pbT, pbTC⟩ :=
      processBatch_char O cfg g hdsvc hgkey hH6 hH8 cache b
    obtain ⟨ihGmono, ihDmono, ihDprov, ihCover, ihT, ihTC⟩ :=
      ih (processBatch O cfg cache b).2
    rw [runBatches_cons]
    -- abbreviations for readability of the proof term below are inlined
    refine ⟨?_, ?_, ?_, ?_, ?_, ?_⟩
    · intro k s h
      exact ihGmono k s (pbGmono k s h)
    · intro k r h
      exact ihDmono k r (pbDmono k r h)
    · intro k h
      rcases ihDprov k h with h2 | h2
      · cases hlv : lastVal cache.details k with
        | none =>
          rcases pbDprov k h2 with h3 | h3
          · exact absurd hlv h3
          · exact Or.inr h3
        | some r => exact Or.inl (by simp)
      · exact Or.inr h2
    · intro b2 hb2 gid hgid
      rcases List.mem_cons.mp hb2 with he | he
      · -- the head batch
        rw [he] at hgid
        obtain ⟨⟨s, hs⟩, hdln⟩ := pbCover gid hgid
        have hsCF : lastVal (runBatches O cfg rest (processBatch O cfg cache b).2).2.gene gid
            = some s := ihGmono gid s hs
        refine ⟨⟨s, hsCF⟩, ?_⟩
        intro a ha hnone
        have hgv : cacheGeneVal (runBatches O cfg rest (processBatch O cfg cache b).2).2 gid
            = cacheGeneVal (processBatch O cfg cache b).2 gid :=
          cacheGeneVal_congr hsCF hs
        rw [hgv] at ha
        have hpbnone : lastVal (processBatch O cfg cache b).2.details a = none := by
          cases hlv : lastVal (processBatch O cfg cache b).2.details a with
          | none => rfl
          | some r =>
            exfalso
            rw [ihDmono a r hlv] at hnone
            exact absurd hnone (by simp)
        exact hdln a ha hpbnone
      · exact ihCover b2 he gid hgid
    · intro t ht
      rcases List.mem_append.mp ht with h2 | h2
      · -- tuple from the head batch, lifted to the final cache
        obtain ⟨p, i, hlook, hte, hpm⟩ := pbT t h2
        have hnorm_sub : ∀ x ∈ i.geneIdsNorm, x ∈ (scanDocs (O.pubtator b)).2 := by
          rcases scanAux_val_gids p (O.pubtator b) ([], []) i hlook with h3 | h3
          · exact absurd h3 (by simp [dlookup])
          · exact h3
        have hstable : tupleFromCache (processBatch O cfg cache b).2 p i
            = tupleFromCache (runBatches O cfg rest (processBatch O cfg cache b).2).2 p i := by
          apply tupleFromCache_stable
          · intro gid hgid
            obtain ⟨⟨s, hs⟩, _⟩ := pbCover gid (hnorm_sub gid hgid)
            exact cacheGeneVal_congr hs (ihGmono gid s hs)
          · intro a ha
            rcases (mem_foldl_unionS_gen
                (fun gid => cacheGeneVal (processBatch O cfg cache b).2 gid)
                a i.geneIdsNorm []).mp ha with h4 | ⟨gid, hgid, hmem⟩
            · exact absurd h4 (by simp)
            · obtain ⟨⟨s, hs⟩, hdln⟩ := pbCover gid (hnorm_sub gid hgid)
              cases hlv : lastVal (processBatch O cfg cache b).2.details a with
              | some r =>
                exact cacheDetailVal_congr_some hlv (ihDmono a r hlv)
              | none =>
                have hga : g a = none := hdln a hmem hlv
                have hCFnone : lastVal
                    (runBatches O cfg rest (processBatch O cfg cache b).2).2.details a
                    = none := by
                  cases hlv2 : lastVal
                      (runBatches O cfg rest (processBatch O cfg cache b).2).2.details a with
                  | none => rfl
                  | some r =>
                    exfalso
                    rcases ihDprov a (by rw [hlv2]; simp) with h5 | h5
                    · exact h5 hlv
                    · obtain ⟨it, hit⟩ := h5
                      rw [hga] at hit
                      exact absurd hit (by simp)
                exact cacheDetailVal_congr_none hlv hCFnone
        exact ⟨b, List.mem_cons_self b rest, p, i, hlook, by rw [hte, hstable], hpm⟩
      · obtain ⟨b2, hb2, p, i, hlook, hte, hpm⟩ := ihT t h2
        exact ⟨b2, List.mem_cons_of_mem b hb2, p, i, hlook, hte, hpm⟩
    · intro b2 hb2 p i hlook
      rcases List.mem_cons.mp hb2 with he | he
      · rw [he] at hlook
        have hnorm_sub : ∀ x ∈ i.geneIdsNorm, x ∈ (scanDocs (O.pubtator b)).2 := by
          rcases scanAux_val_gids p (O.pubtator b) ([], []) i hlook with h3 | h3
          · exact absurd h3 (by simp [dlookup])
          · exact h3
        have hstable : tupleFromCache (processBatch O cfg cache b).2 p i
            = tupleFromCache (runBatches O cfg rest (processBatch O cfg cache b).2).2 p i := by
          apply tupleFromCache_stable
          · intro gid hgid
            obtain ⟨⟨s, hs⟩, _⟩ := pbCover gid (hnorm_sub gid hgid)
            exact cacheGeneVal_congr hs (ihGmono gid s hs)
          · intro a ha
            rcases (mem_foldl_unionS_gen
                (fun gid => cacheGeneVal (processBatch O cfg cache b).2 gid)
                a i.geneIdsNorm []).mp ha with h4 | ⟨gid, hgid, hmem⟩
            · exact absurd h4 (by simp)
            · obtain ⟨⟨s, hs⟩, hdln⟩ := pbCover gid (hnorm_sub gid hgid)
              cases hlv : lastVal (processBatch O cfg cache b).2.details a with
              | some r =>
                exact cacheDetailVal_congr_some hlv (ihDmono a r hlv)
              | none =>
                have hga : g a = none := hdln a hmem hlv
                have hCFnone : lastVal
                    (runBatches O cfg rest (processBatch O cfg cache b).2).2.details a
                    = none := by
                  cases hlv2 : lastVal
                      (runBatches O cfg rest (processBatch O cfg cache b).2).2.details a with
                  | none => rfl
                  | some r =>
                    exfalso
                    rcases ihDprov a (by rw [hlv2]; simp) with h5 | h5
                    · exact h5 hlv
                    · obtain ⟨it, hit⟩ := h5
                      rw [hga] at hit
                      exact absurd hit (by simp)
                exact cacheDetailVal_congr_none hlv hCFnone
        rw [← hstable]
        exact List.mem_append_left _ (pbTC p i hlook)
      · exact List.mem_append_right _ (ihTC b2 he p i hlook)

end RunBatchesChar

section NoopLemmas

theorem gfold_id (g : Str → Option RawDetailItem) : ∀ (l : List Str),
    (∀ a ∈ l, g a = none) → ∀ (m : List (Str × Detail)), l.foldl (gfoldStep g) m = m := by
  intro l
  induction l with
  | nil => intro _ m; rfl
  | cons a rest ih =>
    intro h m
    rw [List.foldl_cons, gfoldStep, h a (List.mem_cons_self a rest)]
    exact ih (fun x hx => h x (List.mem_cons_of_mem a hx)) m

theorem detailPhase_noop (O : Oracle) (g : Str → Option RawDetailItem)
    (hdsvc : ∀ bq, O.detailSvc bq = bq.filterMap g)
    (hgkey : ∀ a it, g a = some it → it.primaryAccession = some a)
    (cacheD : List (Str × DetailRow)) (accs : StrSet)
    (hane : ∀ a ∈ accs, ¬ a = [])
    (hgn : ∀ a ∈ accs,
      (dlookup (get_cached_uniprot_details cacheD accs) a).isNone = true → g a = none) :
    detailPhase O cacheD accs = (cacheD, get_cached_uniprot_details cacheD accs) := by
  by_cases hmiss : (accs.filter (fun a =>
      (dlookup (get_cached_uniprot_details cacheD accs) a).isNone)).isEmpty = true
  · show (if (accs.filter (fun a =>
        (dlookup (get_cached_uniprot_details cacheD accs) a).isNone)).isEmpty then _ else _) = _
    rw [if_pos hmiss]
  · show (if (accs.filter (fun a =>
        (dlookup (get_cached_uniprot_details cacheD accs) a).isNone)).isEmpty then _ else _) = _
    rw [if_neg hmiss]
    have hnone : ∀ a ∈ accs.filter (fun a =>
        (dlookup (get_cached_uniprot_details cacheD accs) a).isNone), g a = none := by
      intro a ha
      obtain ⟨hain, hisn⟩ := List.mem_filter.mp ha
      exact hgn a hain hisn
    have hnewD : fetch_uniprot_details O.detailSvc (accs.filter (fun a =>
        (dlookup (get_cached_uniprot_details cacheD accs) a).isNone)) = [] := by
      rw [fetch_char O.detailSvc g hdsvc hgkey]
      apply gfold_id
      intro a ha
      exact hnone a (List.mem_filter.mp ha).1
    rw [hnewD]
    rfl

theorem get_cached_gene_map_keys_nodup (tbl : List (Str × Option Str)) (ids : List Str) :
    ((get_cached_gene_map tbl ids).map Prod.fst).Nodup := by
  rw [get_cached_gene_map]
  have main : ∀ (t : List (Str × Option Str)) (m0 : List (Str × StrSet)),
      (m0.map Prod.fst).Nodup →
      (((t.foldl (fun m kv =>
          if kv.1 ∈ ids then dset kv.1 (parseGeneRow kv.2) m else m) m0)).map
        Prod.fst).Nodup := by
    intro t
    induction t with
    | nil => intro m0 h; exact h
    | cons row rest ih =>
      intro m0 h
      rw [List.foldl_cons]
      by_cases hrow : row.1 ∈ ids
      · rw [if_pos hrow]
        exact ih _ (dset_keys_nodup _ _ m0 h)
      · rw [if_neg hrow]
        exact ih m0 h
  exact main tbl [] (by simp)

end NoopLemmas

section ProcessBatchNoop

theorem processBatch_noop (O : Oracle) (cfg : Cfg) (g : Str → Option RawDetailItem)
    (hdsvc : ∀ bq, O.detailSvc bq = bq.filterMap g)
    (hgkey : ∀ a it, g a = some it → it.primaryAccession = some a)
    (CF : Cache) (b : List Str)
    (hcov : ∀ gid ∈ (scanDocs (O.pubtator b)).2, ∃ s, lastVal CF.gene gid = some s)
    (hdln : ∀ gid ∈ (scanDocs (O.pubtator b)).2, ∀ a ∈ cacheGeneVal CF gid,
        lastVal CF.details a = none → g a = none) :
    (processBatch O cfg CF b).2 = CF
    ∧ ∀ t ∈ (processBatch O cfg CF b).1, ∃ p i,
        dlookup (scanDocs (O.pubtator b)).1 p = some i
        ∧ t = tupleFromCache CF p i ∧ t.pmid = p := by
  -- no gene ID is missing from the cache
  have hlookup0 : ∀ gid ∈ (scanDocs (O.pubtator b)).2,
      dlookup (get_cached_gene_map CF.gene (scanDocs (O.pubtator b)).2) gid
        = some (cacheGeneVal CF gid) := by
    intro gid hgid
    obtain ⟨s, hs⟩ := hcov gid hgid
    rw [get_cached_gene_map_lookup, if_pos hgid, hs, cacheGeneVal, hs]
  have hmiss : (scanDocs (O.pubtator b)).2.filter (fun gid =>
      (dlookup (get_cached_gene_map CF.gene (scanDocs (O.pubtator b)).2) gid).isNone)
      = [] := by
    rw [List.filter_eq_nil_iff]
    intro gid hgid
    rw [hlookup0 gid hgid]
    simp
  have hgp : genePhase O cfg CF.gene (scanDocs (O.pubtator b)).2
      = (CF.gene, get_cached_gene_map CF.gene (scanDocs (O.pubtator b)).2) := by
    show (chunksOf cfg.uniprotBatch ((scanDocs (O.pubtator b)).2.filter (fun gid =>
        (dlookup (get_cached_gene_map CF.gene (scanDocs (O.pubtator b)).2) gid).isNone))).foldl
        (geneStep O.mapSvc)
        (CF.gene, get_cached_gene_map CF.gene (scanDocs (O.pubtator b)).2) = _
    rw [hmiss]
    rfl
  -- every entry of the cached map is a cache read of a batch gene ID
  have hentry : ∀ kv ∈ get_cached_gene_map CF.gene (scanDocs (O.pubtator b)).2,
      kv.1 ∈ (scanDocs (O.pubtator b)).2 ∧ kv.2 = cacheGeneVal CF kv.1 := by
    intro kv hkv
    have hl : dlookup (get_cached_gene_map CF.gene (scanDocs (O.pubtator b)).2) kv.1
        = some kv.2 :=
      mem_dlookup_of_nodup_keys _ (get_cached_gene_map_keys_nodup _ _) kv.1 kv.2
        (by rw [← Prod.mk.eta (p := kv)] at hkv; exact hkv)
    by_cases hin : kv.1 ∈ (scanDocs (O.pubtator b)).2
    · refine ⟨hin, ?_⟩
      rw [hlookup0 kv.1 hin] at hl
      exact (Option.some.inj hl).symm
    · exfalso
      rw [get_cached_gene_map_lookup, if_neg hin] at hl
      exact absurd hl (by simp)
  -- accession list facts
  have haccs_ne : ∀ a ∈ (get_cached_gene_map CF.gene (scanDocs (O.pubtator b)).2).foldl
      (fun s kv => unionS s kv.2) [], ¬ a = [] := by
    intro a ha
    rcases (mem_foldl_unionS_gen Prod.snd a _ []).mp ha with h | ⟨kv, hkv, hmem⟩
    · exact absurd h (by simp)
    · obtain ⟨ov, hov⟩ := get_cached_entries_parse CF.gene _ kv hkv
      have hgood : GoodSet kv.2 := by rw [hov]; exact parseGeneRow_good ov
      exact (hgood.2 a hmem).2.1
  have haccs_gn : ∀ a ∈ (get_cached_gene_map CF.gene (scanDocs (O.pubtator b)).2).foldl
      (fun s kv => unionS s kv.2) [],
      (dlookup (get_cached_uniprot_details CF.details
        ((get_cached_gene_map CF.gene (scanDocs (O.pubtator b)).2).foldl
          (fun s kv => unionS s kv.2) [])) a).isNone = true → g a = none := by
    intro a ha hisn
    have hdnone : lastVal CF.details a = none := by
      rw [get_cached_uniprot_details_lookup, if_pos ha] at hisn
      cases hlv : lastVal CF.details a with
      | none => rfl
      | some r =>
        exfalso
        rw [hlv] at hisn
        simp at hisn
    rcases (mem_foldl_unionS_gen Prod.snd a _ []).mp ha with h | ⟨kv, hkv, hmem⟩
    · exact absurd h (by simp)
    · obtain ⟨hkin, hkval⟩ := hentry kv hkv
      rw [hkval] at hmem
      exact hdln kv.1 hkin a hmem hdnone
  have hdp : detailPhase O CF.details
      ((get_cached_gene_map CF.gene (scanDocs (O.pubtator b)).2).foldl
        (fun s kv => unionS s kv.2) [])
      = (CF.details, get_cached_uniprot_details CF.details
          ((get_cached_gene_map CF.gene (scanDocs (O.pubtator b)).2).foldl
            (fun s kv => unionS s kv.2) [])) :=
    detailPhase_noop O g hdsvc hgkey CF.details _ haccs_ne haccs_gn
  have hpb2 : (processBatch O cfg CF b).2 = CF := by
    show { gene := (genePhase O cfg CF.gene (scanDocs (O.pubtator b)).2).1,
           details := (detailPhase O CF.details
            ((genePhase O cfg CF.gene (scanDocs (O.pubtator b)).2).2.foldl
              (fun s kv => unionS s kv.2) [])).1 } = CF
    rw [hgp, hdp]
  refine ⟨hpb2, ?_⟩
  intro t ht
  have hpb1 : (processBatch O cfg CF b).1
      = (scanDocs (O.pubtator b)).1.map (fun kv =>
          computeUpdateRow (get_cached_gene_map CF.gene (scanDocs (O.pubtator b)).2)
            (get_cached_uniprot_details CF.details
              ((get_cached_gene_map CF.gene (scanDocs (O.pubtator b)).2).foldl
                (fun s kv => unionS s kv.2) []))
            kv.1 kv.2) := by
    show (scanDocs (O.pubtator b)).1.map (fun kv =>
        computeUpdateRow (genePhase O cfg CF.gene (scanDocs (O.pubtator b)).2).2
          (detailPhase O CF.details
            ((genePhase O cfg CF.gene (scanDocs (O.pubtator b)).2).2.foldl
              (fun s kv => unionS s kv.2) [])).2 kv.1 kv.2) = _
    rw [hgp, hdp]
  rw [hpb1] at ht
  obtain ⟨kv, hkv, hte⟩ := List.mem_map.mp ht
  have hlook : dlookup (scanDocs (O.pubtator b)).1 kv.1 = some kv.2 :=
    mem_dlookup_of_nodup_keys _ (scanDocs_keys_nodup (O.pubtator b) ([], []) (by simp))
      kv.1 kv.2 (by rw [← Prod.mk.eta (p := kv)] at hkv; exact hkv)
  have hnorm_sub : ∀ x ∈ kv.2.geneIdsNorm, x ∈ (scanDocs (O.pubtator b)).2 := by
    rcases scanAux_val_gids kv.1 (O.pubtator b) ([], []) kv.2 hlook with h3 | h3
    · exact absurd h3 (by simp [dlookup])
    · exact h3
  refine ⟨kv.1, kv.2, hlook, ?_, ?_⟩
  · rw [← hte]
    apply computeUpdateRow_eq_tupleFromCache
    · intro gid hg
      rw [hlookup0 gid (hnorm_sub gid hg)]
      rfl
    · intro a ha
      have hainaccs : a ∈ (get_cached_gene_map CF.gene (scanDocs (O.pubtator b)).2).foldl
          (fun s kv => unionS s kv.2) [] := by
        rcases (mem_foldl_unionS_gen (fun gid =>
            (dlookup (get_cached_gene_map CF.gene (scanDocs (O.pubtator b)).2) gid).getD [])
            a kv.2.geneIdsNorm []).mp ha with h | ⟨gid, hgid, hmem⟩
        · exact absurd h (by simp)
        · rw [hlookup0 gid (hnorm_sub gid hgid)] at hmem
          refine (mem_foldl_unionS_gen Prod.snd a _ []).mpr
            (Or.inr ⟨(gid, cacheGeneVal CF gid), ?_, hmem⟩)
          exact dlookup_mem _ gid _ (hlookup0 gid (hnorm_sub gid hgid))
      rw [get_cached_uniprot_details_lookup, if_pos hainaccs, cacheDetailVal]
      cases lastVal CF.details a <;> rfl
  · rw [← hte, computeUpdateRow_pmid]

end ProcessBatchNoop

section PmidStream

theorem iter_pmids_nonempty (db : List Row) : ∀ p ∈ iter_pmids_missing_ac db, ¬ p = [] := by
  intro p hp
  obtain ⟨_, hne⟩ := List.mem_filter.mp hp
  simp at hne
  intro he
  rw [he] at hne
  exact hne rfl

theorem iter_pmids_update_subset (TS : List UpdTuple) (db : List Row) :
    ∀ p ∈ iter_pmids_missing_ac (update_predictions TS db),
      p ∈ iter_pmids_missing_ac db := by
  intro p hp
  obtain ⟨hpm, hpne⟩ := List.mem_filter.mp hp
  obtain ⟨q, hq, hpq⟩ := List.mem_map.mp hpm
  rw [mem_dedupFirst] at hq
  obtain ⟨r1, hr1, hfr1⟩ := List.mem_filterMap.mp hq
  rw [update_predictions_eq_map] at hr1
  obtain ⟨r0, hr0, hr01⟩ := List.mem_map.mp hr1
  have hq0 : (match r0.pmid with
      | none => none
      | some p => if acMissing r0.ac && !(sqlTrim p).isEmpty then some p else none)
      = some q := by
    cases hrp : r0.pmid with
    | none =>
      exfalso
      have : r1.pmid = none := by rw [← hr01, foldApply_pmid, hrp]
      rw [this] at hfr1
      exact absurd hfr1 (by simp)
    | some pm =>
      have hrp1 : r1.pmid = some pm := by rw [← hr01, foldApply_pmid, hrp]
      rw [hrp1] at hfr1
      replace hfr1 : (if (acMissing r1.ac && !(sqlTrim pm).isEmpty) = true
          then some pm else none) = some q := hfr1
      show (if (acMissing r0.ac && !(sqlTrim pm).isEmpty) = true
        then some pm else none) = some q
      by_cases hcond : (acMissing r1.ac && !(sqlTrim pm).isEmpty) = true
      · rw [if_pos hcond] at hfr1
        obtain ⟨hmiss1, htrim⟩ := Bool.and_eq_true _ _ |>.mp hcond
        have hmiss0 : acMissing r0.ac = true := by
          rw [← hr01] at hmiss1
          exact foldApply_acMissing_mono TS r0 hmiss1
        rw [if_pos (by rw [hmiss0, htrim]; rfl)]
        exact hfr1
      · rw [if_neg hcond] at hfr1
        exact absurd hfr1 (by simp)
  refine List.mem_filter.mpr ⟨?_, hpne⟩
  refine List.mem_map.mpr ⟨q, ?_, hpq⟩
  rw [mem_dedupFirst]
  exact List.mem_filterMap.mpr ⟨r0, hr0, hq0⟩

theorem mem_batchGids_iff (f : Str → List Doc) (bb : List Str) (x : Str) :
    x ∈ (scanDocs (bb.flatMap f)).2 ↔ ∃ q ∈ bb, x ∈ (scanDocs (f q)).2 := by
  rw [mem_scanDocs_snd]
  constructor
  · rintro ⟨d, hd, hd1, hd2⟩
    obtain ⟨q, hqb, hdq⟩ := List.mem_flatMap.mp hd
    exact ⟨q, hqb, (mem_scanDocs_snd x (f q)).mpr ⟨d, hdq, hd1, hd2⟩⟩
  · rintro ⟨q, hqb, hx⟩
    obtain ⟨d, hdq, hd1, hd2⟩ := (mem_scanDocs_snd x (f q)).mp hx
    exact ⟨d, List.mem_flatMap.mpr ⟨q, hqb, hdq⟩, hd1, hd2⟩

end PmidStream

section RunBatchesNoop

theorem tupleFromCache_pmid (cache : Cache) (p : Str) (i : DocInfo) :
    (tupleFromCache cache p i).pmid = p := rfl

theorem runBatches_noop (O : Oracle) (cfg : Cfg) (g : Str → Option RawDetailItem)
    (hdsvc : ∀ bq, O.detailSvc bq = bq.filterMap g)
    (hgkey : ∀ a it, g a = some it → it.primaryAccession = some a)
    (CF : Cache) :
    ∀ (bs2 : List (List Str)),
    (∀ b2 ∈ bs2,
      (∀ gid ∈ (scanDocs (O.pubtator b2)).2, ∃ s, lastVal CF.gene gid = some s)
      ∧ (∀ gid ∈ (scanDocs (O.pubtator b2)).2, ∀ a ∈ cacheGeneVal CF gid,
          lastVal CF.details a = none → g a = none)) →
    (runBatches O cfg bs2 CF).2 = CF
    ∧ ∀ t ∈ (runBatches O cfg bs2 CF).1, ∃ b2 ∈ bs2, ∃ p i,
        dlookup (scanDocs (O.pubtator b2)).1 p = some i
        ∧ t = tupleFromCache CF p i ∧ t.pmid = p := by
  intro bs2
  induction bs2 with
  | nil =>
    intro _
    exact ⟨rfl, fun t ht => absurd (show t ∈ ([] : List UpdTuple) from ht) (by simp)⟩
  | cons b2 rest ih =>
    intro hb
    obtain ⟨hpb2, hpbT⟩ := processBatch_noop O cfg g hdsvc hgkey CF b2
      (hb b2 (List.mem_cons_self b2 rest)).1 (hb b2 (List.mem_cons_self b2 rest)).2
    obtain ⟨ihC, ihT⟩ := ih (fun b hbm => hb b (List.mem_cons_of_mem b2 hbm))
    rw [runBatches_cons, hpb2]
    refine ⟨ihC, ?_⟩
    intro t ht
    rcases List.mem_append.mp ht with h2 | h2
    · obtain ⟨p, i, hlook, hte, hpm⟩ := hpbT t h2
      exact ⟨b2, List.mem_cons_self b2 rest, p, i, hlook, hte, hpm⟩
    · obtain ⟨b3, hb3, p, i, hlook, hte, hpm⟩ := ihT t h2
      exact ⟨b3, List.mem_cons_of_mem b2 hb3, p, i, hlook, hte, hpm⟩

end RunBatchesNoop

/-- C1 (amended): the enrichment orchestrator is idempotent for every
dataset and cache provided the external services behave consistently:
the PubTator endpoint answers each batch document-by-document
(independently of how PMIDs are grouped into batches), each returned
document is labelled with the PMID it was requested for, the UniProt
search endpoint answers accession queries accession-by-accession with
matching `primaryAccession` keys, the ID-mapping results never name
gene IDs outside the submitted chunk and never contain commas inside
accessions, and no `--limit` is set. Under these hypotheses a second
run leaves both the dataset and the cache exactly as the first run
left them. Without the batch-independence hypothesis the claim is
false (see the counterexample). -/
theorem c1_idempotent_with_consistent_services
    (O : Oracle) (cfg : Cfg) (db : List Row) (cache : Cache)
    (f : Str → List Doc) (g : Str → Option RawDetailItem)
    (hf : ∀ bq, O.pubtator bq = bq.flatMap f)
    (hfid : ∀ p, ∀ d ∈ f p, pyStrip d.id = p)
    (hdsvc : ∀ bq, O.detailSvc bq = bq.filterMap g)
    (hgkey : ∀ a it, g a = some it → it.primaryAccession = some a)
    (hH6 : ∀ ids k, ¬ dlookup (run_chunk O.mapSvc ids) k = none → k ∈ ids)
    (hH8 : ∀ j rs, O.mapSvc.results j = Except.ok rs →
      ∀ rw ∈ rs, (pyStrip rw.2).contains ',' = false)
    (hlim : cfg.limit = 0) :
    runMain O cfg (runMain O cfg db cache).1 (runMain O cfg db cache).2
      = runMain O cfg db cache := by
  have hco1 := runMain_collapse O cfg db cache
  rw [if_pos hlim] at hco1
  obtain ⟨rbGmono, rbDmono, rbDprov, rbCover, rbT, rbTC⟩ :=
    runBatches_char O cfg g hdsvc hgkey hH6 hH8
      (chunksOf cfg.batch (iter_pmids_missing_ac db)) cache
  have hp1ne : ∀ p ∈ iter_pmids_missing_ac db, ¬ p = [] := iter_pmids_nonempty db
  have hcanon : ∀ (bb : List Str), (∀ q ∈ bb, q ∈ iter_pmids_missing_ac db) →
      ∀ p ∈ bb, dlookup (scanDocs (O.pubtator bb)).1 p = dlookup (scanDocs (f p)).1 p := by
    intro bb hbb p hpb
    rw [hf bb]
    exact scan_flatMap_val f bb p (hp1ne p (hbb p hpb)) (fun q _ d hd => hfid q d hd) hpb
  have hkeymem : ∀ (bb : List Str) (p : Str) (i : DocInfo),
      dlookup (scanDocs (O.pubtator bb)).1 p = some i → p ∈ bb := by
    intro bb p i hlook
    rcases scanAux_keys p (O.pubtator bb) ([], []) i hlook with h | ⟨d, hd, hdp⟩
    · exact absurd h (by simp [dlookup])
    · rw [hf bb] at hd
      obtain ⟨q, hqb, hdq⟩ := List.mem_flatMap.mp hd
      rw [hfid q d hdq] at hdp
      rw [← hdp]
      exact hqb
  have hmem_b1 : ∀ p ∈ iter_pmids_missing_ac db,
      ∃ b1 ∈ chunksOf cfg.batch (iter_pmids_missing_ac db), p ∈ b1 := by
    intro p hp
    have h := chunksOf_flatten cfg.batch (iter_pmids_missing_ac db)
    rw [← h] at hp
    exact List.mem_flatten.mp hp
  have hsub21 : ∀ p ∈ iter_pmids_missing_ac (update_predictions
      (runBatches O cfg (chunksOf cfg.batch (iter_pmids_missing_ac db)) cache).1 db),
      p ∈ iter_pmids_missing_ac db :=
    iter_pmids_update_subset _ db
  -- the second run's batches meet the no-op preconditions
  have hbatch2 : ∀ b2 ∈ chunksOf cfg.batch (iter_pmids_missing_ac (update_predictions
        (runBatches O cfg (chunksOf cfg.batch (iter_pmids_missing_ac db)) cache).1 db)),
      (∀ gid ∈ (scanDocs (O.pubtator b2)).2,
        ∃ s, lastVal (runBatches O cfg (chunksOf cfg.batch
          (iter_pmids_missing_ac db)) cache).2.gene gid = some s)
      ∧ (∀ gid ∈ (scanDocs (O.pubtator b2)).2,
          ∀ a ∈ cacheGeneVal (runBatches O cfg (chunksOf cfg.batch
            (iter_pmids_missing_ac db)) cache).2 gid,
          lastVal (runBatches O cfg (chunksOf cfg.batch
            (iter_pmids_missing_ac db)) cache).2.details a = none → g a = none) := by
    intro b2 hb2
    have hb2sub : ∀ q ∈ b2, q ∈ iter_pmids_missing_ac db :=
      fun q hq => hsub21 q (mem_of_mem_chunksOf _ _ b2 q hb2 hq)
    have htrans : ∀ gid ∈ (scanDocs (O.pubtator b2)).2,
        ∃ b1 ∈ chunksOf cfg.batch (iter_pmids_missing_ac db),
          gid ∈ (scanDocs (O.pubtator b1)).2 := by
      intro gid hgid
      rw [hf b2] at hgid
      obtain ⟨q, hqb, hq⟩ := (mem_batchGids_iff f b2 gid).mp hgid
      obtain ⟨b1, hb1, hqb1⟩ := hmem_b1 q (hb2sub q hqb)
      refine ⟨b1, hb1, ?_⟩
      rw [hf b1]
      exact (mem_batchGids_iff f b1 gid).mpr ⟨q, hqb1, hq⟩
    constructor
    · intro gid hgid
      obtain ⟨b1, hb1, hgid1⟩ := htrans gid hgid
      exact (rbCover b1 hb1 gid hgid1).1
    · intro gid hgid a ha hnone
      obtain ⟨b1, hb1, hgid1⟩ := htrans gid hgid
      exact (rbCover b1 hb1 gid hgid1).2 a ha hnone
  obtain ⟨hnoop2, hT2⟩ := runBatches_noop O cfg g hdsvc hgkey
    (runBatches O cfg (chunksOf cfg.batch (iter_pmids_missing_ac db)) cache).2 _ hbatch2
  -- every first-run tuple with a given PMID is the canonical one
  have hTSuniq : ∀ (p : Str) (i : DocInfo), dlookup (scanDocs (f p)).1 p = some i →
      ∀ t' ∈ (runBatches O cfg (chunksOf cfg.batch (iter_pmids_missing_ac db)) cache).1,
      t'.pmid = p → t' = tupleFromCache
        (runBatches O cfg (chunksOf cfg.batch (iter_pmids_missing_ac db)) cache).2 p i := by
    intro p i hci t' ht' hpmt
    obtain ⟨b1, hb1, p', i', hlook', hte', hpm''⟩ := rbT t' ht'
    have hpp : p' = p := by rw [← hpm'', hpmt]
    rw [hpp] at hlook'
    have hb1sub : ∀ q ∈ b1, q ∈ iter_pmids_missing_ac db :=
      fun q hq => mem_of_mem_chunksOf _ _ b1 q hb1 hq
    have hpb1 : p ∈ b1 := hkeymem b1 p i' hlook'
    rw [hcanon b1 hb1sub p hpb1, hci] at hlook'
    have hii : i' = i := (Option.some.inj hlook').symm
    rw [hte', hpp, hii]
  -- inertness of every second-run tuple on the once-updated table
  have hinert : ∀ t ∈ (runBatches O cfg (chunksOf cfg.batch (iter_pmids_missing_ac
        (update_predictions (runBatches O cfg (chunksOf cfg.batch
          (iter_pmids_missing_ac db)) cache).1 db)))
        (runBatches O cfg (chunksOf cfg.batch (iter_pmids_missing_ac db)) cache).2).1,
      ∀ r ∈ update_predictions
        (runBatches O cfg (chunksOf cfg.batch (iter_pmids_missing_ac db)) cache).1 db,
      applyTupleRow t r = r := by
    intro t ht r hr
    obtain ⟨b2, hb2, p, i, hlook2, hte, hpmt⟩ := hT2 t ht
    have hb2sub : ∀ q ∈ b2, q ∈ iter_pmids_missing_ac db :=
      fun q hq => hsub21 q (mem_of_mem_chunksOf _ _ b2 q hb2 hq)
    have hpb2 : p ∈ b2 := hkeymem b2 p i hlook2
    have hci : dlookup (scanDocs (f p)).1 p = some i := by
      rw [← hcanon b2 hb2sub p hpb2]
      exact hlook2
    obtain ⟨b1, hb1, hpb1⟩ := hmem_b1 p (hb2sub p hpb2)
    have hlook1 : dlookup (scanDocs (O.pubtator b1)).1 p = some i := by
      rw [hcanon b1 (fun q hq => mem_of_mem_chunksOf _ _ b1 q hb1 hq) p hpb1]
      exact hci
    have htmem := rbTC b1 hb1 p i hlook1
    rw [update_predictions_eq_map] at hr
    obtain ⟨r0, hr0, hre⟩ := List.mem_map.mp hr
    by_cases hrp : r0.pmid = some t.pmid
    · rw [← hre, hte]
      apply foldApply_fixed
      · rw [tupleFromCache_pmid]
        rw [← hpmt]
        exact hrp
      · exact htmem
      · intro t2 ht2 hpm2
        rw [tupleFromCache_pmid] at hpm2
        exact hTSuniq p i hci t2 ht2 hpm2
    · rw [← hre]
      apply applyTupleRow_ne_pmid
      rw [foldApply_pmid]
      exact hrp
  have hco2 := runMain_collapse O cfg (update_predictions
    (runBatches O cfg (chunksOf cfg.batch (iter_pmids_missing_ac db)) cache).1 db)
    (runBatches O cfg (chunksOf cfg.batch (iter_pmids_missing_ac db)) cache).2
  rw [if_pos hlim] at hco2
  rw [hco1]
  show runMain O cfg
    (update_predictions (runBatches O cfg (chunksOf cfg.batch
      (iter_pmids_missing_ac db)) cache).1 db)
    (runBatches O cfg (chunksOf cfg.batch (iter_pmids_missing_ac db)) cache).2
    = _
  rw [hco2, hnoop2, update_predictions_inert _ _ hinert]

/-- A fixed oracle satisfying all consistency hypotheses: PubTator
returns no documents, the detail service returns no items, and the
mapping service accepts no jobs. -/
def wOracle : Oracle :=
  { pubtator := fun bq => bq.flatMap (fun _ => ([] : List Doc)),
    mapSvc := idleSvc,
    detailSvc := fun bq => bq.filterMap (fun _ => (none : Option RawDetailItem)) }

theorem c1_idempotent_with_consistent_services_witness :
    runMain wOracle exCfg (runMain wOracle exCfg exDb exCache).1
        (runMain wOracle exCfg exDb exCache).2
      = runMain wOracle exCfg exDb exCache :=
  c1_idempotent_with_consistent_services wOracle exCfg exDb exCache
    (fun _ => []) (fun _ => none)
    (fun _ => rfl)
    (fun p d hd => absurd hd (List.not_mem_nil d))
    (fun _ => rfl)
    (fun _ it h => Option.noConfusion h)
    (by
      intro ids k h
      rw [run_chunk] at h
      simp only [wOracle, idleSvc] at h
      by_cases hk : k ∈ ids
      · exact hk
      · exfalso
        apply h
        apply dlookup_none_of_not_mem_keys
        rw [initMapping, keys_map_self]
        exact hk)
    (by
      intro j rs h
      simp only [wOracle, idleSvc] at h
      injection h with h2
      intro rw2 hrw2
      rw [← h2] at hrw2
      exact absurd hrw2 (List.not_mem_nil rw2))
    rfl
